import Mathlib

/-!
Verification of the pattern-planner core (catalogue module) against its
specification.  The Rust sources are shallowly embedded:

* machine integers (`usize`, `i32`) are modelled as `Nat` / `Int`; none of the
  verified paths can overflow on the inputs considered;
* `OrderedFloat<f64>` cost and count values are modelled as exact rationals
  (`ℚ`); the claims under study are about which components are combined,
  not about rounding, and every concrete input below is exactly
  representable in `f64`;
* `VecMap` and `BTreeMap` are modelled as association lists sorted strictly
  by key (both iterate in ascending key order);
* fallible functions return `Option`/`Except`, mirroring the Rust
  `Option`/`IrResult` signatures;
* loops whose termination is not structural are given explicit fuel that
  provably dominates the loop measure.
-/

namespace Spec2Proof

/-! ## Cost tuples (plan.rs, struct CostCount) -/

/-- CostCount from plan.rs: five cost components.  `OrderedFloat<f64>` is
modelled as `ℚ`. -/
structure CostCount where
  instance_count : ℚ
  adjacency_count : ℚ
  intersect_count : ℚ
  left_join_count : ℚ
  right_join_count : ℚ
  deriving DecidableEq, Repr

namespace CostCount

/-- The `impl Add for CostCount` in plan.rs, field by field.  Note the
source adds `rhs.left_join_count` into `right_join_count`. -/
def add (a b : CostCount) : CostCount where
  instance_count := a.instance_count + b.instance_count
  adjacency_count := a.adjacency_count + b.adjacency_count
  intersect_count := a.intersect_count + b.intersect_count
  left_join_count := a.left_join_count + b.left_join_count
  right_join_count := a.right_join_count + b.left_join_count

/-- The `impl AddAssign for CostCount` in plan.rs (componentwise). -/
def addAssign (a b : CostCount) : CostCount where
  instance_count := a.instance_count + b.instance_count
  adjacency_count := a.adjacency_count + b.adjacency_count
  intersect_count := a.intersect_count + b.intersect_count
  left_join_count := a.left_join_count + b.left_join_count
  right_join_count := a.right_join_count + b.right_join_count

end CostCount

/-! ## Record sampling (sample.rs, fn sample_records / fn split_vector) -/

/-- Conversion `f.floor() as usize` applied to a non-negative quantity
(Rust saturates negative values to 0, as does `Int.toNat`). -/
def floorNatQ (q : ℚ) : Nat := (⌊q⌋).toNat

/-- Swap of two positions of a vector (`Vec::swap`); out-of-range indices
leave the list unchanged (the call sites below stay in range). -/
def listSwap (l : List α) (i j : Nat) : List α :=
  match l.get? i, l.get? j with
  | some a, some b => (l.set i b).set j a
  | _, _ => l

/-- The usize::MAX produced by `(len as f64 / 0.0).floor() as usize`
when the expected length is zero. -/
def usizeMax : Nat := 2 ^ 64 - 1

/-- The stride-permute-then-truncate tail of `sample_records`, after the
early return: `expected_len` is already computed. -/
def sampleRecordsTail (records : List α) (expected_len : Nat) : List α :=
  let step : Nat := if expected_len = 0 then usizeMax else records.length / expected_len
  let records :=
    if 1 < step then
      (List.range (records.length / step)).foldl
        (fun (acc : List α × Nat) pi0 => (listSwap acc.1 acc.2 (pi0 * step), acc.2 + 1))
        (records, 0) |>.1
    else records
  records.take expected_len

/-- The `sample_records` function from sample.rs.  When `limit` is `some l`
and the input is already no longer than `l` it is returned unchanged;
otherwise the expected length is `⌊len·rate⌋` capped by `l`. -/
def sampleRecords (records : List α) (rate : ℚ) (limit : Option Nat) : List α :=
  match limit with
  | some lower_bound =>
    if records.length ≤ lower_bound then records
    else
      sampleRecordsTail records
        (min (floorNatQ ((records.length : ℚ) * rate)) lower_bound)
  | none => sampleRecordsTail records (floorNatQ ((records.length : ℚ) * rate))

theorem sampleRecords_some (records : List α) (rate : ℚ) (lower_bound : Nat) :
    sampleRecords records rate (some lower_bound)
      = if records.length ≤ lower_bound then records
        else sampleRecordsTail records
          (min (floorNatQ ((records.length : ℚ) * rate)) lower_bound) := rfl

/-- The `split_vector` function from sample.rs: the contiguous slice of
the input handed to worker `thread_id` out of `thread_num`. -/
def splitVector (vector : List α) (thread_num thread_id : Nat) : List α :=
  (vector.take
    (if thread_id = thread_num - 1 then vector.length
     else vector.length / thread_num * (thread_id + 1))).drop
    (vector.length / thread_num * thread_id)

/-! ### Helper lemmas for the sampler -/

theorem listSwap_length (l : List α) (i j : Nat) :
    (listSwap l i j).length = l.length := by
  unfold listSwap
  cases h1 : l.get? i <;> cases h2 : l.get? j <;> simp

theorem swapFold_length (step : Nat) (pis : List Nat) (st : List α × Nat) :
    ((pis.foldl
      (fun (acc : List α × Nat) pi0 => (listSwap acc.1 acc.2 (pi0 * step), acc.2 + 1))
      st).1).length = st.1.length := by
  induction pis generalizing st with
  | nil => rfl
  | cons p ps ih =>
    simpa [List.foldl_cons, listSwap_length] using
      ih (listSwap st.1 st.2 (p * step), st.2 + 1)

theorem sampleRecordsTail_length (records : List α) (expected_len : Nat)
    (h : expected_len ≤ records.length) :
    (sampleRecordsTail records expected_len).length = expected_len := by
  unfold sampleRecordsTail
  by_cases hs : 1 < (if expected_len = 0 then usizeMax else records.length / expected_len)
  · simp only [hs, if_true]
    rw [List.length_take, swapFold_length]
    show min expected_len records.length = expected_len
    omega
  · simp only [hs, if_false]
    rw [List.length_take]
    omega

theorem splitVector_flattenAux (v : List α) (n : Nat) (k : Nat) (hk : k ≤ n - 1) :
    ((List.range k).map (fun tid => splitVector v n tid)).flatten
      = v.take (v.length / n * k) := by
  induction k with
  | zero => simp
  | succ m ih =>
    have hm : m ≤ n - 1 := Nat.le_of_succ_le hk
    have hne : m ≠ n - 1 := by omega
    rw [List.range_succ, List.map_append, List.flatten_append, ih hm]
    have hsv : splitVector v n m
        = List.take (v.length / n) (v.drop (v.length / n * m)) := by
      unfold splitVector
      rw [if_neg hne]
      rw [List.drop_take]
      have harith : v.length / n * (m + 1) - v.length / n * m = v.length / n := by
        rw [Nat.mul_succ, Nat.add_sub_cancel_left]
      rw [harith]
    simp only [List.map_cons, List.map_nil, List.flatten_cons, List.flatten_nil, List.append_nil]
    rw [hsv]
    rw [← List.take_add, Nat.mul_succ]

/-! ## Claim theorems: C3, C9, C10 -/

/-- C3 (code_bug evaluation): at `a = (0,0,0,0,0)` and `b = (0,0,0,1,0)` the
source `Add` puts `b.left_join_count` into the sum's `right_join_count`
(yielding 1 where componentwise addition yields 0), so `a + b` is not
componentwise and differs from `a += b`, refuting the claim that both are
the componentwise sum. -/
theorem claim_C3 :
    (CostCount.add ⟨0, 0, 0, 0, 0⟩ ⟨0, 0, 0, 1, 0⟩).right_join_count = 1 ∧
    (CostCount.addAssign ⟨0, 0, 0, 0, 0⟩ ⟨0, 0, 0, 1, 0⟩).right_join_count = 0 ∧
    CostCount.add ⟨0, 0, 0, 0, 0⟩ ⟨0, 0, 0, 1, 0⟩
      ≠ CostCount.addAssign ⟨0, 0, 0, 0, 0⟩ ⟨0, 0, 0, 1, 0⟩ := by
  refine ⟨by norm_num [CostCount.add], by norm_num [CostCount.addAssign], ?_⟩
  intro hcontra
  have := congrArg CostCount.right_join_count hcontra
  norm_num [CostCount.add, CostCount.addAssign] at this

/-- C9 counterexample: for `rs = [0,1,2,3]`, `rate = 1/2`, `limit = some 3`
the sample has 2 records, strictly fewer than `min 3 (length rs) = 3`; the
limit acts as an upper cap on the expected length, not as a lower bound. -/
theorem claim_C9_counterexample :
    (sampleRecords [0, 1, 2, 3] (1 / 2 : ℚ) (some 3)).length = 2 ∧
    (sampleRecords [0, 1, 2, 3] (1 / 2 : ℚ) (some 3)).length
      < min 3 ([0, 1, 2, 3] : List Nat).length := by
  have hlen : ([0, 1, 2, 3] : List Nat).length = 4 := by decide
  have hf : floorNatQ ((([0, 1, 2, 3] : List Nat).length : ℚ) * (1 / 2)) = 2 := by
    rw [hlen]
    unfold floorNatQ
    norm_num
    decide
  have h2 : (sampleRecords [0, 1, 2, 3] (1 / 2 : ℚ) (some 3)).length = 2 := by
    rw [sampleRecords_some]
    rw [if_neg (by rw [hlen]; omega)]
    rw [sampleRecordsTail_length _ _ (by rw [hf, hlen]; omega)]
    rw [hf]
    omega
  exact ⟨h2, by rw [h2, hlen]; omega⟩

/-- C9 (amended): for every record list, rate in `[0,1]` and limit
`some l`, the input is returned unchanged when its length is at most `l`;
otherwise the sample has exactly `min ⌊len·rate⌋ l` records (the limit is
an upper cap, and the result can be smaller than `l`). -/
theorem claim_C9 (records : List α) (rate : ℚ) (l : Nat)
    (h0 : 0 ≤ rate) (h1 : rate ≤ 1) :
    (records.length ≤ l → sampleRecords records rate (some l) = records) ∧
    (l < records.length →
      (sampleRecords records rate (some l)).length
        = min (floorNatQ ((records.length : ℚ) * rate)) l) := by
  constructor
  · intro hle
    rw [sampleRecords_some, if_pos hle]
  · intro hlt
    rw [sampleRecords_some, if_neg (by omega)]
    exact sampleRecordsTail_length _ _ (by omega)

/-- C9 witness for the amended theorem: at `rs = [0,1,2]`, `rate = 1/2`,
`l = 5` the input is returned unchanged (length 3 is at most 5). -/
theorem claim_C9_witness :
    (0 ≤ (1 / 2 : ℚ) ∧ (1 / 2 : ℚ) ≤ 1) ∧
    sampleRecords ([0, 1, 2] : List Nat) (1 / 2 : ℚ) (some 5) = [0, 1, 2] := by
  refine ⟨⟨by norm_num, by norm_num⟩, ?_⟩
  exact (claim_C9 [0, 1, 2] (1 / 2 : ℚ) 5 (by norm_num) (by norm_num)).1 (by decide)

/-- C10: for every vector and `n ≥ 1` threads, the `n` slices produced by
`split_vector` are contiguous subranges whose concatenation in thread-id
order is exactly the input vector, so the slices partition the records and
each record is processed by exactly one worker. -/
theorem claim_C10 (v : List α) (n : Nat) (h : 1 ≤ n) :
    ((List.range n).map (fun tid => splitVector v n tid)).flatten = v := by
  obtain ⟨m, rfl⟩ : ∃ m, n = m + 1 := ⟨n - 1, by omega⟩
  rw [List.range_succ, List.map_append, List.flatten_append,
    splitVector_flattenAux v (m + 1) m (by omega)]
  have hlast : splitVector v (m + 1) m = v.drop (v.length / (m + 1) * m) := by
    unfold splitVector
    rw [if_pos (by omega)]
    rw [List.take_length]
  simp only [List.map_cons, List.map_nil, List.flatten_cons, List.flatten_nil, List.append_nil]
  rw [hlast]
  exact List.take_append_drop _ v

/-- C10 witness: three records split across two workers give `[0,1]` and
`[2]`, whose concatenation is the input. -/
theorem claim_C10_witness :
    1 ≤ 2 ∧
    ((List.range 2).map (fun tid => splitVector ([0, 1, 2] : List Nat) 2 tid)).flatten
      = [0, 1, 2] :=
  ⟨by decide, claim_C10 [0, 1, 2] 2 (by decide)⟩

/-! ## The pattern data model (pattern.rs)

Identifiers (`PatternId = usize`) are `Nat`; labels (`PatternLabelId = i32`)
are `Int`.  A `VecMap`/`BTreeMap` with `Nat` keys is an association list
sorted strictly by key, matching the ascending-key iteration order of both
Rust containers. -/

/-- The error kinds surfaced by the pattern-edit paths of `IrError`. -/
inductive IrError where
  | invalidPattern (msg : String)
  | invalidCode (msg : String)
  | unsupported (msg : String)
  deriving DecidableEq, Repr

/-- PatternDirection from catalogue/mod.rs: `Out` is declared first, and the
derived order (used by `cmp_adjacencies`) puts `Out` before `In`. -/
inductive PatternDirection where
  | Out
  | In
  deriving DecidableEq, Repr

/-- Derived `Ord` of `PatternDirection`: declaration order. -/
def PatternDirection.cmp : PatternDirection → PatternDirection → Ordering
  | .Out, .Out => .eq
  | .Out, .In => .lt
  | .In, .Out => .gt
  | .In, .In => .eq

/-- The `reverse` method on `PatternDirection`. -/
def PatternDirection.reverse : PatternDirection → PatternDirection
  | .Out => .In
  | .In => .Out

structure PatternVertex where
  id : Nat
  label : Int
  deriving DecidableEq, Repr

structure PatternEdge where
  id : Nat
  label : Int
  start_vertex : PatternVertex
  end_vertex : PatternVertex
  deriving DecidableEq, Repr

/-- Adjacency from pattern.rs: one endpoint's view of an incident edge. -/
structure Adjacency where
  edge_id : Nat
  edge_label : Int
  adj_vertex : PatternVertex
  direction : PatternDirection
  deriving DecidableEq, Repr

/-- The `Adjacency::new(src_vertex, edge)` constructor: matches the start
endpoint first (so a self-loop yields direction `Out` for both slots). -/
def Adjacency.new (src_vertex : PatternVertex) (edge : PatternEdge) : Option Adjacency :=
  if (src_vertex.id, src_vertex.label)
      = (edge.start_vertex.id, edge.start_vertex.label) then
    some ⟨edge.id, edge.label, edge.end_vertex, .Out⟩
  else if (src_vertex.id, src_vertex.label)
      = (edge.end_vertex.id, edge.end_vertex.label) then
    some ⟨edge.id, edge.label, edge.start_vertex, .In⟩
  else
    none

/-- Fallback value standing for the `unwrap()` of `Adjacency::new` at call
sites; every verified call site has a matching endpoint, so this value is
never produced there. -/
def Adjacency.panicValue : Adjacency := ⟨0, 0, ⟨0, 0⟩, .Out⟩

/-- Per-vertex side data (`PatternVertexData`).  The opaque pb predicate
expression is modelled as `Unit` (the codec and all verified operations
never inspect it). -/
structure PatternVertexData where
  group : Nat
  rank : Nat
  out_adjacencies : List Adjacency
  in_adjacencies : List Adjacency
  tag : Option Nat
  predicate : Option Unit
  deriving DecidableEq, Repr

def PatternVertexData.default : PatternVertexData := ⟨0, 0, [], [], none, none⟩

/-- Per-edge side data (`PatternEdgeData`). -/
structure PatternEdgeData where
  rank : Nat
  tag : Option Nat
  predicate : Option Unit
  deriving DecidableEq, Repr

def PatternEdgeData.default : PatternEdgeData := ⟨0, none, none⟩

/-! ### Sorted association lists (VecMap / BTreeMap with Nat keys) -/

namespace VMap

/-- Lookup (`VecMap::get` / `BTreeMap::get`). -/
def get (m : List (Nat × α)) (k : Nat) : Option α :=
  match m with
  | [] => none
  | (k0, v0) :: rest => if k = k0 then some v0 else get rest k

/-- Insert or replace, keeping keys sorted ascending. -/
def insert (m : List (Nat × α)) (k : Nat) (v : α) : List (Nat × α) :=
  match m with
  | [] => [(k, v)]
  | (k0, v0) :: rest =>
    if k < k0 then (k, v) :: (k0, v0) :: rest
    else if k = k0 then (k, v) :: rest
    else (k0, v0) :: insert rest k v

/-- Removal (`VecMap::remove` / `BTreeMap::remove`). -/
def erase (m : List (Nat × α)) (k : Nat) : List (Nat × α) :=
  match m with
  | [] => []
  | (k0, v0) :: rest => if k = k0 then rest else (k0, v0) :: erase rest k

def containsKey (m : List (Nat × α)) (k : Nat) : Bool :=
  (get m k).isSome

/-- The `entry(k).or_insert(d)`-then-update idiom: applies `f` to the
present value, or to the default when absent. -/
def updateD (m : List (Nat × α)) (k : Nat) (d : α) (f : α → α) : List (Nat × α) :=
  match get m k with
  | some v => insert m k (f v)
  | none => insert m k (f d)

end VMap

/-- The lexicographic key order used by the `BTreeMap<(PatternLabelId,
PatternId), _>` of vertex groups. -/
def lgLt (a b : Int × Nat) : Bool :=
  a.1 < b.1 ∨ (a.1 = b.1 ∧ a.2 < b.2)

/-- Insert into the (label, group)-keyed bucket map, pushing onto the
bucket vector when the key is present (the `entry().and_modify().or_insert`
idiom). -/
def lgPush (m : List ((Int × Nat) × List Nat)) (k : Int × Nat) (v : Nat) :
    List ((Int × Nat) × List Nat) :=
  match m with
  | [] => [(k, [v])]
  | (k0, vs) :: rest =>
    if lgLt k k0 then (k, [v]) :: (k0, vs) :: rest
    else if k = k0 then (k0, vs ++ [v]) :: rest
    else (k0, vs) :: lgPush rest k v

/-! ### The Pattern structure -/

structure Pattern where
  edges : List (Nat × PatternEdge)
  vertices : List (Nat × PatternVertex)
  edges_data : List (Nat × PatternEdgeData)
  vertices_data : List (Nat × PatternVertexData)
  rank_edge_map : List (Nat × Nat)
  rank_vertex_map : List (Nat × Nat)
  tag_edge_map : List (Nat × Nat)
  tag_vertex_map : List (Nat × Nat)
  deriving DecidableEq, Repr

namespace Pattern

def empty : Pattern := ⟨[], [], [], [], [], [], [], []⟩

def getVertex (p : Pattern) (vertex_id : Nat) : Option PatternVertex :=
  VMap.get p.vertices vertex_id

def getEdge (p : Pattern) (edge_id : Nat) : Option PatternEdge :=
  VMap.get p.edges edge_id

def getVerticesNum (p : Pattern) : Nat := p.vertices.length

def getEdgesNum (p : Pattern) : Nat := p.edges.length

def getVertexRank (p : Pattern) (vertex_id : Nat) : Option Nat :=
  (VMap.get p.vertices_data vertex_id).map (fun vd => vd.rank)

def getVertexGroup (p : Pattern) (vertex_id : Nat) : Option Nat :=
  (VMap.get p.vertices_data vertex_id).map (fun vd => vd.group)

def getEdgeRank (p : Pattern) (edge_id : Nat) : Option Nat :=
  (VMap.get p.edges_data edge_id).map (fun ed => ed.rank)

def getEdgeTag (p : Pattern) (edge_id : Nat) : Option Nat :=
  (VMap.get p.edges_data edge_id).bind (fun ed => ed.tag)

def getVertexTag (p : Pattern) (vertex_id : Nat) : Option Nat :=
  (VMap.get p.vertices_data vertex_id).bind (fun vd => vd.tag)

def getVertexFromRank (p : Pattern) (vertex_rank : Nat) : Option PatternVertex :=
  (VMap.get p.rank_vertex_map vertex_rank).bind (fun vid => p.getVertex vid)

def getVertexOutDegree (p : Pattern) (vertex_id : Nat) : Nat :=
  ((VMap.get p.vertices_data vertex_id).map
    (fun vd => vd.out_adjacencies.length)).getD 0

def getVertexInDegree (p : Pattern) (vertex_id : Nat) : Nat :=
  ((VMap.get p.vertices_data vertex_id).map
    (fun vd => vd.in_adjacencies.length)).getD 0

def getVertexDegree (p : Pattern) (vertex_id : Nat) : Nat :=
  p.getVertexOutDegree vertex_id + p.getVertexInDegree vertex_id

/-- Out-adjacencies followed by in-adjacencies (`adjacencies_iter`). -/
def adjacencies (p : Pattern) (vertex_id : Nat) : List Adjacency :=
  match VMap.get p.vertices_data vertex_id with
  | some vd => vd.out_adjacencies ++ vd.in_adjacencies
  | none => []

/-- The largest vertex id (`get_max_vertex_id`); the Rust source unwraps and
panics on an empty pattern, which no verified call site reaches. -/
def getMaxVertexId (p : Pattern) : Nat :=
  ((p.vertices.map Prod.fst).getLast?).getD 0

/-- The largest edge id, or 0 when there are no edges (`unwrap_or(0)`). -/
def getMaxEdgeId (p : Pattern) : Nat :=
  ((p.edges.map Prod.fst).getLast?).getD 0

def getMinVertexLabel (p : Pattern) : Option Int :=
  (p.vertices.map (fun kv => kv.2.label)).min?

end Pattern

/-! ### Canonical labeling (canonical_label.rs) -/

/-- CanonicalLabelManager: the scratch state of canonical labeling.  Ranks
are `Option Nat` (`None` = not yet ranked). -/
structure CanonicalLabelManager where
  vertex_adjacencies_map : List (Nat × List Adjacency)
  vertex_group_map : List (Nat × Nat)
  vertex_groups : List ((Int × Nat) × List Nat)
  has_converged : Bool
  edge_rank_map : List (Nat × Option Nat)
  vertex_rank_map : List (Nat × Option Nat)
  deriving DecidableEq, Repr

namespace CanonicalLabelManager

def getVertexGroup (m : CanonicalLabelManager) (vertex_id : Nat) : Option Nat :=
  VMap.get m.vertex_group_map vertex_id

/-- The manager's `get_vertex_rank`; the Rust source unwraps the outer map
lookup, and all call sites query vertices of the pattern, which are always
keys of the map. -/
def getVertexRank (m : CanonicalLabelManager) (vertex_id : Nat) : Option Nat :=
  (VMap.get m.vertex_rank_map vertex_id).getD none

/-- Comparison of two optional ranks: an unset rank sorts before any set
rank (the `Ord` of Rust `Option`). -/
def cmpRankOption : Option Nat → Option Nat → Ordering
  | none, none => .eq
  | none, some _ => .lt
  | some _, none => .gt
  | some r1, some r2 => compare r1 r2

/-- The `cmp_adjacencies` comparison: lexicographic on (direction,
adjacent-vertex label, edge label), then adjacent-vertex group, then
adjacent-vertex optional rank. -/
def cmpAdjacencies (m : CanonicalLabelManager) (adj1 adj2 : Adjacency) : Ordering :=
  ((adj1.direction.cmp adj2.direction).then
    ((compare adj1.adj_vertex.label adj2.adj_vertex.label).then
      (compare adj1.edge_label adj2.edge_label))).then
    ((compare ((m.getVertexGroup adj1.adj_vertex.id).getD 0)
        ((m.getVertexGroup adj2.adj_vertex.id).getD 0)).then
      (cmpRankOption (m.getVertexRank adj1.adj_vertex.id)
        (m.getVertexRank adj2.adj_vertex.id)))

/-- Stable sort of one adjacency list under `cmp_adjacencies` (Rust
`sort_by` is stable, as is insertion sort). -/
def sortAdjacencyList (m : CanonicalLabelManager) (l : List Adjacency) : List Adjacency :=
  l.insertionSort (fun a b => m.cmpAdjacencies a b ≠ Ordering.gt)

/-- Re-sort every vertex's adjacency list (`update_vertex_adjacencies_order`;
its inline comparator is the same lexicographic chain as
`cmp_adjacencies`). -/
def updateVertexAdjacenciesOrder (m : CanonicalLabelManager) : CanonicalLabelManager :=
  { m with vertex_adjacencies_map :=
      m.vertex_adjacencies_map.map (fun kv => (kv.1, m.sortAdjacencyList kv.2)) }

/-- Lexicographic comparison of two adjacency lists, position by position
(`cmp_vertices` reaches this only when the lists have equal length). -/
def cmpAdjacencyLists (m : CanonicalLabelManager) (l1 l2 : List Adjacency) : Ordering :=
  (l1.zip l2).foldl (fun o ab => o.then (m.cmpAdjacencies ab.1 ab.2)) .eq

/-- The `cmp_vertices` comparison: (label, out-degree, in-degree, sorted
adjacency lists), lexicographically. -/
def cmpVertices (p : Pattern) (m : CanonicalLabelManager) (v1_id v2_id : Nat) : Ordering :=
  (compare (((p.getVertex v1_id).map (fun v => v.label)).getD 0)
      (((p.getVertex v2_id).map (fun v => v.label)).getD 0)).then
    ((compare (p.getVertexOutDegree v1_id) (p.getVertexOutDegree v2_id)).then
      ((compare (p.getVertexInDegree v1_id) (p.getVertexInDegree v2_id)).then
        (m.cmpAdjacencyLists ((VMap.get m.vertex_adjacencies_map v1_id).getD [])
          ((VMap.get m.vertex_adjacencies_map v2_id).getD []))))

/-- The manager construction `From<&Pattern>`: adjacency lists are copied
from the pattern, groups start at 0, ranks at `None`, and the adjacency
lists are sorted once. -/
def fromPattern (p : Pattern) : CanonicalLabelManager :=
  let m : CanonicalLabelManager :=
    { vertex_adjacencies_map := p.vertices.map (fun kv => (kv.1, p.adjacencies kv.1))
      vertex_group_map := p.vertices.map (fun kv => (kv.1, 0))
      vertex_groups :=
        p.vertices.foldl (fun gs kv => lgPush gs (kv.2.label, 0) kv.1) []
      has_converged := false
      edge_rank_map := p.edges.map (fun kv => (kv.1, none))
      vertex_rank_map := p.vertices.map (fun kv => (kv.1, none)) }
  m.updateVertexAdjacenciesOrder

/-- The per-bucket group computation of `refine_vertex_groups`: vertex `i`
of the bucket receives `initial_group` plus one for every other bucket
member that compares strictly below it (counted exactly as the Rust double
loop increments `vertex_group_tmp_vec`). -/
def bucketGroups (cmpv : Nat → Nat → Ordering) (initial_group : Nat) (bucket : List Nat) :
    List (Nat × Nat) :=
  bucket.enum.map (fun iv =>
    (iv.2, initial_group
      + (bucket.enum.filter (fun jw => jw.1 < iv.1 ∧ cmpv jw.2 iv.2 = .lt)).length
      + (bucket.enum.filter (fun jw => iv.1 < jw.1 ∧ cmpv iv.2 jw.2 = .gt)).length))

/-- One refinement pass (`refine_vertex_groups`): rebuild the group map and
buckets, record convergence, then re-sort adjacency lists. -/
def refineVertexGroups (p : Pattern) (m : CanonicalLabelManager) : CanonicalLabelManager :=
  let step := m.vertex_groups.foldl
    (fun (acc : List (Nat × Nat) × List ((Int × Nat) × List Nat) × Bool) bucket0 =>
      let vlabel := bucket0.1.1
      let initial_group := bucket0.1.2
      (bucketGroups (fun v1 v2 => cmpVertices p m v1 v2) initial_group bucket0.2).foldl
        (fun acc vg =>
          (VMap.insert acc.1 vg.1 vg.2,
           lgPush acc.2.1 (vlabel, vg.2) vg.1,
           acc.2.2 && (vg.2 == initial_group)))
        acc)
    ([], [], true)
  let m := { m with
    vertex_group_map := step.1
    vertex_groups := step.2.1
    has_converged := step.2.2 }
  m.updateVertexAdjacenciesOrder

/-- The refinement loop (`vertex_grouping`), with fuel: each non-converged
pass strictly increases the group-value sum, which is bounded by `V²`, so
`V² + 2` passes always reach the converged fixpoint the Rust `while` loop
stops at. -/
def vertexGroupingAux (p : Pattern) : Nat → CanonicalLabelManager → CanonicalLabelManager
  | 0, m => m
  | fuel + 1, m =>
    if m.has_converged then m
    else vertexGroupingAux p fuel (refineVertexGroups p m)

def vertexGrouping (p : Pattern) (m : CanonicalLabelManager) : CanonicalLabelManager :=
  vertexGroupingAux p (p.vertices.length * p.vertices.length + 2) m

/-- Start vertex of pattern ranking: the first (in id order) vertex of
minimum label with minimum group (Rust `min_by` keeps the first minimum). -/
def getPatternRankingStartVertex (p : Pattern) (m : CanonicalLabelManager) : Option Nat :=
  match p.getMinVertexLabel with
  | none => none
  | some min_v_label =>
    ((p.vertices.filter (fun kv => kv.2.label = min_v_label)).map Prod.fst).foldl
      (fun acc vid =>
        match acc with
        | none => some vid
        | some best =>
          if (m.getVertexGroup vid).getD 0 < (m.getVertexGroup best).getD 0 then some vid
          else acc)
      none

/-- The next unranked seed for a disconnected pattern: first minimum of
(label, group) among unranked vertices. -/
def nextUnrankedSeed (p : Pattern) (m : CanonicalLabelManager) : Option Nat :=
  ((p.vertices.filter (fun kv => m.getVertexRank kv.1 = none)).foldl
    (fun (acc : Option (Nat × Int × Nat)) kv =>
      let cand : Nat × Int × Nat := (kv.1, kv.2.label, (m.getVertexGroup kv.1).getD 0)
      match acc with
      | none => some cand
      | some best =>
        if cand.2.1 < best.2.1 ∨ (cand.2.1 = best.2.1 ∧ cand.2.2 < best.2.2) then some cand
        else acc)
    none).map (fun best => best.1)

/-- The DFS state of `pattern_ranking_from_vertex`: the manager, the
per-run visited edge set, the adjacency stack (head = top), and the two
next-free rank counters. -/
structure DfsState where
  mgr : CanonicalLabelManager
  visited : List Nat
  stack : List Adjacency
  nextV : Nat
  nextE : Nat
  deriving Repr

/-- One-run DFS loop of `pattern_ranking_from_vertex`.  Popping an already
visited edge skips; otherwise the edge is ranked, the far endpoint is
ranked when new, all adjacency lists are re-sorted, and the far endpoint's
unvisited adjacencies are pushed (`rev()` before `push_back` makes pops
yield list order, so pushing is list-prepending). -/
def dfsLoop : Nat → DfsState → DfsState
  | 0, st => st
  | fuel + 1, st =>
    match st.stack with
    | [] => st
    | adjacency :: rest =>
      if st.visited.contains adjacency.edge_id then
        dfsLoop fuel { st with stack := rest }
      else
        let visited := adjacency.edge_id :: st.visited
        let mgr := { st.mgr with
          edge_rank_map := VMap.insert st.mgr.edge_rank_map adjacency.edge_id (some st.nextE) }
        let current_v_id := adjacency.adj_vertex.id
        let is_vertex_visited := (mgr.getVertexRank current_v_id).isSome
        let mgr :=
          if is_vertex_visited then mgr
          else { mgr with
            vertex_rank_map := VMap.insert mgr.vertex_rank_map current_v_id (some st.nextV) }
        let nextV := if is_vertex_visited then st.nextV else st.nextV + 1
        let mgr := mgr.updateVertexAdjacenciesOrder
        let to_push := ((VMap.get mgr.vertex_adjacencies_map current_v_id).getD []).filter
          (fun adj => ¬ visited.contains adj.edge_id)
        dfsLoop fuel
          { mgr := mgr, visited := visited, stack := to_push ++ rest,
            nextV := nextV, nextE := st.nextE + 1 }

/-- Fuel that dominates the DFS loop measure: at most `E` pops rank a new
edge, each pushing at most `A` adjacencies (`A` = total adjacency-list
length, which re-sorting preserves), and every other pop shrinks the
stack. -/
def dfsFuel (m : CanonicalLabelManager) : Nat :=
  let A := (m.vertex_adjacencies_map.map (fun kv => kv.2.length)).sum
  (m.edge_rank_map.length + 1) * (A + 2) + A + 2

/-- One ranking run (`pattern_ranking_from_vertex`): seed the start vertex
with rank 0 and drain the DFS stack seeded with its adjacencies. -/
def patternRankingFromVertex (m : CanonicalLabelManager) (start_v_id : Nat) :
    CanonicalLabelManager :=
  let m := { m with
    vertex_rank_map := VMap.insert m.vertex_rank_map start_v_id (some 0) }
  let st : DfsState :=
    { mgr := m
      visited := []
      stack := (VMap.get m.vertex_adjacencies_map start_v_id).getD []
      nextV := 1
      nextE := 0 }
  (dfsLoop (dfsFuel m) st).mgr

/-- The restart loop of `pattern_ranking`: every iteration ranks at least
its seed, so `V + 1` iterations suffice. -/
def patternRankingLoop (p : Pattern) : Nat → CanonicalLabelManager → Nat →
    CanonicalLabelManager
  | 0, m, _ => m
  | fuel + 1, m, start_v_id =>
    let m := patternRankingFromVertex m start_v_id
    match nextUnrankedSeed p m with
    | some next => patternRankingLoop p fuel m next
    | none => m

/-- Pattern ranking (`pattern_ranking`): rank from the start vertex,
restarting on the minimum unranked (label, group) vertex while the pattern
has unranked vertices. -/
def patternRanking (p : Pattern) (m : CanonicalLabelManager) : CanonicalLabelManager :=
  match getPatternRankingStartVertex p m with
  | none => m
  | some start_v_id => patternRankingLoop p (p.vertices.length + 1) m start_v_id

end CanonicalLabelManager

namespace Pattern

/-- The `set_vertex_group` setter. -/
def setVertexGroup (p : Pattern) (vertex_id group : Nat) : Pattern :=
  match VMap.get p.vertices_data vertex_id with
  | some vd =>
    { p with vertices_data := VMap.insert p.vertices_data vertex_id { vd with group := group } }
  | none => p

/-- The `set_vertex_rank` setter (also records the rank → id entry). -/
def setVertexRank (p : Pattern) (vertex_id vertex_rank : Nat) : Pattern :=
  match VMap.get p.vertices_data vertex_id with
  | some vd =>
    { p with
      rank_vertex_map := VMap.insert p.rank_vertex_map vertex_rank vertex_id
      vertices_data := VMap.insert p.vertices_data vertex_id { vd with rank := vertex_rank } }
  | none => p

/-- The `set_edge_rank` setter (also records the rank → id entry). -/
def setEdgeRank (p : Pattern) (edge_id edge_rank : Nat) : Pattern :=
  match VMap.get p.edges_data edge_id with
  | some ed =>
    { p with
      rank_edge_map := VMap.insert p.rank_edge_map edge_rank edge_id
      edges_data := VMap.insert p.edges_data edge_id { ed with rank := edge_rank } }
  | none => p

/-- The `update_vertex_groups` write-back. -/
def updateVertexGroups (p : Pattern) (m : CanonicalLabelManager) : Pattern :=
  m.vertex_group_map.foldl (fun p kv => p.setVertexGroup kv.1 kv.2) p

/-- The `update_pattern_ranks` write-back; the `expect` on a missing rank
never fires because ranking assigns a rank to every vertex and edge, and is
modelled by `getD 0`. -/
def updatePatternRanks (p : Pattern) (m : CanonicalLabelManager) : Pattern :=
  let p := { p with rank_vertex_map := [] }
  let p := m.vertex_rank_map.foldl (fun p kv => p.setVertexRank kv.1 (kv.2.getD 0)) p
  let p := { p with rank_edge_map := [] }
  m.edge_rank_map.foldl (fun p kv => p.setEdgeRank kv.1 (kv.2.getD 0)) p

/-- The `canonical_labeling` routine: group, rank, write back. -/
def canonicalLabeling (p : Pattern) : Pattern :=
  let m := CanonicalLabelManager.fromPattern p
  let m := m.vertexGrouping p
  let m := m.patternRanking p
  let p := p.updateVertexGroups m
  p.updatePatternRanks m

/-- Update a vertex's side data in place when present (the guarded
`vertices_data.get_mut` idiom). -/
def updateVData (p : Pattern) (vertex_id : Nat) (f : PatternVertexData → PatternVertexData) :
    Pattern :=
  match VMap.get p.vertices_data vertex_id with
  | some vd => { p with vertices_data := VMap.insert p.vertices_data vertex_id (f vd) }
  | none => p

/-- The `From<PatternVertex>` constructor: a single-vertex pattern with the
vertex pre-ranked 0. -/
def fromSingleVertex (vertex : PatternVertex) : Pattern :=
  { empty with
    vertices := [(vertex.id, vertex)]
    vertices_data := [(vertex.id, PatternVertexData.default)]
    rank_vertex_map := [(0, vertex.id)] }

/-- The edge-folding body of `TryFrom<Vec<PatternEdge>>`: insert the edge,
or-insert both endpoints, and push the two adjacency records (built from
the stored endpoint entries, as the source does). -/
def fromEdgesStep (p : Pattern) (edge : PatternEdge) : Pattern :=
  let p := { p with
    edges := VMap.insert p.edges edge.id edge
    edges_data := VMap.insert p.edges_data edge.id PatternEdgeData.default }
  let start_vertex := (VMap.get p.vertices edge.start_vertex.id).getD edge.start_vertex
  let p := { p with vertices := VMap.insert p.vertices edge.start_vertex.id start_vertex }
  let p := { p with
    vertices_data := VMap.updateD p.vertices_data start_vertex.id PatternVertexData.default
      (fun vd => { vd with
        out_adjacencies := vd.out_adjacencies
          ++ [(Adjacency.new start_vertex edge).getD Adjacency.panicValue] }) }
  let end_vertex := (VMap.get p.vertices edge.end_vertex.id).getD edge.end_vertex
  let p := { p with vertices := VMap.insert p.vertices edge.end_vertex.id end_vertex }
  { p with
    vertices_data := VMap.updateD p.vertices_data end_vertex.id PatternVertexData.default
      (fun vd => { vd with
        in_adjacencies := vd.in_adjacencies
          ++ [(Adjacency.new end_vertex edge).getD Adjacency.panicValue] }) }

/-- The `TryFrom<Vec<PatternEdge>>` constructor (`from_edges`): builds the
maps edge by edge and canonicalizes; an empty list is `Empty pattern`. -/
def tryFromEdges (edges : List PatternEdge) : Except IrError Pattern :=
  if edges.isEmpty then .error (.invalidPattern "Empty pattern")
  else .ok (edges.foldl fromEdgesStep Pattern.empty).canonicalLabeling

/-- The `get_connected_component_num` count: vertices holding rank 0 (one
per connected component after canonicalization). -/
def getConnectedComponentNum (p : Pattern) : Nat :=
  (p.vertices.filter (fun kv => p.getVertexRank kv.1 = some 0)).length

/-- The `is_connected` test. -/
def isConnected (p : Pattern) : Bool :=
  p.getConnectedComponentNum == 1

/-- The `remove_vertex_internal` helper: drop the vertex from the vertex
map, its tag binding, and its side data. -/
def removeVertexInternal (p : Pattern) (vertex_id : Nat) : Pattern :=
  let p := { p with vertices := VMap.erase p.vertices vertex_id }
  let p :=
    match p.getVertexTag vertex_id with
    | some tag => { p with tag_vertex_map := VMap.erase p.tag_vertex_map tag }
    | none => p
  { p with vertices_data := VMap.erase p.vertices_data vertex_id }

/-- The `remove_edge_internal` helper. -/
def removeEdgeInternal (p : Pattern) (edge_id : Nat) : Pattern :=
  let p := { p with edges := VMap.erase p.edges edge_id }
  let p :=
    match p.getEdgeTag edge_id with
    | some tag => { p with tag_edge_map := VMap.erase p.tag_edge_map tag }
    | none => p
  { p with edges_data := VMap.erase p.edges_data edge_id }

/-- The per-adjacency body of `remove_vertex`: drop the incident edge and
its data/tag, and filter the far endpoint's opposite adjacency list
(the `get_mut` unwrap holds for patterns without self-loops). -/
def removeVertexAdjStep (p : Pattern) (adjacency : Adjacency) : Pattern :=
  let adjacent_vertex_id := adjacency.adj_vertex.id
  let adjacent_edge_id := adjacency.edge_id
  let p := { p with edges := VMap.erase p.edges adjacent_edge_id }
  let p :=
    match p.getEdgeTag adjacent_edge_id with
    | some tag => { p with tag_edge_map := VMap.erase p.tag_edge_map tag }
    | none => p
  let p := { p with edges_data := VMap.erase p.edges_data adjacent_edge_id }
  match adjacency.direction with
  | .Out => updateVData p adjacent_vertex_id (fun vd =>
      { vd with in_adjacencies :=
          vd.in_adjacencies.filter (fun adj => adj.edge_id ≠ adjacent_edge_id) })
  | .In => updateVData p adjacent_vertex_id (fun vd =>
      { vd with out_adjacencies :=
          vd.out_adjacencies.filter (fun adj => adj.edge_id ≠ adjacent_edge_id) })

/-- The `remove_vertex` operation: remove the vertex and all incident
edges, canonicalize, and fail when the result is disconnected. -/
def removeVertex (p : Pattern) (vertex_id : Nat) : Option Pattern :=
  if (p.getVertex vertex_id).isSome then
    let adjacencies := p.adjacencies vertex_id
    let p := p.removeVertexInternal vertex_id
    let p := adjacencies.foldl removeVertexAdjStep p
    let p := p.canonicalLabeling
    if p.isConnected then some p else none
  else none

/-- The `remove_edge` operation: drop the edge, drop an endpoint whose
degree reaches 0 while more than one vertex remains, then test
`is_connected` on the still-stale ranks and canonicalize only in the
`Some` branch (the order the source uses). -/
def removeEdge (p : Pattern) (edge_id : Nat) : Option Pattern :=
  match p.getEdge edge_id with
  | some edge =>
    let p := p.removeEdgeInternal edge_id
    let start_vertex := edge.start_vertex.id
    let end_vertex := edge.end_vertex.id
    let p := updateVData p start_vertex (fun vd =>
      { vd with out_adjacencies :=
          vd.out_adjacencies.filter (fun adj => adj.edge_id ≠ edge_id) })
    let p :=
      if p.getVertexDegree start_vertex = 0 ∧ 1 < p.getVerticesNum then
        p.removeVertexInternal start_vertex
      else p
    let p := updateVData p end_vertex (fun vd =>
      { vd with in_adjacencies :=
          vd.in_adjacencies.filter (fun adj => adj.edge_id ≠ edge_id) })
    let p :=
      if p.getVertexDegree end_vertex = 0 ∧ 1 < p.getVerticesNum then
        p.removeVertexInternal end_vertex
      else p
    if p.isConnected then some p.canonicalLabeling else none
  | none => none

/-- The `add_edge` edit: a duplicate edge id or two absent endpoints is
`InvalidCode`; otherwise the one absent endpoint (if any) is added, both
endpoints' adjacency lists are extended, and the edge is inserted. -/
def addEdge (p : Pattern) (edge : PatternEdge) : Except IrError Pattern :=
  if VMap.containsKey p.edges edge.id then
    .error (.invalidCode "The adding edge already existed")
  else
    let start_vertex := edge.start_vertex
    let end_vertex := edge.end_vertex
    let startAbsent := VMap.get p.vertices start_vertex.id = none
    let endAbsent := VMap.get p.vertices end_vertex.id = none
    if startAbsent ∧ endAbsent then
      .error (.invalidCode "The adding edge cannot connect to the pattern")
    else
      let p :=
        if startAbsent then
          { p with
            vertices := VMap.insert p.vertices start_vertex.id start_vertex
            vertices_data :=
              VMap.insert p.vertices_data start_vertex.id PatternVertexData.default }
        else if endAbsent then
          { p with
            vertices := VMap.insert p.vertices end_vertex.id end_vertex
            vertices_data :=
              VMap.insert p.vertices_data end_vertex.id PatternVertexData.default }
        else p
      let p := updateVData p start_vertex.id (fun vd =>
        { vd with out_adjacencies :=
            vd.out_adjacencies ++ [(Adjacency.new start_vertex edge).getD Adjacency.panicValue] })
      let p := updateVData p end_vertex.id (fun vd =>
        { vd with in_adjacencies :=
            vd.in_adjacencies ++ [(Adjacency.new end_vertex edge).getD Adjacency.panicValue] })
      .ok { p with
        edges := VMap.insert p.edges edge.id edge
        edges_data := VMap.insert p.edges_data edge.id PatternEdgeData.default }

/-- The edge loop of `extend_by_edges`, short-circuiting on the first
error. -/
def addEdgesLoop (p : Pattern) : List PatternEdge → Except IrError Pattern
  | [] => .ok p
  | e :: rest =>
    match p.addEdge e with
    | .ok p2 => addEdgesLoop p2 rest
    | .error err => .error err

/-- The `extend_by_edges` operation: add each edge to a clone and
canonicalize on success. -/
def extendByEdges (p : Pattern) (edges : List PatternEdge) : Except IrError Pattern :=
  (addEdgesLoop p edges).map Pattern.canonicalLabeling

end Pattern

/-! ### ExtendStep (modelled from the spec)

Modelled from the spec: the file extend_step.rs is not under src/; §3 of
the spec defines an ExtendEdge as `(src_vertex_rank, edge_label,
direction)` and an ExtendStep as a target vertex label with a set of
ExtendEdges. -/

structure ExtendEdge where
  src_vertex_rank : Nat
  edge_label : Int
  direction : PatternDirection
  deriving DecidableEq, Repr

structure ExtendStep where
  target_vertex_label : Int
  extend_edges : List ExtendEdge
  deriving DecidableEq, Repr

namespace Pattern

/-- The per-ExtendEdge body of `Pattern::extend`: source vertex looked up
by rank in the original pattern; fresh edge id `max_edge_id + 1` of the
pattern being built; endpoints swapped for an incoming direction. -/
def extendLoop (p : Pattern) (target_vertex : PatternVertex) :
    Pattern → List ExtendEdge → Option Pattern
  | new_pattern, [] => some new_pattern
  | new_pattern, extend_edge :: rest =>
    match p.getVertexFromRank extend_edge.src_vertex_rank with
    | some src_vertex =>
      let new_pattern_edge_id := new_pattern.getMaxEdgeId + 1
      let se : PatternVertex × PatternVertex :=
        match extend_edge.direction with
        | .Out => (src_vertex, target_vertex)
        | .In => (target_vertex, src_vertex)
      let new_pattern_edge : PatternEdge :=
        ⟨new_pattern_edge_id, extend_edge.edge_label, se.1, se.2⟩
      let np := updateVData new_pattern se.1.id (fun vd =>
        { vd with out_adjacencies := vd.out_adjacencies
            ++ [(Adjacency.new se.1 new_pattern_edge).getD Adjacency.panicValue] })
      let np := updateVData np se.2.id (fun vd =>
        { vd with in_adjacencies := vd.in_adjacencies
            ++ [(Adjacency.new se.2 new_pattern_edge).getD Adjacency.panicValue] })
      let np := { np with
        edges := VMap.insert np.edges new_pattern_edge_id new_pattern_edge
        edges_data := VMap.insert np.edges_data new_pattern_edge_id PatternEdgeData.default }
      extendLoop p target_vertex np rest
    | none => none

/-- The `Pattern::extend` operation: add the target vertex with id
`max_vertex_id + 1`, add one edge per ExtendEdge (failing on a missing
source rank), and canonicalize. -/
def extend (p : Pattern) (extend_step : ExtendStep) : Option Pattern :=
  let target_vertex : PatternVertex :=
    ⟨p.getMaxVertexId + 1, extend_step.target_vertex_label⟩
  let new_pattern := { p with
    vertices := VMap.insert p.vertices target_vertex.id target_vertex
    vertices_data := VMap.insert p.vertices_data target_vertex.id PatternVertexData.default }
  (extendLoop p target_vertex new_pattern extend_step.extend_edges).map canonicalLabeling

end Pattern

/-! ### Pattern codec (modelled from the spec)

Modelled from the spec: the codec source (pattern_code) is not under src/.
Per §4.3, `encode_to` emits, in edge-rank order, one record
`(edge_label, start_vertex_label, start_vertex_rank, end_vertex_label,
end_vertex_rank, edge_rank)` per edge, preceded by the per-field byte
widths (minimum bytes for the label / rank ranges); a single-vertex
pattern is a one-byte tag carrying the vertex label.  Byte strings are
modelled as the corresponding integer sequences; ties in edge-rank order
(possible only for disconnected patterns) are emitted in edge-id order. -/

/-- Minimum number of bytes holding values up to `n` (labels are i32 and
ranks usize, so eight bytes always suffice). -/
def byteWidth (n : Nat) : Nat :=
  if n < 2 ^ 8 then 1 else if n < 2 ^ 16 then 2 else if n < 2 ^ 24 then 3
  else if n < 2 ^ 32 then 4 else if n < 2 ^ 40 then 5 else if n < 2 ^ 48 then 6
  else if n < 2 ^ 56 then 7 else 8

namespace Pattern

/-- The codec output, as the sequence of emitted integers. -/
def encodeTo (p : Pattern) : List Int :=
  if p.edges.isEmpty then
    match p.vertices with
    | [(_, v)] => [0, v.label]
    | _ => []
  else
    let labelMax : Nat :=
      ((p.vertices.map (fun kv => kv.2.label.toNat))
        ++ p.edges.map (fun kv => kv.2.label.toNat)).foldl max 0
    let rankMax : Nat := max p.vertices.length p.edges.length
    let records : List (Nat × List Int) := p.edges.map (fun kv =>
      let e := kv.2
      ((p.getEdgeRank kv.1).getD 0,
        [e.label, e.start_vertex.label,
          (((p.getVertexRank e.start_vertex.id).getD 0 : Nat) : Int),
          e.end_vertex.label,
          (((p.getVertexRank e.end_vertex.id).getD 0 : Nat) : Int),
          (((p.getEdgeRank kv.1).getD 0 : Nat) : Int)]))
    let sorted := records.insertionSort (fun a b => a.1 ≤ b.1)
    ([1, (byteWidth labelMax : Int), (byteWidth rankMax : Int)])
      ++ (sorted.map (fun r => r.2)).flatten

end Pattern

/-! ### Labeled directed multigraph isomorphism -/

/-- A pattern isomorphism given by a vertex-id renaming `φ` and an edge-id
renaming `ψ`: both renamings are injective on the pattern, preserve vertex
and edge labels, and map the edge relation of `p` exactly onto that of
`q`. -/
def IsIsoUnder (p q : Pattern) (φ ψ : Nat → Nat) : Prop :=
  (p.vertices.map (fun kv => (⟨φ kv.1, kv.2.label⟩ : PatternVertex))).Perm
    (q.vertices.map Prod.snd)
  ∧ (p.edges.map (fun kv =>
      (⟨ψ kv.1, kv.2.label,
        ⟨φ kv.2.start_vertex.id, kv.2.start_vertex.label⟩,
        ⟨φ kv.2.end_vertex.id, kv.2.end_vertex.label⟩⟩ : PatternEdge))).Perm
    (q.edges.map Prod.snd)
  ∧ (p.vertices.map (fun kv => φ kv.1)).Nodup
  ∧ (p.edges.map (fun kv => ψ kv.1)).Nodup

/-- Isomorphism of two patterns as labeled directed multigraphs. -/
def IsIsomorphic (p q : Pattern) : Prop :=
  ∃ φ ψ : Nat → Nat, IsIsoUnder p q φ ψ

/-! ### Concrete patterns used by the claims -/

def mkEdge (eid : Nat) (elabel : Int) (sid : Nat) (slabel : Int)
    (tid : Nat) (tlabel : Int) : PatternEdge :=
  ⟨eid, elabel, ⟨sid, slabel⟩, ⟨tid, tlabel⟩⟩

/-- Build a pattern through `from_edges`, which never fails on the
non-empty edge lists used below. -/
def patternOfEdges (es : List PatternEdge) : Pattern :=
  ((Pattern.tryFromEdges es).toOption).getD Pattern.empty

/-- A connected 5-vertex digraph, every vertex of out- and in-degree 2
(one label everywhere): the union of the two vertex permutations
`0→2→1→3→4→0` and `0→4→2→3→1→0`. -/
def c1pat1 : Pattern := patternOfEdges
  [mkEdge 0 0 0 0 2 0, mkEdge 1 0 1 0 3 0, mkEdge 2 0 2 0 1 0, mkEdge 3 0 3 0 4 0,
   mkEdge 4 0 4 0 0 0, mkEdge 5 0 0 0 4 0, mkEdge 6 0 1 0 0 0, mkEdge 7 0 2 0 3 0,
   mkEdge 8 0 3 0 1 0, mkEdge 9 0 4 0 2 0]

/-- The same graph with vertex ids 0 and 1 exchanged (an isomorphic
relabeling; edge ids and the edge order are untouched). -/
def c1pat2 : Pattern := patternOfEdges
  [mkEdge 0 0 1 0 2 0, mkEdge 1 0 0 0 3 0, mkEdge 2 0 2 0 0 0, mkEdge 3 0 3 0 4 0,
   mkEdge 4 0 4 0 1 0, mkEdge 5 0 1 0 4 0, mkEdge 6 0 0 0 1 0, mkEdge 7 0 2 0 3 0,
   mkEdge 8 0 3 0 0 0, mkEdge 9 0 4 0 2 0]

/-- The vertex renaming relating the two: swap ids 0 and 1. -/
def swap01 : Nat → Nat := fun n => if n = 0 then 1 else if n = 1 then 0 else n

/-- Two disjoint single-edge components `0→1` and `2→3` (from_edges accepts
disconnected edge lists). -/
def twoDisjointEdgesPat : Pattern :=
  patternOfEdges [mkEdge 0 0 0 0 1 0, mkEdge 1 0 2 0 3 0]

/-- The directed path `0→1→2→3` on one label. -/
def path4Pat : Pattern :=
  patternOfEdges [mkEdge 0 0 0 0 1 0, mkEdge 1 0 1 0 2 0, mkEdge 2 0 2 0 3 0]

/-- The directed path `0→1→2` on one label. -/
def path3Pat : Pattern :=
  patternOfEdges [mkEdge 0 0 0 0 1 0, mkEdge 1 0 1 0 2 0]

/-- A single-edge pattern with the sparse vertex ids 0 and 5. -/
def sparseIdsPat : Pattern := patternOfEdges [mkEdge 0 0 0 0 5 0]

/-- One extend edge out of the rank-0 vertex, into a fresh vertex of
label 0. -/
def sparseExtStep : ExtendStep := ⟨0, [⟨0, 0, .Out⟩]⟩

/-- Recognizer for the `Err(IrError::InvalidCode(_))` outcome. -/
def isInvalidCodeErr : Except IrError Pattern → Bool
  | .error (.invalidCode _) => true
  | _ => false

/-! ## Claim theorems: C1, C2 and C4 counterexamples, C6 counterexample,
C7 -/

/-- C1 (code_bug evaluation): `c1pat1` and `c1pat2` are isomorphic labeled
directed multigraphs (vertex ids 0 and 1 swapped), yet their encodings
differ: the refinement stage cannot split the regular graph into
non-trivial groups, and the DFS ranking then breaks ties by raw vertex id,
which is not isomorphism-invariant.  This refutes `encode_to(p1) ==
encode_to(p2)` iff `p1 ≅ p2`, an invariant the catalogue keying and
`pattern_equal` rely on. -/
theorem claim_C1 :
    IsIsomorphic c1pat1 c1pat2 ∧ c1pat1.encodeTo ≠ c1pat2.encodeTo := by
  refine ⟨⟨swap01, fun n => n, ?_, ?_, ?_, ?_⟩, ?_⟩ <;> decide

/-- C2 counterexample: in the two-component pattern `{0→1, 2→3}` ranking
restarts from 0 in each component, so vertices 1 and 3 both receive rank
0, the rank→vertex map retains only the last writes `{0↦3, 1↦2}`, and
vertex ids 0 and 1 are hit by no rank at all — the rank maps are not
bijections for this from_edges-constructed pattern. -/
theorem claim_C2_counterexample :
    twoDisjointEdgesPat.getVerticesNum = 4 ∧
    twoDisjointEdgesPat.getVertexRank 1 = some 0 ∧
    twoDisjointEdgesPat.getVertexRank 3 = some 0 ∧
    twoDisjointEdgesPat.rank_vertex_map = [(0, 3), (1, 2)] ∧
    twoDisjointEdgesPat.rank_edge_map = [(0, 1)] ∧
    ¬ (∀ vid ∈ twoDisjointEdgesPat.vertices.map Prod.fst,
      ∃ r ∈ twoDisjointEdgesPat.rank_vertex_map.map Prod.fst,
        VMap.get twoDisjointEdgesPat.rank_vertex_map r = some vid) := by
  decide

/-- C4 (code_bug evaluation): `remove_edge` tests `is_connected` on the
ranks of the pattern before the removal.  Removing the middle edge of
`0→1→2→3` disconnects it into `{0,1}` and `{2,3}`, yet the stale ranks
still show a single rank-0 vertex, so `Some` is returned (all four
vertices kept, edges 0 and 2 only).  Conversely, removing edge 1 of
`0→1→2` leaves the connected single edge `0→1` (vertex 2 drops out), but
the surviving vertices' stale ranks are 1 and 2, so `None` is returned.
Both directions of "returns None exactly when the resulting pattern is
disconnected" fail. -/
theorem claim_C4 :
    ((path4Pat.removeEdge 1).map (fun q =>
        (q.vertices.map Prod.fst,
         q.edges.map (fun kv => (kv.1, kv.2.start_vertex.id, kv.2.end_vertex.id)),
         q.getConnectedComponentNum)))
      = some ([0, 1, 2, 3], [(0, 0, 1), (2, 2, 3)], 2) ∧
    path3Pat.removeEdge 1 = none := by
  constructor
  · decide
  · decide

/-- C6 counterexample: the pattern with vertices `{0, 5}` (one edge `0→5`)
has `V = 2` vertices, but extending it adds the vertex
`max_vertex_id + 1 = 6`, not `V = 2`: vertex ids may be sparse and the new
id is one past the maximum id, not the vertex count. -/
theorem claim_C6_counterexample :
    sparseIdsPat.getVerticesNum = 2 ∧
    ((sparseIdsPat.extend sparseExtStep).map (fun q => q.vertices.map Prod.fst))
      = some [0, 5, 6] ∧
    ¬ ((sparseIdsPat.extend sparseExtStep).map (fun q => q.vertices.map Prod.fst)
        = some [0, 2, 5]) := by
  decide

/-- C7 (amended): whenever both endpoints of the edge are absent from the
pattern's vertex set, `add_edge` (through `extend_by_edges`) fails with
`InvalidCode` — including on the empty pattern; there is no empty-pattern
exception in the source. -/
theorem claim_C7 (p : Pattern) (e : PatternEdge)
    (hs : VMap.get p.vertices e.start_vertex.id = none)
    (ht : VMap.get p.vertices e.end_vertex.id = none) :
    isInvalidCodeErr (p.extendByEdges [e]) = true := by
  unfold Pattern.extendByEdges Pattern.addEdgesLoop Pattern.addEdge
  by_cases hdup : VMap.containsKey p.edges e.id
  · simp only [hdup, if_true, ite_true]
    rfl
  · simp only [hdup, hs, ht, if_false, ite_false]
    norm_num
    rfl

/-- C7 witness: a pattern holding only vertex 7 and an edge between the
absent vertices 0 and 1. -/
theorem claim_C7_witness :
    (VMap.get (Pattern.fromSingleVertex ⟨7, 0⟩).vertices 0 = none ∧
     VMap.get (Pattern.fromSingleVertex ⟨7, 0⟩).vertices 1 = none) ∧
    isInvalidCodeErr ((Pattern.fromSingleVertex ⟨7, 0⟩).extendByEdges
      [mkEdge 0 0 0 0 1 0]) = true :=
  ⟨⟨by decide, by decide⟩,
    claim_C7 (Pattern.fromSingleVertex ⟨7, 0⟩) (mkEdge 0 0 0 0 1 0)
      (by decide) (by decide)⟩

/-- C7 counterexample: on the empty pattern, adding an edge whose two
endpoints are both new also fails with `InvalidCode`, while the claim says
the call proceeds. -/
theorem claim_C7_counterexample :
    Pattern.empty.extendByEdges [mkEdge 0 0 0 0 1 0]
      = .error (.invalidCode "The adding edge cannot connect to the pattern") := by
  rfl

/-! ## Association-list lemmas -/

/-- Keys of a map are strictly increasing (the invariant of every VecMap /
BTreeMap model in a constructed pattern). -/
def KeysOrd (m : List (Nat × α)) : Prop := (m.map Prod.fst).Sorted (· < ·)

instance keysOrdDecidable (m : List (Nat × α)) : Decidable (KeysOrd m) :=
  inferInstanceAs (Decidable ((m.map Prod.fst).Pairwise (· < ·)))

namespace VMap

theorem get_insert (m : List (Nat × α)) (k : Nat) (v : α) (k' : Nat) :
    get (insert m k v) k' = if k' = k then some v else get m k' := by
  induction m with
  | nil =>
    by_cases h : k' = k <;> simp [insert, get, h]
  | cons kv rest ih =>
    obtain ⟨k0, v0⟩ := kv
    unfold insert
    by_cases h1 : k < k0
    · simp only [if_pos h1]
      by_cases h : k' = k
      · simp [get, h]
      · simp [get, h]
    · simp only [if_neg h1]
      by_cases h2 : k = k0
      · subst h2
        simp only [if_pos rfl]
        by_cases h : k' = k
        · simp [get, h]
        · simp [get, h]
      · simp only [if_neg h2]
        by_cases h : k' = k0
        · subst h
          rw [if_neg (by omega)]
          simp [get]
        · simp only [get, if_neg h]
          exact ih

theorem get_mem (m : List (Nat × α)) (k : Nat) (v : α) (h : get m k = some v) :
    (k, v) ∈ m := by
  induction m with
  | nil => simp [get] at h
  | cons kv rest ih =>
    obtain ⟨k0, v0⟩ := kv
    unfold get at h
    by_cases hk : k = k0
    · rw [if_pos hk] at h
      subst hk
      cases h
      exact List.mem_cons_self _ _
    · rw [if_neg hk] at h
      exact List.mem_cons_of_mem _ (ih h)

theorem mem_keys_of_get (m : List (Nat × α)) (k : Nat) (h : (get m k).isSome) :
    k ∈ m.map Prod.fst := by
  induction m with
  | nil => simp [get] at h
  | cons kv rest ih =>
    obtain ⟨k0, v0⟩ := kv
    unfold get at h
    by_cases hk : k = k0
    · simp [hk]
    · rw [if_neg hk] at h
      simpa using Or.inr (by simpa using ih h)

theorem get_eq_none_of_not_mem (m : List (Nat × α)) (k : Nat)
    (h : k ∉ m.map Prod.fst) : get m k = none := by
  induction m with
  | nil => rfl
  | cons kv rest ih =>
    obtain ⟨k0, v0⟩ := kv
    simp only [List.map_cons, List.mem_cons] at h
    push_neg at h
    unfold get
    rw [if_neg h.1]
    exact ih h.2

theorem insert_append (m : List (Nat × α)) (k : Nat) (v : α)
    (h : ∀ kv ∈ m, kv.1 < k) : insert m k v = m ++ [(k, v)] := by
  induction m with
  | nil => rfl
  | cons kv rest ih =>
    obtain ⟨k0, v0⟩ := kv
    have h0 : k0 < k := h (k0, v0) (List.mem_cons_self _ _)
    unfold insert
    rw [if_neg (by omega), if_neg (by omega)]
    rw [ih (fun kv hkv => h kv (List.mem_cons_of_mem _ hkv))]
    simp

theorem get_of_mem_ordKeys (m : List (Nat × α)) (hord : KeysOrd m)
    (k : Nat) (v : α) (hmem : (k, v) ∈ m) : get m k = some v := by
  induction m with
  | nil => simp at hmem
  | cons kv rest ih =>
    obtain ⟨k0, v0⟩ := kv
    rcases List.mem_cons.mp hmem with heq | htl
    · cases heq
      simp [get]
    · have hlt : k0 < k := by
        have := (List.sorted_cons.mp hord).1 k (by exact List.mem_map_of_mem Prod.fst htl)
        exact this
      unfold get
      rw [if_neg (by omega)]
      exact ih (List.sorted_cons.mp hord).2 htl

end VMap

/-- Every key of a key-sorted map is at most the last key. -/
theorem keys_le_getLast (l : List Nat) (h : l.Sorted (· < ·)) (x : Nat)
    (hx : x ∈ l) : x ≤ (l.getLast?).getD 0 := by
  induction l generalizing x with
  | nil => simp at hx
  | cons a rest ih =>
    obtain ⟨hlt, hrest⟩ := List.sorted_cons.mp h
    cases rest with
    | nil =>
      simp at hx
      simp [hx]
    | cons b rs =>
      rw [List.getLast?_cons_cons]
      rcases List.mem_cons.mp hx with rfl | hmem
      · have hb : x < b := hlt b (by simp)
        have := ih hrest b (List.mem_cons_self b rs)
        omega
      · exact ih hrest x hmem

/-- Appending a strictly larger key keeps the keys sorted. -/
theorem keysOrd_append (m : List (Nat × α)) (k : Nat) (v : α)
    (hord : KeysOrd m) (hk : ∀ kv ∈ m, kv.1 < k) : KeysOrd (m ++ [(k, v)]) := by
  unfold KeysOrd at hord ⊢
  rw [List.map_append]
  unfold List.Sorted at hord ⊢
  rw [List.pairwise_append]
  refine ⟨hord, by simp, ?_⟩
  intro a ha b hb
  simp only [List.map_cons, List.map_nil, List.mem_singleton] at hb
  subst hb
  obtain ⟨kv, hkv, rfl⟩ := List.mem_map.mp ha
  exact hk kv hkv

/-! ## Structural preservation lemmas -/

namespace Pattern

theorem setVertexGroup_vertices (p : Pattern) (i g : Nat) :
    (p.setVertexGroup i g).vertices = p.vertices := by
  unfold setVertexGroup
  cases VMap.get p.vertices_data i <;> rfl

theorem setVertexGroup_edges (p : Pattern) (i g : Nat) :
    (p.setVertexGroup i g).edges = p.edges := by
  unfold setVertexGroup
  cases VMap.get p.vertices_data i <;> rfl

theorem setVertexRank_vertices (p : Pattern) (i r : Nat) :
    (p.setVertexRank i r).vertices = p.vertices := by
  unfold setVertexRank
  cases VMap.get p.vertices_data i <;> rfl

theorem setVertexRank_edges (p : Pattern) (i r : Nat) :
    (p.setVertexRank i r).edges = p.edges := by
  unfold setVertexRank
  cases VMap.get p.vertices_data i <;> rfl

theorem setEdgeRank_vertices (p : Pattern) (i r : Nat) :
    (p.setEdgeRank i r).vertices = p.vertices := by
  unfold setEdgeRank
  cases VMap.get p.edges_data i <;> rfl

theorem setEdgeRank_edges (p : Pattern) (i r : Nat) :
    (p.setEdgeRank i r).edges = p.edges := by
  unfold setEdgeRank
  cases VMap.get p.edges_data i <;> rfl

theorem foldl_pres_vertices {β : Type} (f : Pattern → β → Pattern)
    (hf : ∀ p x, (f p x).vertices = p.vertices) (l : List β) (p : Pattern) :
    (l.foldl f p).vertices = p.vertices := by
  induction l generalizing p with
  | nil => rfl
  | cons x xs ih => rw [List.foldl_cons, ih, hf]

theorem foldl_pres_edges {β : Type} (f : Pattern → β → Pattern)
    (hf : ∀ p x, (f p x).edges = p.edges) (l : List β) (p : Pattern) :
    (l.foldl f p).edges = p.edges := by
  induction l generalizing p with
  | nil => rfl
  | cons x xs ih => rw [List.foldl_cons, ih, hf]

theorem updateVertexGroups_vertices (p : Pattern) (m : CanonicalLabelManager) :
    (p.updateVertexGroups m).vertices = p.vertices :=
  foldl_pres_vertices (fun p (kv : Nat × Nat) => p.setVertexGroup kv.1 kv.2)
    (fun p kv => setVertexGroup_vertices p kv.1 kv.2) _ _

theorem updateVertexGroups_edges (p : Pattern) (m : CanonicalLabelManager) :
    (p.updateVertexGroups m).edges = p.edges :=
  foldl_pres_edges (fun p (kv : Nat × Nat) => p.setVertexGroup kv.1 kv.2)
    (fun p kv => setVertexGroup_edges p kv.1 kv.2) _ _

theorem updatePatternRanks_vertices (p : Pattern) (m : CanonicalLabelManager) :
    (p.updatePatternRanks m).vertices = p.vertices :=
  (foldl_pres_vertices (fun p (kv : Nat × Option Nat) => p.setEdgeRank kv.1 (kv.2.getD 0))
      (fun p kv => setEdgeRank_vertices p kv.1 (kv.2.getD 0)) _ _).trans
    (foldl_pres_vertices (fun p (kv : Nat × Option Nat) => p.setVertexRank kv.1 (kv.2.getD 0))
      (fun p kv => setVertexRank_vertices p kv.1 (kv.2.getD 0)) _ _)

theorem updatePatternRanks_edges (p : Pattern) (m : CanonicalLabelManager) :
    (p.updatePatternRanks m).edges = p.edges :=
  (foldl_pres_edges (fun p (kv : Nat × Option Nat) => p.setEdgeRank kv.1 (kv.2.getD 0))
      (fun p kv => setEdgeRank_edges p kv.1 (kv.2.getD 0)) _ _).trans
    (foldl_pres_edges (fun p (kv : Nat × Option Nat) => p.setVertexRank kv.1 (kv.2.getD 0))
      (fun p kv => setVertexRank_edges p kv.1 (kv.2.getD 0)) _ _)

/-- Canonical labeling rewrites groups and ranks only: the vertex map is
untouched. -/
theorem canonicalLabeling_vertices (p : Pattern) :
    (p.canonicalLabeling).vertices = p.vertices :=
  (updatePatternRanks_vertices _ _).trans (updateVertexGroups_vertices _ _)

/-- Canonical labeling rewrites groups and ranks only: the edge map is
untouched. -/
theorem canonicalLabeling_edges (p : Pattern) :
    (p.canonicalLabeling).edges = p.edges :=
  (updatePatternRanks_edges _ _).trans (updateVertexGroups_edges _ _)

theorem updateVData_vertices (p : Pattern) (i : Nat) (f : PatternVertexData → PatternVertexData) :
    (updateVData p i f).vertices = p.vertices := by
  unfold updateVData
  cases VMap.get p.vertices_data i <;> rfl

theorem updateVData_edges (p : Pattern) (i : Nat) (f : PatternVertexData → PatternVertexData) :
    (updateVData p i f).edges = p.edges := by
  unfold updateVData
  cases VMap.get p.vertices_data i <;> rfl

/-! ### The `extend` characterization (claim C6) -/

theorem extendLoop_none (p : Pattern) (tv : PatternVertex) (es : List ExtendEdge)
    (np : Pattern) (hnone : ∃ ee ∈ es, p.getVertexFromRank ee.src_vertex_rank = none) :
    Pattern.extendLoop p tv np es = none := by
  induction es generalizing np with
  | nil => simp at hnone
  | cons ee rest ih =>
    cases hl : p.getVertexFromRank ee.src_vertex_rank with
    | none => simp [Pattern.extendLoop, hl]
    | some src =>
      simp only [Pattern.extendLoop, hl]
      apply ih
      obtain ⟨w, hw, hwn⟩ := hnone
      rcases List.mem_cons.mp hw with rfl | hmem
      · rw [hl] at hwn
        cases hwn
      · exact ⟨w, hmem, hwn⟩

theorem extendLoop_some (p : Pattern) (tv : PatternVertex) (es : List ExtendEdge)
    (np : Pattern) (hord : KeysOrd np.edges)
    (hranks : ∀ ee ∈ es, (p.getVertexFromRank ee.src_vertex_rank).isSome) :
    ∃ np2, Pattern.extendLoop p tv np es = some np2 ∧
      np2.vertices = np.vertices ∧
      KeysOrd np2.edges ∧
      np2.edges.length = np.edges.length + es.length ∧
      ∀ kv ∈ np2.edges, kv ∈ np.edges
        ∨ kv.2.start_vertex.id = tv.id ∨ kv.2.end_vertex.id = tv.id := by
  induction es generalizing np with
  | nil => exact ⟨np, rfl, rfl, hord, rfl, fun kv hkv => Or.inl hkv⟩
  | cons ee rest ih =>
    obtain ⟨src, hsrc⟩ := Option.isSome_iff_exists.mp
      (hranks ee (List.mem_cons_self _ _))
    have hgt : ∀ kv ∈ np.edges, kv.1 < np.getMaxEdgeId + 1 := by
      intro kv hkv
      have := keys_le_getLast (np.edges.map Prod.fst) hord kv.1
        (List.mem_map_of_mem Prod.fst hkv)
      unfold Pattern.getMaxEdgeId
      omega
    simp only [Pattern.extendLoop, hsrc]
    set se : PatternVertex × PatternVertex :=
      (match ee.direction with
        | PatternDirection.Out => (src, tv)
        | PatternDirection.In => (tv, src)) with hse
    set new_edge : PatternEdge :=
      ⟨np.getMaxEdgeId + 1, ee.edge_label, se.1, se.2⟩ with hne
    set np3 : Pattern :=
      { Pattern.updateVData
          (Pattern.updateVData np se.1.id (fun vd =>
            { vd with out_adjacencies := vd.out_adjacencies
                ++ [(Adjacency.new se.1 new_edge).getD Adjacency.panicValue] }))
          se.2.id (fun vd =>
            { vd with in_adjacencies := vd.in_adjacencies
                ++ [(Adjacency.new se.2 new_edge).getD Adjacency.panicValue] }) with
        edges := VMap.insert
          (Pattern.updateVData
            (Pattern.updateVData np se.1.id (fun vd =>
              { vd with out_adjacencies := vd.out_adjacencies
                  ++ [(Adjacency.new se.1 new_edge).getD Adjacency.panicValue] }))
            se.2.id (fun vd =>
              { vd with in_adjacencies := vd.in_adjacencies
                  ++ [(Adjacency.new se.2 new_edge).getD Adjacency.panicValue] })).edges
          (np.getMaxEdgeId + 1) new_edge
        edges_data := VMap.insert
          (Pattern.updateVData
            (Pattern.updateVData np se.1.id (fun vd =>
              { vd with out_adjacencies := vd.out_adjacencies
                  ++ [(Adjacency.new se.1 new_edge).getD Adjacency.panicValue] }))
            se.2.id (fun vd =>
              { vd with in_adjacencies := vd.in_adjacencies
                  ++ [(Adjacency.new se.2 new_edge).getD Adjacency.panicValue] })).edges_data
          (np.getMaxEdgeId + 1) PatternEdgeData.default } with hnp3
    have hup2 : (Pattern.updateVData
        (Pattern.updateVData np se.1.id (fun vd =>
          { vd with out_adjacencies := vd.out_adjacencies
              ++ [(Adjacency.new se.1 new_edge).getD Adjacency.panicValue] }))
        se.2.id (fun vd =>
          { vd with in_adjacencies := vd.in_adjacencies
              ++ [(Adjacency.new se.2 new_edge).getD Adjacency.panicValue] })).edges
        = np.edges := by
      rw [Pattern.updateVData_edges, Pattern.updateVData_edges]
    have hup2v : (Pattern.updateVData
        (Pattern.updateVData np se.1.id (fun vd =>
          { vd with out_adjacencies := vd.out_adjacencies
              ++ [(Adjacency.new se.1 new_edge).getD Adjacency.panicValue] }))
        se.2.id (fun vd =>
          { vd with in_adjacencies := vd.in_adjacencies
              ++ [(Adjacency.new se.2 new_edge).getD Adjacency.panicValue] })).vertices
        = np.vertices := by
      rw [Pattern.updateVData_vertices, Pattern.updateVData_vertices]
    have hedges3 : np3.edges = np.edges ++ [(np.getMaxEdgeId + 1, new_edge)] := by
      show VMap.insert _ _ _ = _
      rw [hup2]
      exact VMap.insert_append _ _ _ hgt
    have hvert3 : np3.vertices = np.vertices := hup2v
    have hord3 : KeysOrd np3.edges := by
      rw [hedges3]
      exact keysOrd_append _ _ _ hord hgt
    obtain ⟨np2, hloop, hv2, ho2, hl2, hm2⟩ := ih np3 hord3
      (fun ee2 hee2 => hranks ee2 (List.mem_cons_of_mem _ hee2))
    refine ⟨np2, hloop, hv2.trans hvert3, ho2, ?_, ?_⟩
    · rw [hl2, hedges3]
      simp only [List.length_append, List.length_cons, List.length_nil, List.length_cons]
      omega
    · intro kv hkv
      rcases hm2 kv hkv with hin | hnew | hnew
      · rw [hedges3] at hin
        rcases List.mem_append.mp hin with hold | hlast
        · exact Or.inl hold
        · rcases List.mem_singleton.mp hlast with rfl
          cases hdir : ee.direction
          · refine Or.inr (Or.inr ?_)
            show (se.2).id = tv.id
            rw [hse, hdir]
          · refine Or.inr (Or.inl ?_)
            show (se.1).id = tv.id
            rw [hse, hdir]
      · exact Or.inr (Or.inl hnew)
      · exact Or.inr (Or.inr hnew)

end Pattern

/-- C6 (amended): for every non-empty pattern with key-sorted vertex and
edge maps, and every ExtendStep: when every source rank resolves to a
pattern vertex, `extend` returns a pattern with exactly one new vertex
whose id is `max_vertex_id + 1` (not the vertex count `V`: ids may be
sparse) carrying the step's target label, plus one new edge per
ExtendEdge, every new edge incident to the new vertex; when any source
rank is missing, `extend` returns None. -/
theorem claim_C6 (p : Pattern) (step : ExtendStep)
    (hv : KeysOrd p.vertices) (he : KeysOrd p.edges) (hne : p.vertices ≠ []) :
    ((∀ ee ∈ step.extend_edges, (p.getVertexFromRank ee.src_vertex_rank).isSome) →
      ∃ q, p.extend step = some q ∧
        q.vertices = p.vertices
          ++ [(p.getMaxVertexId + 1,
                ⟨p.getMaxVertexId + 1, step.target_vertex_label⟩)] ∧
        VMap.get q.vertices (p.getMaxVertexId + 1)
          = some ⟨p.getMaxVertexId + 1, step.target_vertex_label⟩ ∧
        q.edges.length = p.edges.length + step.extend_edges.length ∧
        (∀ kv ∈ q.edges, kv ∈ p.edges
          ∨ kv.2.start_vertex.id = p.getMaxVertexId + 1
          ∨ kv.2.end_vertex.id = p.getMaxVertexId + 1)) ∧
    ((∃ ee ∈ step.extend_edges, p.getVertexFromRank ee.src_vertex_rank = none) →
      p.extend step = none) := by
  have hgtv : ∀ kv ∈ p.vertices, kv.1 < p.getMaxVertexId + 1 := by
    intro kv hkv
    have := keys_le_getLast (p.vertices.map Prod.fst) hv kv.1
      (List.mem_map_of_mem Prod.fst hkv)
    unfold Pattern.getMaxVertexId
    omega
  constructor
  · intro hranks
    unfold Pattern.extend
    obtain ⟨np2, hloop, hv2, _, hl2, hm2⟩ :=
      Pattern.extendLoop_some p ⟨p.getMaxVertexId + 1, step.target_vertex_label⟩
        step.extend_edges
        { p with
          vertices := VMap.insert p.vertices (p.getMaxVertexId + 1)
            ⟨p.getMaxVertexId + 1, step.target_vertex_label⟩
          vertices_data := VMap.insert p.vertices_data (p.getMaxVertexId + 1)
            PatternVertexData.default }
        he hranks
    dsimp only
    rw [hloop]
    refine ⟨np2.canonicalLabeling, rfl, ?_, ?_, ?_, ?_⟩
    · rw [Pattern.canonicalLabeling_vertices, hv2]
      show VMap.insert p.vertices _ _ = _
      exact VMap.insert_append _ _ _ hgtv
    · rw [Pattern.canonicalLabeling_vertices, hv2]
      show VMap.get (VMap.insert p.vertices _ _) _ = _
      rw [VMap.get_insert, if_pos rfl]
    · rw [Pattern.canonicalLabeling_edges, hl2]
    · intro kv hkv
      rw [Pattern.canonicalLabeling_edges] at hkv
      exact hm2 kv hkv
  · intro hnone
    unfold Pattern.extend
    dsimp only
    rw [Pattern.extendLoop_none p _ _ _ hnone]
    rfl

/-- C6 witness: extending the path `0→1→2` by one outgoing edge from the
rank-0 vertex. -/
theorem claim_C6_witness :
    (KeysOrd path3Pat.vertices ∧ KeysOrd path3Pat.edges ∧ path3Pat.vertices ≠ []) ∧
    ((∀ ee ∈ sparseExtStep.extend_edges,
        (path3Pat.getVertexFromRank ee.src_vertex_rank).isSome) →
      ∃ q, path3Pat.extend sparseExtStep = some q ∧
        q.vertices = path3Pat.vertices
          ++ [(path3Pat.getMaxVertexId + 1,
                ⟨path3Pat.getMaxVertexId + 1, sparseExtStep.target_vertex_label⟩)] ∧
        VMap.get q.vertices (path3Pat.getMaxVertexId + 1)
          = some ⟨path3Pat.getMaxVertexId + 1, sparseExtStep.target_vertex_label⟩ ∧
        q.edges.length = path3Pat.edges.length + sparseExtStep.extend_edges.length ∧
        (∀ kv ∈ q.edges, kv ∈ path3Pat.edges
          ∨ kv.2.start_vertex.id = path3Pat.getMaxVertexId + 1
          ∨ kv.2.end_vertex.id = path3Pat.getMaxVertexId + 1)) :=
  ⟨⟨by decide, by decide, by decide⟩,
    (claim_C6 path3Pat sparseExtStep (by decide) (by decide) (by decide)).1⟩

/-! ## Graph-theoretic notions and the pattern well-formedness invariant -/

/-- Two vertex ids joined by some edge of the pattern (in either
direction). -/
def EdgeAdj (p : Pattern) (u w : Nat) : Prop :=
  ∃ kv ∈ p.edges,
    (kv.2.start_vertex.id = u ∧ kv.2.end_vertex.id = w)
    ∨ (kv.2.start_vertex.id = w ∧ kv.2.end_vertex.id = u)

/-- Reachability along edges, ignoring direction. -/
def Reach (p : Pattern) : Nat → Nat → Prop :=
  Relation.ReflTransGen (EdgeAdj p)

/-- Connectivity of the pattern as a labeled multigraph: a non-empty
vertex set in which every two vertices are joined by an undirected
path. -/
def ConnectedGraph (p : Pattern) : Prop :=
  p.vertices ≠ [] ∧
    ∀ u ∈ p.vertices.map Prod.fst, ∀ w ∈ p.vertices.map Prod.fst, Reach p u w

theorem edgeAdj_symm (p : Pattern) : Symmetric (EdgeAdj p) := by
  intro u w h
  obtain ⟨kv, hkv, hc⟩ := h
  rcases hc with ⟨h1, h2⟩ | ⟨h1, h2⟩
  · exact ⟨kv, hkv, Or.inr ⟨h1, h2⟩⟩
  · exact ⟨kv, hkv, Or.inl ⟨h1, h2⟩⟩

theorem reach_symm (p : Pattern) {u w : Nat} (h : Reach p u w) : Reach p w u :=
  Relation.ReflTransGen.symmetric (edgeAdj_symm p) h

/-- The adjacency record an edge contributes to its start vertex. -/
def outRecord (e : PatternEdge) : Adjacency := ⟨e.id, e.label, e.end_vertex, .Out⟩

/-- The adjacency record an edge contributes to its end vertex. -/
def inRecord (e : PatternEdge) : Adjacency := ⟨e.id, e.label, e.start_vertex, .In⟩

/-- The structural invariants (§3 of the spec) of a constructed pattern:
sorted unique keys, side-data keys parallel to element keys, ids matching
keys, edge endpoints present in the vertex map, no self-loops (invariant 3
forces each endpoint's adjacency to carry a consistent direction), and
each vertex's adjacency lists holding exactly one record per incident
edge slot. -/
structure PatternWF (p : Pattern) : Prop where
  vOrd : KeysOrd p.vertices
  eOrd : KeysOrd p.edges
  vdKeys : p.vertices_data.map Prod.fst = p.vertices.map Prod.fst
  edKeys : p.edges_data.map Prod.fst = p.edges.map Prod.fst
  vIds : ∀ kv ∈ p.vertices, (kv.2 : PatternVertex).id = kv.1
  eIds : ∀ kv ∈ p.edges, (kv.2 : PatternEdge).id = kv.1
  ends : ∀ kv ∈ p.edges,
    VMap.get p.vertices (kv.2 : PatternEdge).start_vertex.id = some kv.2.start_vertex
    ∧ VMap.get p.vertices kv.2.end_vertex.id = some kv.2.end_vertex
  noLoop : ∀ kv ∈ p.edges, (kv.2 : PatternEdge).start_vertex.id ≠ kv.2.end_vertex.id
  adjOut : ∀ kvd ∈ p.vertices_data,
    (kvd.2 : PatternVertexData).out_adjacencies.Perm
      ((p.edges.filter (fun ke => ke.2.start_vertex.id = kvd.1)).map
        (fun ke => outRecord ke.2))
  adjIn : ∀ kvd ∈ p.vertices_data,
    (kvd.2 : PatternVertexData).in_adjacencies.Perm
      ((p.edges.filter (fun ke => ke.2.end_vertex.id = kvd.1)).map
        (fun ke => inRecord ke.2))

/-- Soundness of an adjacency record under `PatternWF`: every record in a
vertex's combined list mirrors a pattern edge incident to that vertex,
with the far endpoint as the record's adjacent vertex. -/
theorem adjacencies_sound (p : Pattern) (hwf : PatternWF p) (v : Nat)
    (a : Adjacency) (ha : a ∈ p.adjacencies v) :
    ∃ kv ∈ p.edges, kv.1 = a.edge_id ∧
      ((kv.2.start_vertex.id = v ∧ a.adj_vertex = kv.2.end_vertex)
        ∨ (kv.2.end_vertex.id = v ∧ a.adj_vertex = kv.2.start_vertex)) := by
  unfold Pattern.adjacencies at ha
  cases hvd : VMap.get p.vertices_data v with
  | none => rw [hvd] at ha; simp at ha
  | some vd =>
    rw [hvd] at ha
    have hmem := VMap.get_mem _ _ _ hvd
    rcases List.mem_append.mp ha with hout | hin
    · have hperm := hwf.adjOut (v, vd) hmem
      have := hperm.mem_iff.mp hout
      obtain ⟨ke, hke, rfl⟩ := List.mem_map.mp this
      have hstart := (List.mem_filter.mp hke).2
      refine ⟨ke, (List.mem_filter.mp hke).1, ?_, Or.inl ⟨by simpa using hstart, rfl⟩⟩
      exact (hwf.eIds ke (List.mem_filter.mp hke).1).symm
    · have hperm := hwf.adjIn (v, vd) hmem
      have := hperm.mem_iff.mp hin
      obtain ⟨ke, hke, rfl⟩ := List.mem_map.mp this
      have hend := (List.mem_filter.mp hke).2
      refine ⟨ke, (List.mem_filter.mp hke).1, ?_, Or.inr ⟨by simpa using hend, rfl⟩⟩
      exact (hwf.eIds ke (List.mem_filter.mp hke).1).symm

theorem VMap.get_isSome_of_mem_keys (m : List (Nat × α)) (k : Nat)
    (h : k ∈ m.map Prod.fst) : (VMap.get m k).isSome := by
  induction m with
  | nil => simp at h
  | cons kv rest ih =>
    obtain ⟨k0, v0⟩ := kv
    by_cases hk : k = k0
    · simp [VMap.get, hk]
    · simp only [List.map_cons, List.mem_cons] at h
      rcases h with h | h

      · exact absurd h hk
      · unfold VMap.get
        rw [if_neg hk]
        exact ih h

/-- Completeness under `PatternWF`: each pattern edge appears in its start
vertex's combined adjacency list as the `Out` record. -/
theorem adjacencies_complete_out (p : Pattern) (hwf : PatternWF p)
    (kv : Nat × PatternEdge) (hkv : kv ∈ p.edges) :
    outRecord kv.2 ∈ p.adjacencies kv.2.start_vertex.id := by
  have hin : kv.2.start_vertex.id ∈ p.vertices.map Prod.fst := by
    have h := (hwf.ends kv hkv).1
    exact VMap.mem_keys_of_get _ _ (by rw [h]; rfl)
  rw [← hwf.vdKeys] at hin
  have hsome := VMap.get_isSome_of_mem_keys _ _ hin
  obtain ⟨vd, hvd⟩ := Option.isSome_iff_exists.mp hsome
  have hmem := VMap.get_mem _ _ _ hvd
  have hperm := hwf.adjOut _ hmem
  unfold Pattern.adjacencies
  rw [hvd]
  refine List.mem_append.mpr (Or.inl ?_)
  refine hperm.mem_iff.mpr ?_
  exact List.mem_map.mpr ⟨kv, List.mem_filter.mpr ⟨hkv, by simp⟩, rfl⟩

/-- Completeness under `PatternWF`: each pattern edge appears in its end
vertex's combined adjacency list as the `In` record. -/
theorem adjacencies_complete_in (p : Pattern) (hwf : PatternWF p)
    (kv : Nat × PatternEdge) (hkv : kv ∈ p.edges) :
    inRecord kv.2 ∈ p.adjacencies kv.2.end_vertex.id := by
  have hin : kv.2.end_vertex.id ∈ p.vertices.map Prod.fst := by
    have h := (hwf.ends kv hkv).2
    exact VMap.mem_keys_of_get _ _ (by rw [h]; rfl)
  rw [← hwf.vdKeys] at hin
  have hsome := VMap.get_isSome_of_mem_keys _ _ hin
  obtain ⟨vd, hvd⟩ := Option.isSome_iff_exists.mp hsome
  have hmem := VMap.get_mem _ _ _ hvd
  have hperm := hwf.adjIn _ hmem
  unfold Pattern.adjacencies
  rw [hvd]
  refine List.mem_append.mpr (Or.inr ?_)
  refine hperm.mem_iff.mpr ?_
  exact List.mem_map.mpr ⟨kv, List.mem_filter.mpr ⟨hkv, by simp⟩, rfl⟩

/-- An adjacency of `v` witnesses edge-adjacency between `v` and the
record's adjacent vertex. -/
theorem edgeAdj_of_adjacency (p : Pattern) (hwf : PatternWF p) (v : Nat)
    (a : Adjacency) (ha : a ∈ p.adjacencies v) : EdgeAdj p v a.adj_vertex.id := by
  obtain ⟨kv, hkv, _, hc⟩ := adjacencies_sound p hwf v a ha
  rcases hc with ⟨hs, hv⟩ | ⟨hs, hv⟩
  · exact ⟨kv, hkv, Or.inl ⟨hs, by rw [hv]⟩⟩
  · exact ⟨kv, hkv, Or.inr ⟨by rw [hv], hs⟩⟩

/-! ## Manager-state lemmas for the ranking proofs -/

theorem VMap.get_mapValues {β : Type} (m : List (Nat × α)) (g : α → β) (k : Nat) :
    VMap.get (m.map (fun kv => (kv.1, g kv.2))) k = (VMap.get m k).map g := by
  induction m with
  | nil => rfl
  | cons kv rest ih =>
    obtain ⟨k0, v0⟩ := kv
    by_cases hk : k = k0
    · simp [VMap.get, hk]
    · simp only [List.map_cons]
      unfold VMap.get
      rw [if_neg hk, if_neg hk]
      exact ih

namespace CanonicalLabelManager

/-- Re-sorting adjacency lists changes no rank map. -/
theorem updateOrder_vertex_rank_map (m : CanonicalLabelManager) :
    (m.updateVertexAdjacenciesOrder).vertex_rank_map = m.vertex_rank_map := rfl

theorem updateOrder_edge_rank_map (m : CanonicalLabelManager) :
    (m.updateVertexAdjacenciesOrder).edge_rank_map = m.edge_rank_map := rfl

/-- The per-vertex adjacency lists after re-sorting are permutations of
the lists before. -/
theorem updateOrder_adj_perm (m : CanonicalLabelManager) (v : Nat) :
    ((VMap.get (m.updateVertexAdjacenciesOrder).vertex_adjacencies_map v).getD []).Perm
      ((VMap.get m.vertex_adjacencies_map v).getD []) := by
  show ((VMap.get (m.vertex_adjacencies_map.map
    (fun kv => (kv.1, m.sortAdjacencyList kv.2))) v).getD []).Perm _
  rw [VMap.get_mapValues]
  cases VMap.get m.vertex_adjacencies_map v with
  | none => simp
  | some l =>
    simp only [Option.map_some, Option.getD_some]
    exact List.perm_insertionSort _ l

/-- The pattern-adjacency relation `AdjOk`: the manager's per-vertex list
for every id is a permutation of the pattern's combined list. -/
def AdjOk (p : Pattern) (m : CanonicalLabelManager) : Prop :=
  ∀ v, ((VMap.get m.vertex_adjacencies_map v).getD []).Perm (p.adjacencies v)

theorem adjOk_updateOrder (p : Pattern) (m : CanonicalLabelManager)
    (h : AdjOk p m) : AdjOk p m.updateVertexAdjacenciesOrder :=
  fun v => (updateOrder_adj_perm m v).trans (h v)

/-- A refinement pass touches only the group maps, the convergence flag
and the adjacency order. -/
theorem refine_vertex_rank_map (p : Pattern) (m : CanonicalLabelManager) :
    (refineVertexGroups p m).vertex_rank_map = m.vertex_rank_map := rfl

theorem refine_edge_rank_map (p : Pattern) (m : CanonicalLabelManager) :
    (refineVertexGroups p m).edge_rank_map = m.edge_rank_map := rfl

theorem adjOk_refine (p : Pattern) (m : CanonicalLabelManager)
    (h : AdjOk p m) : AdjOk p (refineVertexGroups p m) := by
  intro v
  unfold refineVertexGroups
  exact (updateOrder_adj_perm _ v).trans (h v)

theorem grouping_vertex_rank_map (p : Pattern) (fuel : Nat) (m : CanonicalLabelManager) :
    (vertexGroupingAux p fuel m).vertex_rank_map = m.vertex_rank_map := by
  induction fuel generalizing m with
  | zero => rfl
  | succ n ih =>
    unfold vertexGroupingAux
    by_cases h : m.has_converged
    · rw [if_pos h]
    · rw [if_neg h, ih, refine_vertex_rank_map]

theorem grouping_edge_rank_map (p : Pattern) (fuel : Nat) (m : CanonicalLabelManager) :
    (vertexGroupingAux p fuel m).edge_rank_map = m.edge_rank_map := by
  induction fuel generalizing m with
  | zero => rfl
  | succ n ih =>
    unfold vertexGroupingAux
    by_cases h : m.has_converged
    · rw [if_pos h]
    · rw [if_neg h, ih, refine_edge_rank_map]

theorem adjOk_grouping (p : Pattern) (fuel : Nat) (m : CanonicalLabelManager)
    (h : AdjOk p m) : AdjOk p (vertexGroupingAux p fuel m) := by
  induction fuel generalizing m with
  | zero => exact h
  | succ n ih =>
    unfold vertexGroupingAux
    by_cases hc : m.has_converged
    · rw [if_pos hc]; exact h
    · rw [if_neg hc]; exact ih _ (adjOk_refine p m h)

/-- The freshly built manager: every vertex unranked, every edge unranked,
rank-map keys parallel to the pattern's, adjacency lists a permutation of
the pattern's. -/
theorem fromPattern_vertex_rank_map (p : Pattern) :
    (fromPattern p).vertex_rank_map = p.vertices.map (fun kv => (kv.1, none)) := rfl

theorem fromPattern_edge_rank_map (p : Pattern) :
    (fromPattern p).edge_rank_map = p.edges.map (fun kv => (kv.1, none)) := rfl

theorem get_map_none (l : List (Nat × α)) (k : Nat) :
    (VMap.get (l.map (fun kv => (kv.1, (none : Option Nat)))) k).getD none = none := by
  induction l with
  | nil => rfl
  | cons kv rest ih =>
    obtain ⟨k0, v0⟩ := kv
    by_cases hk : k = k0
    · simp [VMap.get, hk]
    · simp only [List.map_cons]
      unfold VMap.get
      rw [if_neg hk]
      exact ih

theorem fromPattern_rank_none (p : Pattern) (v : Nat) :
    (fromPattern p).getVertexRank v = none := by
  unfold getVertexRank
  rw [fromPattern_vertex_rank_map]
  exact get_map_none _ _

theorem get_tab {β : Type} (l : List (Nat × β)) (f : Nat → α) (v : Nat)
    (hv : v ∈ l.map Prod.fst) :
    VMap.get (l.map (fun kv => (kv.1, f kv.1))) v = some (f v) := by
  induction l with
  | nil => simp at hv
  | cons kv rest ih =>
    obtain ⟨k0, v0⟩ := kv
    by_cases hk : v = k0
    · subst hk
      simp [VMap.get]
    · simp only [List.map_cons, List.mem_cons] at hv
      rcases hv with h | h
      · exact absurd h hk
      · simp only [List.map_cons]
        unfold VMap.get
        rw [if_neg hk]
        exact ih h

theorem adjOk_fromPattern (p : Pattern) (hwf : PatternWF p) :
    AdjOk p (fromPattern p) := by
  unfold fromPattern
  apply adjOk_updateOrder
  intro v
  show ((VMap.get (p.vertices.map (fun kv => (kv.1, p.adjacencies kv.1))) v).getD []).Perm _
  by_cases hv : v ∈ p.vertices.map Prod.fst
  · rw [get_tab p.vertices (fun k => p.adjacencies k) v hv]
    exact List.Perm.refl _
  · have h1 : VMap.get (p.vertices.map (fun kv => (kv.1, p.adjacencies kv.1))) v = none := by
      apply VMap.get_eq_none_of_not_mem
      intro hc
      apply hv
      obtain ⟨x, hx, hfst⟩ := List.mem_map.mp hc
      obtain ⟨y, hy, rfl⟩ := List.mem_map.mp hx
      exact List.mem_map.mpr ⟨y, hy, by simpa using hfst⟩
    rw [h1]
    have h2 : p.adjacencies v = [] := by
      unfold Pattern.adjacencies
      rw [VMap.get_eq_none_of_not_mem]
      rw [hwf.vdKeys]
      exact hv
    rw [h2]
    exact List.Perm.refl _

/-- Total read of an edge's optional rank (the manager's
`edge_rank_map.get(..).unwrap()` pattern). -/
def getEdgeRank (m : CanonicalLabelManager) (e : Nat) : Option Nat :=
  (VMap.get m.edge_rank_map e).getD none

theorem getVertexRank_insert (m : CanonicalLabelManager) (v : Nat) (r : Option Nat)
    (v2 : Nat) :
    ({ m with vertex_rank_map := VMap.insert m.vertex_rank_map v r }
      : CanonicalLabelManager).getVertexRank v2
      = if v2 = v then r else m.getVertexRank v2 := by
  unfold getVertexRank
  show (VMap.get (VMap.insert m.vertex_rank_map v r) v2).getD none = _
  rw [VMap.get_insert]
  by_cases h : v2 = v
  · rw [if_pos h, if_pos h]
    rfl
  · rw [if_neg h, if_neg h]

theorem getEdgeRank_insert (m : CanonicalLabelManager) (e : Nat) (r : Option Nat)
    (e2 : Nat) :
    ({ m with edge_rank_map := VMap.insert m.edge_rank_map e r }
      : CanonicalLabelManager).getEdgeRank e2
      = if e2 = e then r else m.getEdgeRank e2 := by
  unfold getEdgeRank
  show (VMap.get (VMap.insert m.edge_rank_map e r) e2).getD none = _
  rw [VMap.get_insert]
  by_cases h : e2 = e
  · rw [if_pos h, if_pos h]
    rfl
  · rw [if_neg h, if_neg h]

theorem updateOrder_getVertexRank (m : CanonicalLabelManager) (v : Nat) :
    (m.updateVertexAdjacenciesOrder).getVertexRank v = m.getVertexRank v := rfl

theorem updateOrder_getEdgeRank (m : CanonicalLabelManager) (e : Nat) :
    (m.updateVertexAdjacenciesOrder).getEdgeRank e = m.getEdgeRank e := rfl

end CanonicalLabelManager

/-- Keys are unchanged when inserting at an already present key of a
key-sorted map. -/
theorem VMap.insert_keys_of_mem (m : List (Nat × α)) (hord : KeysOrd m) (k : Nat)
    (v : α) (hmem : k ∈ m.map Prod.fst) :
    (VMap.insert m k v).map Prod.fst = m.map Prod.fst := by
  induction m with
  | nil => simp at hmem
  | cons kv rest ih =>
    obtain ⟨k0, v0⟩ := kv
    obtain ⟨hhd, htl⟩ := List.sorted_cons.mp hord
    simp only [List.map_cons, List.mem_cons] at hmem
    by_cases h1 : k = k0
    · subst h1
      unfold VMap.insert
      rw [if_neg (by omega), if_pos rfl]
      rfl
    · have hk : k ∈ rest.map Prod.fst := hmem.resolve_left h1
      have hgt : k0 < k := hhd k hk
      unfold VMap.insert
      rw [if_neg (by omega), if_neg h1]
      simp only [List.map_cons]
      rw [ih htl hk]

/-! ## The DFS run invariant -/

/-- A vertex ranked during the current run: unranked at run start, ranked
now. -/
def NewR (rank0 : Nat → Option Nat) (m : CanonicalLabelManager) (v : Nat) : Prop :=
  rank0 v = none ∧ (m.getVertexRank v).isSome

open CanonicalLabelManager in
/-- The invariant carried through `dfsLoop` within a single
`pattern_ranking_from_vertex` run seeded at `s`, relative to the vertex
rank assignment `rank0` at run start: the run only ranks vertices of the
seed's connected component, the seed alone receives vertex rank 0, newly
assigned vertex ranks are exactly `[0, nextV)` without repetition, visited
edges carry exactly the edge ranks `[0, nextE)`, every stack entry is an
adjacency record of a ranked reachable vertex, every adjacency of a
newly ranked vertex is visited or still stacked, and both endpoints of
every visited edge are ranked. -/
structure EasyInv (p : Pattern) (s : Nat) (rank0 : Nat → Option Nat)
    (st : DfsState) : Prop where
  adjOk : AdjOk p st.mgr
  rankCase : ∀ v, st.mgr.getVertexRank v = rank0 v
    ∨ (rank0 v = none ∧ (st.mgr.getVertexRank v).isSome)
  seed0 : st.mgr.getVertexRank s = some 0
  seedNew : rank0 s = none
  nextVpos : 1 ≤ st.nextV
  nonSeedPos : ∀ v, NewR rank0 st.mgr v → v ≠ s →
    ∃ r, st.mgr.getVertexRank v = some r ∧ 1 ≤ r
  vBij1 : ∀ v, NewR rank0 st.mgr v →
    ∃ r, st.mgr.getVertexRank v = some r ∧ r < st.nextV
  vBij2 : ∀ r, r < st.nextV →
    ∃ v, NewR rank0 st.mgr v ∧ st.mgr.getVertexRank v = some r
  vBij3 : ∀ v w r, NewR rank0 st.mgr v → NewR rank0 st.mgr w →
    st.mgr.getVertexRank v = some r → st.mgr.getVertexRank w = some r → v = w
  newReach : ∀ v, NewR rank0 st.mgr v → Reach p s v
  newInVerts : ∀ v, NewR rank0 st.mgr v → v ∈ p.vertices.map Prod.fst
  visNodup : st.visited.Nodup
  visEdges : ∀ e ∈ st.visited, e ∈ p.edges.map Prod.fst
  eBij1 : ∀ e ∈ st.visited, ∃ r, st.mgr.getEdgeRank e = some r ∧ r < st.nextE
  eBij2 : ∀ r, r < st.nextE → ∃ e ∈ st.visited, st.mgr.getEdgeRank e = some r
  eBij3 : ∀ e1 e2 r, e1 ∈ st.visited → e2 ∈ st.visited →
    st.mgr.getEdgeRank e1 = some r → st.mgr.getEdgeRank e2 = some r → e1 = e2
  stackSrc : ∀ a ∈ st.stack, ∃ x, (st.mgr.getVertexRank x).isSome ∧ Reach p s x
    ∧ a ∈ p.adjacencies x
  closure : ∀ v, NewR rank0 st.mgr v → ∀ a ∈ p.adjacencies v,
    a.edge_id ∈ st.visited ∨ a ∈ st.stack
  visFar : ∀ e ∈ st.visited, ∀ kv ∈ p.edges, kv.1 = e →
    (st.mgr.getVertexRank (kv.2 : PatternEdge).start_vertex.id).isSome
    ∧ (st.mgr.getVertexRank kv.2.end_vertex.id).isSome
  rankKeys : st.mgr.vertex_rank_map.map Prod.fst = p.vertices.map Prod.fst
  erankKeys : st.mgr.edge_rank_map.map Prod.fst = p.edges.map Prod.fst

/-- Membership form of `List.contains` on `Nat` lists. -/
theorem contains_iff_mem (l : List Nat) (x : Nat) : l.contains x = true ↔ x ∈ l :=
  List.elem_iff

theorem contains_eq_false_iff (l : List Nat) (x : Nat) :
    l.contains x = false ↔ x ∉ l := by
  rw [← contains_iff_mem l x]
  cases l.contains x <;> simp

/-- Entries of a map with `Nodup` keys are determined by their key. -/
theorem entry_unique {α : Type} (m : List (Nat × α)) (h : (m.map Prod.fst).Nodup)
    {kv kw : Nat × α} (h1 : kv ∈ m) (h2 : kw ∈ m) (he : kv.1 = kw.1) : kv = kw := by
  induction m with
  | nil => simp at h1
  | cons x xs ih =>
    simp only [List.map_cons, List.nodup_cons] at h
    rcases List.mem_cons.mp h1 with rfl | h1'
    · rcases List.mem_cons.mp h2 with rfl | h2'
      · rfl
      · exact absurd (he ▸ List.mem_map_of_mem Prod.fst h2') h.1
    · rcases List.mem_cons.mp h2 with rfl | h2'
      · refine absurd ?_ h.1
        rw [← he]
        exact List.mem_map_of_mem Prod.fst h1'
      · exact ih h.2 h1' h2'

/-- Sorted keys are distinct. -/
theorem KeysOrd.nodup {α : Type} {m : List (Nat × α)} (h : KeysOrd m) :
    (m.map Prod.fst).Nodup :=
  List.Pairwise.imp (fun hlt => Nat.ne_of_lt hlt) h

namespace CanonicalLabelManager

/-- The state produced by one edge-visiting step of `dfsLoop` (its body in
the unvisited branch, verbatim). -/
def dfsStepState (st : DfsState) (a : Adjacency) (rest : List Adjacency) : DfsState :=
  let visited := a.edge_id :: st.visited
  let mgr := { st.mgr with
    edge_rank_map := VMap.insert st.mgr.edge_rank_map a.edge_id (some st.nextE) }
  let current_v_id := a.adj_vertex.id
  let is_vertex_visited := (mgr.getVertexRank current_v_id).isSome
  let mgr :=
    if is_vertex_visited then mgr
    else { mgr with
      vertex_rank_map := VMap.insert mgr.vertex_rank_map current_v_id (some st.nextV) }
  let nextV := if is_vertex_visited then st.nextV else st.nextV + 1
  let mgr := mgr.updateVertexAdjacenciesOrder
  let to_push := ((VMap.get mgr.vertex_adjacencies_map current_v_id).getD []).filter
    (fun adj => ¬ visited.contains adj.edge_id)
  { mgr := mgr, visited := visited, stack := to_push ++ rest,
    nextV := nextV, nextE := st.nextE + 1 }

/-- `dfsLoop` on a non-empty stack: skip a visited edge, otherwise take the
visiting step. -/
theorem dfsLoop_cons (fuel : Nat) (st : DfsState) (a : Adjacency)
    (rest : List Adjacency) (hstk : st.stack = a :: rest) :
    dfsLoop (fuel + 1) st =
      if st.visited.contains a.edge_id then dfsLoop fuel { st with stack := rest }
      else dfsLoop fuel (dfsStepState st a rest) := by
  conv_lhs => rw [dfsLoop, hstk]
  rfl

theorem dfsStepState_visited (st : DfsState) (a : Adjacency) (rest : List Adjacency) :
    (dfsStepState st a rest).visited = a.edge_id :: st.visited := rfl

theorem dfsStepState_nextE (st : DfsState) (a : Adjacency) (rest : List Adjacency) :
    (dfsStepState st a rest).nextE = st.nextE + 1 := rfl

theorem dfsStepState_ermap (st : DfsState) (a : Adjacency) (rest : List Adjacency) :
    (dfsStepState st a rest).mgr.edge_rank_map
      = VMap.insert st.mgr.edge_rank_map a.edge_id (some st.nextE) := by
  unfold dfsStepState
  dsimp only
  by_cases hb : (({ st.mgr with
      edge_rank_map := VMap.insert st.mgr.edge_rank_map a.edge_id (some st.nextE) }
        : CanonicalLabelManager).getVertexRank a.adj_vertex.id).isSome = true
  · rw [if_pos hb]
    rfl
  · rw [if_neg hb]
    rfl

open CanonicalLabelManager in
theorem dfsStepState_erank (st : DfsState) (a : Adjacency) (rest : List Adjacency)
    (e2 : Nat) :
    (dfsStepState st a rest).mgr.getEdgeRank e2
      = if e2 = a.edge_id then some st.nextE else st.mgr.getEdgeRank e2 := by
  have h1 : (dfsStepState st a rest).mgr.getEdgeRank e2
      = ({ st.mgr with
          edge_rank_map := VMap.insert st.mgr.edge_rank_map a.edge_id (some st.nextE) }
            : CanonicalLabelManager).getEdgeRank e2 := by
    unfold CanonicalLabelManager.getEdgeRank
    rw [dfsStepState_ermap]
  rw [h1, getEdgeRank_insert]

open CanonicalLabelManager in
theorem dfsStepState_nextV_pos (st : DfsState) (a : Adjacency) (rest : List Adjacency)
    (hb : (st.mgr.getVertexRank a.adj_vertex.id).isSome = true) :
    (dfsStepState st a rest).nextV = st.nextV := by
  unfold dfsStepState
  dsimp only
  rw [show (({ st.mgr with
      edge_rank_map := VMap.insert st.mgr.edge_rank_map a.edge_id (some st.nextE) }
        : CanonicalLabelManager).getVertexRank a.adj_vertex.id).isSome = true from hb,
    if_pos rfl]

open CanonicalLabelManager in
theorem dfsStepState_nextV_neg (st : DfsState) (a : Adjacency) (rest : List Adjacency)
    (hb : (st.mgr.getVertexRank a.adj_vertex.id).isSome = false) :
    (dfsStepState st a rest).nextV = st.nextV + 1 := by
  unfold dfsStepState
  dsimp only
  rw [show (({ st.mgr with
      edge_rank_map := VMap.insert st.mgr.edge_rank_map a.edge_id (some st.nextE) }
        : CanonicalLabelManager).getVertexRank a.adj_vertex.id).isSome = false from hb]
  rw [if_neg (by simp)]

open CanonicalLabelManager in
theorem dfsStepState_vrmap_pos (st : DfsState) (a : Adjacency) (rest : List Adjacency)
    (hb : (st.mgr.getVertexRank a.adj_vertex.id).isSome = true) :
    (dfsStepState st a rest).mgr.vertex_rank_map = st.mgr.vertex_rank_map := by
  unfold dfsStepState
  dsimp only
  rw [show (({ st.mgr with
      edge_rank_map := VMap.insert st.mgr.edge_rank_map a.edge_id (some st.nextE) }
        : CanonicalLabelManager).getVertexRank a.adj_vertex.id).isSome = true from hb,
    if_pos rfl]
  rfl

open CanonicalLabelManager in
theorem dfsStepState_vrmap_neg (st : DfsState) (a : Adjacency) (rest : List Adjacency)
    (hb : (st.mgr.getVertexRank a.adj_vertex.id).isSome = false) :
    (dfsStepState st a rest).mgr.vertex_rank_map
      = VMap.insert st.mgr.vertex_rank_map a.adj_vertex.id (some st.nextV) := by
  unfold dfsStepState
  dsimp only
  rw [show (({ st.mgr with
      edge_rank_map := VMap.insert st.mgr.edge_rank_map a.edge_id (some st.nextE) }
        : CanonicalLabelManager).getVertexRank a.adj_vertex.id).isSome = false from hb]
  rw [if_neg (by simp)]
  rfl

open CanonicalLabelManager in
theorem dfsStepState_rank_pos (st : DfsState) (a : Adjacency) (rest : List Adjacency)
    (hb : (st.mgr.getVertexRank a.adj_vertex.id).isSome = true) (v2 : Nat) :
    (dfsStepState st a rest).mgr.getVertexRank v2 = st.mgr.getVertexRank v2 := by
  unfold CanonicalLabelManager.getVertexRank
  rw [dfsStepState_vrmap_pos st a rest hb]

open CanonicalLabelManager in
theorem dfsStepState_rank_neg (st : DfsState) (a : Adjacency) (rest : List Adjacency)
    (hb : (st.mgr.getVertexRank a.adj_vertex.id).isSome = false) (v2 : Nat) :
    (dfsStepState st a rest).mgr.getVertexRank v2
      = if v2 = a.adj_vertex.id then some st.nextV else st.mgr.getVertexRank v2 := by
  have h1 : (dfsStepState st a rest).mgr.getVertexRank v2
      = ({ st.mgr with
          vertex_rank_map :=
            VMap.insert st.mgr.vertex_rank_map a.adj_vertex.id (some st.nextV) }
            : CanonicalLabelManager).getVertexRank v2 := by
    unfold CanonicalLabelManager.getVertexRank
    rw [dfsStepState_vrmap_neg st a rest hb]
  rw [h1, getVertexRank_insert]

open CanonicalLabelManager in
theorem dfsStepState_adjOk (p : Pattern) (st : DfsState) (a : Adjacency)
    (rest : List Adjacency) (h : AdjOk p st.mgr) :
    AdjOk p (dfsStepState st a rest).mgr := by
  unfold dfsStepState
  dsimp only
  by_cases hb : (({ st.mgr with
      edge_rank_map := VMap.insert st.mgr.edge_rank_map a.edge_id (some st.nextE) }
        : CanonicalLabelManager).getVertexRank a.adj_vertex.id).isSome = true
  · rw [if_pos hb]
    exact adjOk_updateOrder p _ h
  · rw [if_neg hb]
    exact adjOk_updateOrder p _ h

theorem dfsStepState_stack (st : DfsState) (a : Adjacency) (rest : List Adjacency) :
    (dfsStepState st a rest).stack
      = ((VMap.get (dfsStepState st a rest).mgr.vertex_adjacencies_map
          a.adj_vertex.id).getD []).filter
          (fun adj => ¬ (a.edge_id :: st.visited).contains adj.edge_id) ++ rest := rfl

/-- The invariant holds for the initial DFS state built by
`pattern_ranking_from_vertex` for an unranked seed vertex of the
pattern. -/
theorem easyInv_init (p : Pattern) (hwf : PatternWF p) (m : CanonicalLabelManager)
    (s : Nat) (hAdj : AdjOk p m)
    (hrk : m.vertex_rank_map.map Prod.fst = p.vertices.map Prod.fst)
    (herk : m.edge_rank_map.map Prod.fst = p.edges.map Prod.fst)
    (hs : s ∈ p.vertices.map Prod.fst)
    (hnone : m.getVertexRank s = none) :
    EasyInv p s m.getVertexRank
      { mgr := { m with vertex_rank_map := VMap.insert m.vertex_rank_map s (some 0) }
        visited := []
        stack := (VMap.get ({ m with
          vertex_rank_map := VMap.insert m.vertex_rank_map s (some 0) }
            : CanonicalLabelManager).vertex_adjacencies_map s).getD []
        nextV := 1
        nextE := 0 } := by
  have hvr : ∀ v2, ({ m with vertex_rank_map := VMap.insert m.vertex_rank_map s (some 0) }
      : CanonicalLabelManager).getVertexRank v2
      = if v2 = s then some 0 else m.getVertexRank v2 :=
    getVertexRank_insert m s (some 0)
  have honly : ∀ u, NewR m.getVertexRank
      ({ m with vertex_rank_map := VMap.insert m.vertex_rank_map s (some 0) }
        : CanonicalLabelManager) u → u = s := by
    intro u hu
    obtain ⟨h0, hS⟩ := hu
    by_contra hne
    rw [hvr u, if_neg hne, h0] at hS
    simp at hS
  refine
    { adjOk := hAdj
      rankCase := ?_
      seed0 := ?_
      seedNew := hnone
      nextVpos := le_refl 1
      nonSeedPos := ?_
      vBij1 := ?_
      vBij2 := ?_
      vBij3 := ?_
      newReach := ?_
      newInVerts := ?_
      visNodup := List.nodup_nil
      visEdges := ?_
      eBij1 := ?_
      eBij2 := ?_
      eBij3 := ?_
      stackSrc := ?_
      closure := ?_
      visFar := ?_
      rankKeys := ?_
      erankKeys := herk }
  · intro v
    rw [hvr v]
    by_cases hv : v = s
    · subst hv
      rw [if_pos rfl]
      exact Or.inr ⟨hnone, rfl⟩
    · rw [if_neg hv]
      exact Or.inl rfl
  · rw [hvr s, if_pos rfl]
  · intro v hv hne
    exact absurd (honly v hv) hne
  · intro v hv
    have := honly v hv
    subst this
    exact ⟨0, by rw [hvr v, if_pos rfl], Nat.zero_lt_one⟩
  · intro r hr
    have hr0 : r = 0 := Nat.lt_one_iff.mp hr
    subst hr0
    exact ⟨s, ⟨hnone, by rw [hvr s, if_pos rfl]; rfl⟩, by rw [hvr s, if_pos rfl]⟩
  · intro v w r hv hw _ _
    exact (honly v hv).trans (honly w hw).symm
  · intro v hv
    have := honly v hv
    subst this
    exact Relation.ReflTransGen.refl
  · intro v hv
    have := honly v hv
    subst this
    exact hs
  · intro e he
    simp at he
  · intro e he
    simp at he
  · intro r hr
    exact absurd hr (Nat.not_lt_zero r)
  · intro e1 e2 r h1
    simp at h1
  · intro a ha
    refine ⟨s, ?_, Relation.ReflTransGen.refl, ?_⟩
    · rw [hvr s, if_pos rfl]
      rfl
    · exact (hAdj s).subset ha
  · intro v hv a ha
    have := honly v hv
    subst this
    exact Or.inr ((hAdj v).mem_iff.mpr ha)
  · intro e he
    simp at he
  · show (VMap.insert m.vertex_rank_map s (some 0)).map Prod.fst = p.vertices.map Prod.fst
    have hord : KeysOrd m.vertex_rank_map := by
      show (m.vertex_rank_map.map Prod.fst).Sorted (· < ·)
      rw [hrk]
      exact hwf.vOrd
    rw [VMap.insert_keys_of_mem m.vertex_rank_map hord s (some 0) (by rw [hrk]; exact hs)]
    exact hrk

/-- Skipping an already visited edge preserves the run invariant. -/
theorem easyInv_skip (p : Pattern) (s : Nat) (rank0 : Nat → Option Nat)
    (st : DfsState) (a : Adjacency) (rest : List Adjacency)
    (hstk : st.stack = a :: rest) (hvis : a.edge_id ∈ st.visited)
    (h : EasyInv p s rank0 st) :
    EasyInv p s rank0 { st with stack := rest } := by
  refine
    { adjOk := h.adjOk
      rankCase := h.rankCase
      seed0 := h.seed0
      seedNew := h.seedNew
      nextVpos := h.nextVpos
      nonSeedPos := h.nonSeedPos
      vBij1 := h.vBij1
      vBij2 := h.vBij2
      vBij3 := h.vBij3
      newReach := h.newReach
      newInVerts := h.newInVerts
      visNodup := h.visNodup
      visEdges := h.visEdges
      eBij1 := h.eBij1
      eBij2 := h.eBij2
      eBij3 := h.eBij3
      stackSrc := ?_
      closure := ?_
      visFar := h.visFar
      rankKeys := h.rankKeys
      erankKeys := h.erankKeys }
  · intro a2 ha2
    exact h.stackSrc a2 (by rw [hstk]; exact List.mem_cons_of_mem _ ha2)
  · intro v hv a2 ha2
    rcases h.closure v hv a2 ha2 with hin | hsk
    · exact Or.inl hin
    · rw [hstk] at hsk
      rcases List.mem_cons.mp hsk with rfl | hr
      · exact Or.inl hvis
      · exact Or.inr hr

/-- Visiting a new edge preserves the run invariant. -/
theorem easyInv_visit (p : Pattern) (hwf : PatternWF p) (s : Nat)
    (rank0 : Nat → Option Nat) (st : DfsState) (a : Adjacency) (rest : List Adjacency)
    (hstk : st.stack = a :: rest) (hvis : a.edge_id ∉ st.visited)
    (h : EasyInv p s rank0 st) :
    EasyInv p s rank0 (dfsStepState st a rest) := by
  obtain ⟨x, hxrank, hxreach, hxadj⟩ :=
    h.stackSrc a (by rw [hstk]; exact List.mem_cons_self _ _)
  obtain ⟨kv, hkv, hkid, hcase⟩ := adjacencies_sound p hwf x a hxadj
  have hcv_mem : a.adj_vertex.id ∈ p.vertices.map Prod.fst := by
    rcases hcase with ⟨_, hav⟩ | ⟨_, hav⟩
    · have hg := (hwf.ends kv hkv).2
      rw [hav]
      exact VMap.mem_keys_of_get _ _ (by rw [hg]; rfl)
    · have hg := (hwf.ends kv hkv).1
      rw [hav]
      exact VMap.mem_keys_of_get _ _ (by rw [hg]; rfl)
  have hcvreach : Reach p s a.adj_vertex.id :=
    hxreach.tail (edgeAdj_of_adjacency p hwf x a hxadj)
  have hedge_mem : a.edge_id ∈ p.edges.map Prod.fst := by
    rw [← hkid]
    exact List.mem_map_of_mem Prod.fst hkv
  have hadjOk2 : AdjOk p (dfsStepState st a rest).mgr :=
    dfsStepState_adjOk p st a rest h.adjOk
  have hstack := dfsStepState_stack st a rest
  have hpush_mem : ∀ a2 ∈ (dfsStepState st a rest).stack, a2 ∈ rest
      ∨ (a2 ∈ p.adjacencies a.adj_vertex.id ∧ a2.edge_id ∉ a.edge_id :: st.visited) := by
    intro a2 ha2
    rw [hstack] at ha2
    rcases List.mem_append.mp ha2 with hl | hr
    · right
      have hm := List.mem_filter.mp hl
      refine ⟨(hadjOk2 a.adj_vertex.id).subset hm.1, ?_⟩
      have hm2 := hm.2
      simpa [contains_iff_mem] using hm2
    · exact Or.inl hr
  have hpush_rev : ∀ a2 ∈ p.adjacencies a.adj_vertex.id,
      a2.edge_id ∈ a.edge_id :: st.visited ∨ a2 ∈ (dfsStepState st a rest).stack := by
    intro a2 ha2
    by_cases hc : a2.edge_id ∈ a.edge_id :: st.visited
    · exact Or.inl hc
    · right
      rw [hstack]
      refine List.mem_append.mpr (Or.inl ?_)
      refine List.mem_filter.mpr ⟨(hadjOk2 _).mem_iff.mpr ha2, ?_⟩
      simpa [contains_iff_mem] using hc
  have hkeyOrdV : KeysOrd st.mgr.vertex_rank_map := by
    show (st.mgr.vertex_rank_map.map Prod.fst).Sorted (· < ·)
    rw [h.rankKeys]
    exact hwf.vOrd
  have hkeyOrdE : KeysOrd st.mgr.edge_rank_map := by
    show (st.mgr.edge_rank_map.map Prod.fst).Sorted (· < ·)
    rw [h.erankKeys]
    exact hwf.eOrd
  have herkKeys2 : (dfsStepState st a rest).mgr.edge_rank_map.map Prod.fst
      = p.edges.map Prod.fst := by
    rw [dfsStepState_ermap]
    rw [VMap.insert_keys_of_mem st.mgr.edge_rank_map hkeyOrdE a.edge_id (some st.nextE)
      (by rw [h.erankKeys]; exact hedge_mem)]
    exact h.erankKeys
  cases hb : (st.mgr.getVertexRank a.adj_vertex.id).isSome with
  | true =>
    have hrk := dfsStepState_rank_pos st a rest hb
    have hnv := dfsStepState_nextV_pos st a rest hb
    have hmonoSome : ∀ y, (st.mgr.getVertexRank y).isSome
        → ((dfsStepState st a rest).mgr.getVertexRank y).isSome := by
      intro y hy
      rw [hrk y]
      exact hy
    have hNewR : ∀ v, NewR rank0 (dfsStepState st a rest).mgr v ↔ NewR rank0 st.mgr v := by
      intro v
      unfold NewR
      rw [hrk v]
    refine
      { adjOk := hadjOk2
        rankCase := ?_
        seed0 := ?_
        seedNew := h.seedNew
        nextVpos := ?_
        nonSeedPos := ?_
        vBij1 := ?_
        vBij2 := ?_
        vBij3 := ?_
        newReach := ?_
        newInVerts := ?_
        visNodup := ?_
        visEdges := ?_
        eBij1 := ?_
        eBij2 := ?_
        eBij3 := ?_
        stackSrc := ?_
        closure := ?_
        visFar := ?_
        rankKeys := ?_
        erankKeys := herkKeys2 }
    · intro v
      rw [hrk v]
      exact h.rankCase v
    · rw [hrk s]
      exact h.seed0
    · rw [hnv]
      exact h.nextVpos
    · intro v hv hne
      rw [hrk v]
      exact h.nonSeedPos v ((hNewR v).mp hv) hne
    · intro v hv
      rw [hrk v, hnv]
      exact h.vBij1 v ((hNewR v).mp hv)
    · intro r hr
      rw [hnv] at hr
      obtain ⟨v, hvN, hvr⟩ := h.vBij2 r hr
      exact ⟨v, (hNewR v).mpr hvN, by rw [hrk v]; exact hvr⟩
    · intro v w r hv hw hvr1 hwr1
      rw [hrk v] at hvr1
      rw [hrk w] at hwr1
      exact h.vBij3 v w r ((hNewR v).mp hv) ((hNewR w).mp hw) hvr1 hwr1
    · intro v hv
      exact h.newReach v ((hNewR v).mp hv)
    · intro v hv
      exact h.newInVerts v ((hNewR v).mp hv)
    · rw [dfsStepState_visited]
      exact List.nodup_cons.mpr ⟨hvis, h.visNodup⟩
    · rw [dfsStepState_visited]
      intro e he
      rcases List.mem_cons.mp he with rfl | h2
      · exact hedge_mem
      · exact h.visEdges e h2
    · rw [dfsStepState_visited]
      intro e he
      rcases List.mem_cons.mp he with rfl | h2
      · refine ⟨st.nextE, ?_, ?_⟩
        · rw [dfsStepState_erank st a rest, if_pos rfl]
        · rw [dfsStepState_nextE]
          omega
      · have hne : e ≠ a.edge_id := fun hEq => hvis (hEq ▸ h2)
        obtain ⟨r, hr, hlt⟩ := h.eBij1 e h2
        refine ⟨r, ?_, ?_⟩
        · rw [dfsStepState_erank st a rest, if_neg hne]
          exact hr
        · rw [dfsStepState_nextE]
          omega
    · intro r hr
      rw [dfsStepState_nextE] at hr
      rcases Nat.lt_succ_iff_lt_or_eq.mp hr with hlt | rfl
      · obtain ⟨e, he, hre⟩ := h.eBij2 r hlt
        have hne : e ≠ a.edge_id := fun hEq => hvis (hEq ▸ he)
        refine ⟨e, ?_, ?_⟩
        · rw [dfsStepState_visited]
          exact List.mem_cons_of_mem _ he
        · rw [dfsStepState_erank st a rest, if_neg hne]
          exact hre
      · refine ⟨a.edge_id, ?_, ?_⟩
        · rw [dfsStepState_visited]
          exact List.mem_cons_self _ _
        · rw [dfsStepState_erank st a rest, if_pos rfl]
    · intro e1 e2 r h1 h2 hr1 hr2
      rw [dfsStepState_visited] at h1 h2
      rw [dfsStepState_erank st a rest] at hr1 hr2
      rcases List.mem_cons.mp h1 with rfl | h1'
      · rcases List.mem_cons.mp h2 with rfl | h2'
        · rfl
        · exfalso
          rw [if_pos rfl] at hr1
          have hne2 : e2 ≠ a.edge_id := fun hEq => hvis (hEq ▸ h2')
          rw [if_neg hne2] at hr2
          obtain ⟨r2, hr2', hlt2⟩ := h.eBij1 e2 h2'
          rw [hr2'] at hr2
          have : r2 = r := Option.some.inj hr2
          have : st.nextE = r := Option.some.inj hr1
          omega
      · rcases List.mem_cons.mp h2 with rfl | h2'
        · exfalso
          rw [if_pos rfl] at hr2
          have hne1 : e1 ≠ a.edge_id := fun hEq => hvis (hEq ▸ h1')
          rw [if_neg hne1] at hr1
          obtain ⟨r1, hr1', hlt1⟩ := h.eBij1 e1 h1'
          rw [hr1'] at hr1
          have : r1 = r := Option.some.inj hr1
          have : st.nextE = r := Option.some.inj hr2
          omega
        · have hne1 : e1 ≠ a.edge_id := fun hEq => hvis (hEq ▸ h1')
          have hne2 : e2 ≠ a.edge_id := fun hEq => hvis (hEq ▸ h2')
          rw [if_neg hne1] at hr1
          rw [if_neg hne2] at hr2
          exact h.eBij3 e1 e2 r h1' h2' hr1 hr2
    · intro a2 ha2
      rcases hpush_mem a2 ha2 with hrest | hp
      · obtain ⟨x2, hx2r, hx2reach, hx2adj⟩ :=
          h.stackSrc a2 (by rw [hstk]; exact List.mem_cons_of_mem _ hrest)
        exact ⟨x2, hmonoSome x2 hx2r, hx2reach, hx2adj⟩
      · refine ⟨a.adj_vertex.id, ?_, hcvreach, hp.1⟩
        rw [hrk]
        exact hb
    · intro v hv a2 ha2
      by_cases hvc : v = a.adj_vertex.id
      · subst hvc
        rcases hpush_rev a2 ha2 with hin | hsk
        · left
          rw [dfsStepState_visited]
          exact hin
        · exact Or.inr hsk
      · rcases h.closure v ((hNewR v).mp hv) a2 ha2 with hin | hsk
        · left
          rw [dfsStepState_visited]
          exact List.mem_cons_of_mem _ hin
        · rw [hstk] at hsk
          rcases List.mem_cons.mp hsk with rfl | hr
          · left
            rw [dfsStepState_visited]
            exact List.mem_cons_self _ _
          · right
            rw [hstack]
            exact List.mem_append.mpr (Or.inr hr)
    · intro e he kv2 hkv2 hkeq
      rw [dfsStepState_visited] at he
      rcases List.mem_cons.mp he with rfl | h2
      · have hkv2eq : kv2 = kv := by
          refine entry_unique p.edges (KeysOrd.nodup hwf.eOrd) hkv2 hkv ?_
          rw [hkeq, hkid]
        subst hkv2eq
        rcases hcase with ⟨hsx, hav⟩ | ⟨hex, hav⟩
        · constructor
          · rw [hsx]
            exact hmonoSome x hxrank
          · rw [← hav]
            rw [hrk]
            exact hb
        · constructor
          · rw [← hav]
            rw [hrk]
            exact hb
          · rw [hex]
            exact hmonoSome x hxrank
      · obtain ⟨hfs, hfe⟩ := h.visFar e h2 kv2 hkv2 hkeq
        exact ⟨hmonoSome _ hfs, hmonoSome _ hfe⟩
    · rw [dfsStepState_vrmap_pos st a rest hb]
      exact h.rankKeys
  | false =>
    have hrk := dfsStepState_rank_neg st a rest hb
    have hnv := dfsStepState_nextV_neg st a rest hb
    have hcv_none : st.mgr.getVertexRank a.adj_vertex.id = none := by
      cases hval : st.mgr.getVertexRank a.adj_vertex.id with
      | none => rfl
      | some r =>
        rw [hval] at hb
        simp at hb
    have hcv_rank0 : rank0 a.adj_vertex.id = none := by
      rcases h.rankCase a.adj_vertex.id with hc | hc
      · rw [← hc]
        exact hcv_none
      · exact hc.1
    have hcv_ne_s : a.adj_vertex.id ≠ s := by
      intro hEq
      rw [hEq, h.seed0] at hcv_none
      exact Option.noConfusion hcv_none
    have hvneOf : ∀ v, NewR rank0 st.mgr v → v ≠ a.adj_vertex.id := by
      intro v hold hEq
      obtain ⟨h0, hS⟩ := hold
      rw [hEq, hcv_none] at hS
      simp at hS
    have hmonoSome : ∀ y, (st.mgr.getVertexRank y).isSome
        → ((dfsStepState st a rest).mgr.getVertexRank y).isSome := by
      intro y hy
      rw [hrk y]
      by_cases hyc : y = a.adj_vertex.id
      · rw [if_pos hyc]
        rfl
      · rw [if_neg hyc]
        exact hy
    have hNewR : ∀ v, NewR rank0 (dfsStepState st a rest).mgr v
        ↔ (v = a.adj_vertex.id ∨ NewR rank0 st.mgr v) := by
      intro v
      unfold NewR
      rw [hrk v]
      by_cases hveq : v = a.adj_vertex.id
      · rw [if_pos hveq]
        constructor
        · intro _
          exact Or.inl hveq
        · intro _
          exact ⟨hveq ▸ hcv_rank0, rfl⟩
      · rw [if_neg hveq]
        constructor
        · intro hx2
          exact Or.inr hx2
        · intro hx2
          rcases hx2 with hx2 | hx2
          · exact absurd hx2 hveq
          · exact hx2
    refine
      { adjOk := hadjOk2
        rankCase := ?_
        seed0 := ?_
        seedNew := h.seedNew
        nextVpos := ?_
        nonSeedPos := ?_
        vBij1 := ?_
        vBij2 := ?_
        vBij3 := ?_
        newReach := ?_
        newInVerts := ?_
        visNodup := ?_
        visEdges := ?_
        eBij1 := ?_
        eBij2 := ?_
        eBij3 := ?_
        stackSrc := ?_
        closure := ?_
        visFar := ?_
        rankKeys := ?_
        erankKeys := herkKeys2 }
    · intro v
      rw [hrk v]
      by_cases hveq : v = a.adj_vertex.id
      · rw [if_pos hveq]
        exact Or.inr ⟨hveq ▸ hcv_rank0, rfl⟩
      · rw [if_neg hveq]
        exact h.rankCase v
    · rw [hrk s, if_neg (fun hEq => hcv_ne_s hEq.symm)]
      exact h.seed0
    · rw [hnv]
      omega
    · intro v hv hne
      rw [hrk v]
      rcases (hNewR v).mp hv with rfl | hold
      · rw [if_pos rfl]
        exact ⟨st.nextV, rfl, h.nextVpos⟩
      · rw [if_neg (hvneOf v hold)]
        exact h.nonSeedPos v hold hne
    · intro v hv
      rw [hrk v, hnv]
      rcases (hNewR v).mp hv with rfl | hold
      · rw [if_pos rfl]
        exact ⟨st.nextV, rfl, by omega⟩
      · rw [if_neg (hvneOf v hold)]
        obtain ⟨r, hr, hlt⟩ := h.vBij1 v hold
        exact ⟨r, hr, by omega⟩
    · intro r hr
      rw [hnv] at hr
      rcases Nat.lt_succ_iff_lt_or_eq.mp hr with hlt | rfl
      · obtain ⟨v, hvN, hvr⟩ := h.vBij2 r hlt
        refine ⟨v, (hNewR v).mpr (Or.inr hvN), ?_⟩
        rw [hrk v, if_neg (hvneOf v hvN)]
        exact hvr
      · refine ⟨a.adj_vertex.id, (hNewR _).mpr (Or.inl rfl), ?_⟩
        rw [hrk _, if_pos rfl]
    · intro v w r hv hw hvr1 hwr1
      rw [hrk v] at hvr1
      rw [hrk w] at hwr1
      rcases (hNewR v).mp hv with rfl | holdv
      · rcases (hNewR w).mp hw with hweq | holdw
        · rw [hweq]
        · exfalso
          rw [if_pos rfl] at hvr1
          rw [if_neg (hvneOf w holdw)] at hwr1
          obtain ⟨rw2, hrw2, hltw⟩ := h.vBij1 w holdw
          rw [hrw2] at hwr1
          have e1 : st.nextV = r := Option.some.inj hvr1
          have e2 : rw2 = r := Option.some.inj hwr1
          omega
      · rcases (hNewR w).mp hw with rfl | holdw
        · exfalso
          rw [if_pos rfl] at hwr1
          rw [if_neg (hvneOf v holdv)] at hvr1
          obtain ⟨rv2, hrv2, hltv⟩ := h.vBij1 v holdv
          rw [hrv2] at hvr1
          have e1 : st.nextV = r := Option.some.inj hwr1
          have e2 : rv2 = r := Option.some.inj hvr1
          omega
        · rw [if_neg (hvneOf v holdv)] at hvr1
          rw [if_neg (hvneOf w holdw)] at hwr1
          exact h.vBij3 v w r holdv holdw hvr1 hwr1
    · intro v hv
      rcases (hNewR v).mp hv with rfl | hold
      · exact hcvreach
      · exact h.newReach v hold
    · intro v hv
      rcases (hNewR v).mp hv with rfl | hold
      · exact hcv_mem
      · exact h.newInVerts v hold
    · rw [dfsStepState_visited]
      exact List.nodup_cons.mpr ⟨hvis, h.visNodup⟩
    · rw [dfsStepState_visited]
      intro e he
      rcases List.mem_cons.mp he with rfl | h2
      · exact hedge_mem
      · exact h.visEdges e h2
    · rw [dfsStepState_visited]
      intro e he
      rcases List.mem_cons.mp he with rfl | h2
      · refine ⟨st.nextE, ?_, ?_⟩
        · rw [dfsStepState_erank st a rest, if_pos rfl]
        · rw [dfsStepState_nextE]
          omega
      · have hne : e ≠ a.edge_id := fun hEq => hvis (hEq ▸ h2)
        obtain ⟨r, hr, hlt⟩ := h.eBij1 e h2
        refine ⟨r, ?_, ?_⟩
        · rw [dfsStepState_erank st a rest, if_neg hne]
          exact hr
        · rw [dfsStepState_nextE]
          omega
    · intro r hr
      rw [dfsStepState_nextE] at hr
      rcases Nat.lt_succ_iff_lt_or_eq.mp hr with hlt | rfl
      · obtain ⟨e, he, hre⟩ := h.eBij2 r hlt
        have hne : e ≠ a.edge_id := fun hEq => hvis (hEq ▸ he)
        refine ⟨e, ?_, ?_⟩
        · rw [dfsStepState_visited]
          exact List.mem_cons_of_mem _ he
        · rw [dfsStepState_erank st a rest, if_neg hne]
          exact hre
      · refine ⟨a.edge_id, ?_, ?_⟩
        · rw [dfsStepState_visited]
          exact List.mem_cons_self _ _
        · rw [dfsStepState_erank st a rest, if_pos rfl]
    · intro e1 e2 r h1 h2 hr1 hr2
      rw [dfsStepState_visited] at h1 h2
      rw [dfsStepState_erank st a rest] at hr1 hr2
      rcases List.mem_cons.mp h1 with rfl | h1'
      · rcases List.mem_cons.mp h2 with rfl | h2'
        · rfl
        · exfalso
          rw [if_pos rfl] at hr1
          have hne2 : e2 ≠ a.edge_id := fun hEq => hvis (hEq ▸ h2')
          rw [if_neg hne2] at hr2
          obtain ⟨r2, hr2', hlt2⟩ := h.eBij1 e2 h2'
          rw [hr2'] at hr2
          have e1eq : r2 = r := Option.some.inj hr2
          have e2eq : st.nextE = r := Option.some.inj hr1
          omega
      · rcases List.mem_cons.mp h2 with rfl | h2'
        · exfalso
          rw [if_pos rfl] at hr2
          have hne1 : e1 ≠ a.edge_id := fun hEq => hvis (hEq ▸ h1')
          rw [if_neg hne1] at hr1
          obtain ⟨r1, hr1', hlt1⟩ := h.eBij1 e1 h1'
          rw [hr1'] at hr1
          have e1eq : r1 = r := Option.some.inj hr1
          have e2eq : st.nextE = r := Option.some.inj hr2
          omega
        · have hne1 : e1 ≠ a.edge_id := fun hEq => hvis (hEq ▸ h1')
          have hne2 : e2 ≠ a.edge_id := fun hEq => hvis (hEq ▸ h2')
          rw [if_neg hne1] at hr1
          rw [if_neg hne2] at hr2
          exact h.eBij3 e1 e2 r h1' h2' hr1 hr2
    · intro a2 ha2
      rcases hpush_mem a2 ha2 with hrest | hp
      · obtain ⟨x2, hx2r, hx2reach, hx2adj⟩ :=
          h.stackSrc a2 (by rw [hstk]; exact List.mem_cons_of_mem _ hrest)
        exact ⟨x2, hmonoSome x2 hx2r, hx2reach, hx2adj⟩
      · refine ⟨a.adj_vertex.id, ?_, hcvreach, hp.1⟩
        rw [hrk, if_pos rfl]
        rfl
    · intro v hv a2 ha2
      by_cases hvc : v = a.adj_vertex.id
      · subst hvc
        rcases hpush_rev a2 ha2 with hin | hsk
        · left
          rw [dfsStepState_visited]
          exact hin
        · exact Or.inr hsk
      · have hold : NewR rank0 st.mgr v := by
          rcases (hNewR v).mp hv with hveq | hold2
          · exact absurd hveq hvc
          · exact hold2
        rcases h.closure v hold a2 ha2 with hin | hsk
        · left
          rw [dfsStepState_visited]
          exact List.mem_cons_of_mem _ hin
        · rw [hstk] at hsk
          rcases List.mem_cons.mp hsk with rfl | hr
          · left
            rw [dfsStepState_visited]
            exact List.mem_cons_self _ _
          · right
            rw [hstack]
            exact List.mem_append.mpr (Or.inr hr)
    · intro e he kv2 hkv2 hkeq
      rw [dfsStepState_visited] at he
      rcases List.mem_cons.mp he with rfl | h2
      · have hkv2eq : kv2 = kv := by
          refine entry_unique p.edges (KeysOrd.nodup hwf.eOrd) hkv2 hkv ?_
          rw [hkeq, hkid]
        subst hkv2eq
        rcases hcase with ⟨hsx, hav⟩ | ⟨hex, hav⟩
        · constructor
          · rw [hsx]
            exact hmonoSome x hxrank
          · rw [← hav, hrk, if_pos rfl]
            rfl
        · constructor
          · rw [← hav, hrk, if_pos rfl]
            rfl
          · rw [hex]
            exact hmonoSome x hxrank
      · obtain ⟨hfs, hfe⟩ := h.visFar e h2 kv2 hkv2 hkeq
        exact ⟨hmonoSome _ hfs, hmonoSome _ hfe⟩
    · rw [dfsStepState_vrmap_neg st a rest hb]
      rw [VMap.insert_keys_of_mem st.mgr.vertex_rank_map hkeyOrdV a.adj_vertex.id
        (some st.nextV) (by rw [h.rankKeys]; exact hcv_mem)]
      exact h.rankKeys

theorem dfsLoop_nil (fuel : Nat) (st : DfsState) (hstk : st.stack = []) :
    dfsLoop (fuel + 1) st = st := by
  conv_lhs => rw [dfsLoop, hstk]

/-- The run invariant is preserved by the whole DFS loop. -/
theorem dfsLoop_easyInv (p : Pattern) (hwf : PatternWF p) (s : Nat)
    (rank0 : Nat → Option Nat) :
    ∀ (fuel : Nat) (st : DfsState), EasyInv p s rank0 st
      → EasyInv p s rank0 (dfsLoop fuel st) := by
  intro fuel
  induction fuel with
  | zero =>
    intro st h
    exact h
  | succ n ih =>
    intro st h
    cases hstk : st.stack with
    | nil =>
      rw [dfsLoop_nil n st hstk]
      exact h
    | cons a rest =>
      rw [dfsLoop_cons n st a rest hstk]
      by_cases hv : st.visited.contains a.edge_id = true
      · rw [if_pos hv]
        exact ih _ (easyInv_skip p s rank0 st a rest hstk ((contains_iff_mem _ _).mp hv) h)
      · rw [if_neg hv]
        have hnm : a.edge_id ∉ st.visited := fun hc => hv ((contains_iff_mem _ _).mpr hc)
        exact ih _ (easyInv_visit p hwf s rank0 st a rest hstk hnm h)

/-- Total adjacency-list length held by the manager (the `A` of
`dfsFuel`). -/
def adjSum (m : CanonicalLabelManager) : Nat :=
  (m.vertex_adjacencies_map.map (fun kv => kv.2.length)).sum

theorem adjSum_updateOrder (m : CanonicalLabelManager) :
    adjSum m.updateVertexAdjacenciesOrder = adjSum m := by
  unfold adjSum updateVertexAdjacenciesOrder
  dsimp only
  rw [List.map_map]
  refine congrArg List.sum ?_
  refine List.map_congr_left ?_
  intro kv _
  exact (List.perm_insertionSort _ kv.2).length_eq

theorem dfsStepState_adjSum (st : DfsState) (a : Adjacency) (rest : List Adjacency) :
    adjSum (dfsStepState st a rest).mgr = adjSum st.mgr := by
  unfold dfsStepState
  dsimp only
  by_cases hb : (({ st.mgr with
      edge_rank_map := VMap.insert st.mgr.edge_rank_map a.edge_id (some st.nextE) }
        : CanonicalLabelManager).getVertexRank a.adj_vertex.id).isSome = true
  · rw [if_pos hb, adjSum_updateOrder]
    rfl
  · rw [if_neg hb, adjSum_updateOrder]
    rfl

theorem get_length_le_sum {α : Type} (mm : List (Nat × List α)) (v : Nat) (l : List α)
    (h : VMap.get mm v = some l) :
    l.length ≤ (mm.map (fun kv => kv.2.length)).sum := by
  induction mm with
  | nil => exact absurd h (by simp [VMap.get])
  | cons kv rest ih =>
    obtain ⟨k0, l0⟩ := kv
    unfold VMap.get at h
    by_cases hv : v = k0
    · rw [if_pos hv] at h
      have : l = l0 := (Option.some.inj h).symm
      subst this
      simp
    · rw [if_neg hv] at h
      have := ih h
      simp only [List.map_cons, List.sum_cons]
      omega

/-- The DFS stack drains within the fuel bound. -/
theorem dfsLoop_drain (p : Pattern) (hwf : PatternWF p) (s : Nat)
    (rank0 : Nat → Option Nat) :
    ∀ (fuel : Nat) (st : DfsState), EasyInv p s rank0 st →
      (p.edges.length - st.visited.length) * (adjSum st.mgr + 2) + st.stack.length < fuel →
      (dfsLoop fuel st).stack = [] := by
  intro fuel
  induction fuel with
  | zero =>
    intro st _ hlt
    exact absurd hlt (Nat.not_lt_zero _)
  | succ n ih =>
    intro st h hlt
    cases hstk : st.stack with
    | nil =>
      rw [dfsLoop_nil n st hstk]
      exact hstk
    | cons a rest =>
      have hlenstk : st.stack.length = rest.length + 1 := by rw [hstk]; rfl
      rw [dfsLoop_cons n st a rest hstk]
      by_cases hv : st.visited.contains a.edge_id = true
      · rw [if_pos hv]
        refine ih _ (easyInv_skip p s rank0 st a rest hstk ((contains_iff_mem _ _).mp hv) h) ?_
        show (p.edges.length - st.visited.length) * (adjSum st.mgr + 2) + rest.length < n
        omega
      · rw [if_neg hv]
        have hnm : a.edge_id ∉ st.visited := fun hc => hv ((contains_iff_mem _ _).mpr hc)
        have hinv2 := easyInv_visit p hwf s rank0 st a rest hstk hnm h
        refine ih _ hinv2 ?_
        have hvislen : (dfsStepState st a rest).visited.length = st.visited.length + 1 := by
          rw [dfsStepState_visited]
          rfl
        have hcap : st.visited.length + 1 ≤ p.edges.length := by
          have hnd : (dfsStepState st a rest).visited.Nodup := hinv2.visNodup
          have hsub : (dfsStepState st a rest).visited ⊆ p.edges.map Prod.fst :=
            fun e he => hinv2.visEdges e he
          have hle := (List.subperm_of_subset hnd hsub).length_le
          rw [hvislen, List.length_map] at hle
          exact hle
        have hflen : (dfsStepState st a rest).stack.length
            ≤ adjSum st.mgr + rest.length := by
          rw [dfsStepState_stack]
          rw [List.length_append]
          have h1 : (((VMap.get (dfsStepState st a rest).mgr.vertex_adjacencies_map
              a.adj_vertex.id).getD []).filter
              (fun adj => ¬ (a.edge_id :: st.visited).contains adj.edge_id)).length
              ≤ ((VMap.get (dfsStepState st a rest).mgr.vertex_adjacencies_map
                a.adj_vertex.id).getD []).length :=
            List.length_filter_le _ _
          have h2 : ((VMap.get (dfsStepState st a rest).mgr.vertex_adjacencies_map
              a.adj_vertex.id).getD []).length ≤ adjSum st.mgr := by
            cases hget : VMap.get (dfsStepState st a rest).mgr.vertex_adjacencies_map
              a.adj_vertex.id with
            | none => simp
            | some l =>
              rw [← dfsStepState_adjSum st a rest]
              simpa using get_length_le_sum _ _ _ hget
          omega
        have hsplit : (p.edges.length - st.visited.length) * (adjSum st.mgr + 2)
            = (p.edges.length - (st.visited.length + 1)) * (adjSum st.mgr + 2)
              + (adjSum st.mgr + 2) := by
          have hEv : p.edges.length - st.visited.length
              = (p.edges.length - (st.visited.length + 1)) + 1 := by omega
          rw [hEv, Nat.add_mul, Nat.one_mul]
        rw [dfsStepState_adjSum, hvislen]
        omega

/-- The net result of one `pattern_ranking_from_vertex` run: a final state
carrying the run invariant with an empty stack, whose manager is the run's
result. -/
theorem patternRankingFromVertex_facts (p : Pattern) (hwf : PatternWF p)
    (m : CanonicalLabelManager) (s : Nat) (hAdj : AdjOk p m)
    (hrk : m.vertex_rank_map.map Prod.fst = p.vertices.map Prod.fst)
    (herk : m.edge_rank_map.map Prod.fst = p.edges.map Prod.fst)
    (hs : s ∈ p.vertices.map Prod.fst)
    (hnone : m.getVertexRank s = none) :
    ∃ stF : DfsState, patternRankingFromVertex m s = stF.mgr
      ∧ EasyInv p s m.getVertexRank stF ∧ stF.stack = [] := by
  have h0 := easyInv_init p hwf m s hAdj hrk herk hs hnone
  refine ⟨dfsLoop (dfsFuel { m with
      vertex_rank_map := VMap.insert m.vertex_rank_map s (some 0) })
    { mgr := { m with vertex_rank_map := VMap.insert m.vertex_rank_map s (some 0) }
      visited := []
      stack := (VMap.get ({ m with
        vertex_rank_map := VMap.insert m.vertex_rank_map s (some 0) }
          : CanonicalLabelManager).vertex_adjacencies_map s).getD []
      nextV := 1
      nextE := 0 }, rfl, dfsLoop_easyInv p hwf s m.getVertexRank _ _ h0, ?_⟩
  refine dfsLoop_drain p hwf s m.getVertexRank _ _ h0 ?_
  have hE : m.edge_rank_map.length = p.edges.length := by
    have := congrArg List.length herk
    simpa using this
  have hs0 : ((VMap.get ({ m with
      vertex_rank_map := VMap.insert m.vertex_rank_map s (some 0) }
        : CanonicalLabelManager).vertex_adjacencies_map s).getD []).length
      ≤ adjSum m := by
    cases hget : VMap.get ({ m with
      vertex_rank_map := VMap.insert m.vertex_rank_map s (some 0) }
        : CanonicalLabelManager).vertex_adjacencies_map s with
    | none => simp
    | some l => simpa using get_length_le_sum _ _ _ hget
  have hfuel : dfsFuel { m with
      vertex_rank_map := VMap.insert m.vertex_rank_map s (some 0) }
      = (p.edges.length + 1) * (adjSum m + 2) + adjSum m + 2 := by
    show (m.edge_rank_map.length + 1) * (adjSum m + 2) + adjSum m + 2 = _
    rw [hE]
  have hsplit : (p.edges.length + 1) * (adjSum m + 2)
      = p.edges.length * (adjSum m + 2) + (adjSum m + 2) := by
    rw [Nat.add_mul, Nat.one_mul]
  show (p.edges.length - 0) * (adjSum m + 2) + _ < dfsFuel _
  rw [hfuel, Nat.sub_zero]
  dsimp only at hs0 ⊢
  omega

/-- After a drained first run (no vertex pre-ranked), every vertex
reachable from the seed is ranked and every edge whose start vertex is
reachable is visited. -/
theorem run1_coverage (p : Pattern) (hwf : PatternWF p) (s : Nat)
    (rank0 : Nat → Option Nat) (hr0 : ∀ v, rank0 v = none)
    (stF : DfsState) (hinv : EasyInv p s rank0 stF) (hnil : stF.stack = []) :
    (∀ v, Reach p s v → (stF.mgr.getVertexRank v).isSome)
    ∧ (∀ kv ∈ p.edges, Reach p s kv.2.start_vertex.id → kv.1 ∈ stF.visited) := by
  have hreach : ∀ v, Reach p s v → (stF.mgr.getVertexRank v).isSome := by
    intro v hv
    unfold Reach at hv
    induction hv with
    | refl =>
      rw [hinv.seed0]
      rfl
    | tail h1 h2 ih =>
      obtain ⟨kv, hkv, hcase⟩ := h2
      rcases hcase with ⟨hsx, hey⟩ | ⟨hsy, hex⟩
      · have hrec := adjacencies_complete_out p hwf kv hkv
        rw [hsx] at hrec
        rcases hinv.closure _ ⟨hr0 _, ih⟩ _ hrec with hvisd | hstk2
        · have hfar := (hinv.visFar _ hvisd kv hkv (hwf.eIds kv hkv).symm).2
          rw [hey] at hfar
          exact hfar
        · rw [hnil] at hstk2
          simp at hstk2
      · have hrec := adjacencies_complete_in p hwf kv hkv
        rw [hex] at hrec
        rcases hinv.closure _ ⟨hr0 _, ih⟩ _ hrec with hvisd | hstk2
        · have hfar := (hinv.visFar _ hvisd kv hkv (hwf.eIds kv hkv).symm).1
          rw [hsy] at hfar
          exact hfar
        · rw [hnil] at hstk2
          simp at hstk2
  refine ⟨hreach, ?_⟩
  intro kv hkv hreachS
  have hrec := adjacencies_complete_out p hwf kv hkv
  rcases hinv.closure _ ⟨hr0 _, hreach _ hreachS⟩ _ hrec with hvisd | hstk2
  · have heq : (outRecord kv.2).edge_id = kv.1 := by
      show kv.2.id = kv.1
      exact hwf.eIds kv hkv
    rw [← heq]
    exact hvisd
  · rw [hnil] at hstk2
    simp at hstk2

/-- A list of distinct keys carrying a rank function that is a bijection
onto `[0, n)` has length `n`. -/
theorem count_bij_nat (ids : List Nat) (hnd : ids.Nodup) (f : Nat → Option Nat) (n : Nat)
    (h1 : ∀ v ∈ ids, ∃ r, f v = some r ∧ r < n)
    (h2 : ∀ r, r < n → ∃ v ∈ ids, f v = some r)
    (h3 : ∀ v w r, v ∈ ids → w ∈ ids → f v = some r → f w = some r → v = w) :
    ids.length = n := by
  classical
  have hle1 : n ≤ ids.length := by
    have hsurj : Set.SurjOn (fun v => (f v).getD 0)
        (ids.toFinset : Finset Nat) (Finset.range n) := by
      intro r hr
      obtain ⟨v, hv, hfv⟩ := h2 r (Finset.mem_range.mp hr)
      refine ⟨v, List.mem_toFinset.mpr hv, ?_⟩
      show (f v).getD 0 = r
      rw [hfv]
      rfl
    have := Finset.card_le_card_of_surjOn (fun v => (f v).getD 0) hsurj
    rw [Finset.card_range, List.toFinset_card_of_nodup hnd] at this
    exact this
  have hle2 : ids.length ≤ n := by
    have hmaps : ∀ v ∈ ids.toFinset, (fun v => (f v).getD 0) v ∈ Finset.range n := by
      intro v hv
      obtain ⟨r, hr, hlt⟩ := h1 v (List.mem_toFinset.mp hv)
      show (f v).getD 0 ∈ Finset.range n
      rw [hr]
      exact Finset.mem_range.mpr hlt
    have hinj : Set.InjOn (fun v => (f v).getD 0) (ids.toFinset : Finset Nat) := by
      intro v hv w hw hvw
      obtain ⟨rv, hrv, _⟩ := h1 v (List.mem_toFinset.mp hv)
      obtain ⟨rw2, hrw2, _⟩ := h1 w (List.mem_toFinset.mp hw)
      have hv2 : (f v).getD 0 = rv := by rw [hrv]; rfl
      have hw2 : (f w).getD 0 = rw2 := by rw [hrw2]; rfl
      have : rv = rw2 := by
        rw [← hv2, ← hw2]
        exact hvw
      subst this
      exact h3 v w rv (List.mem_toFinset.mp hv) (List.mem_toFinset.mp hw) hrv hrw2
    have := Finset.card_le_card_of_injOn (fun v => (f v).getD 0) hmaps hinj
    rw [Finset.card_range, List.toFinset_card_of_nodup hnd] at this
    exact this
  omega

/-- A fold that keeps an optional champion yields an element produced from
the list (or the initial accumulator). -/
theorem foldl_pick_some {β γ : Type} (f : Option γ → β → Option γ) (g : β → γ)
    (hf : ∀ acc v, f acc v = some (g v) ∨ ∃ b, acc = some b ∧ f acc v = some b) :
    ∀ (L : List β) (acc : Option γ) (t : γ),
      L.foldl f acc = some t → t ∈ L.map g ∨ acc = some t := by
  intro L
  induction L with
  | nil =>
    intro acc t h
    exact Or.inr h
  | cons v L2 ih =>
    intro acc t h
    rcases ih (f acc v) t h with hmem | hacc
    · exact Or.inl (List.mem_cons_of_mem _ hmem)
    · rcases hf acc v with h1 | ⟨b, hb, h1⟩
      · rw [h1] at hacc
        exact Or.inl (Option.some.inj hacc ▸ List.mem_cons_self _ _)
      · rw [h1] at hacc
        rw [hb, hacc]
        exact Or.inr rfl

/-- Such a fold never returns `none` once fed an element. -/
theorem foldl_pick_ne_none {β γ : Type} (f : Option γ → β → Option γ) (g : β → γ)
    (hf : ∀ acc v, f acc v = some (g v) ∨ ∃ b, acc = some b ∧ f acc v = some b) :
    ∀ (L : List β) (acc : Option γ), (acc ≠ none ∨ L ≠ []) → L.foldl f acc ≠ none := by
  intro L
  induction L with
  | nil =>
    intro acc h
    rcases h with h | h
    · exact h
    · exact absurd rfl h
  | cons v L2 ih =>
    intro acc _
    refine ih (f acc v) (Or.inl ?_)
    rcases hf acc v with h1 | ⟨b, _, h1⟩ <;> rw [h1] <;> exact Option.noConfusion

/-- Filtering by a weaker predicate keeps at least as many elements. -/
theorem filter_length_le_of_imp {α : Type} (l : List α) (q pr : α → Bool)
    (himp : ∀ x ∈ l, q x = true → pr x = true) :
    (l.filter q).length ≤ (l.filter pr).length := by
  induction l with
  | nil => exact Nat.le_refl 0
  | cons y l2 ih =>
    have ih2 := ih (fun x hx => himp x (List.mem_cons_of_mem _ hx))
    by_cases hq : q y = true
    · have hp := himp y (List.mem_cons_self _ _) hq
      rw [List.filter_cons_of_pos hq, List.filter_cons_of_pos hp]
      simpa using ih2
    · rw [List.filter_cons_of_neg (by simpa using hq)]
      by_cases hp : pr y = true
      · rw [List.filter_cons_of_pos hp]
        simp only [List.length_cons]
        omega
      · rw [List.filter_cons_of_neg (by simpa using hp)]
        exact ih2

/-- Filtering by a strictly weaker predicate (witnessed) keeps strictly
more elements. -/
theorem filter_length_lt_of_imp {α : Type} (l : List α) (q pr : α → Bool)
    (himp : ∀ x ∈ l, q x = true → pr x = true)
    (x0 : α) (hx0 : x0 ∈ l) (hp0 : pr x0 = true) (hq0 : q x0 = false) :
    (l.filter q).length < (l.filter pr).length := by
  induction l with
  | nil => simp at hx0
  | cons y l2 ih =>
    have himp2 : ∀ x ∈ l2, q x = true → pr x = true :=
      fun x hx => himp x (List.mem_cons_of_mem _ hx)
    rcases List.mem_cons.mp hx0 with rfl | hx0'
    · rw [List.filter_cons_of_neg (by simp [hq0]), List.filter_cons_of_pos hp0]
      simp only [List.length_cons]
      exact Nat.lt_succ_of_le (filter_length_le_of_imp l2 q pr himp2)
    · by_cases hq : q y = true
      · have hp := himp y (List.mem_cons_self _ _) hq
        rw [List.filter_cons_of_pos hq, List.filter_cons_of_pos hp]
        simpa using ih himp2 hx0'
      · rw [List.filter_cons_of_neg (by simpa using hq)]
        by_cases hp : pr y = true
        · rw [List.filter_cons_of_pos hp]
          have := ih himp2 hx0'
          simp only [List.length_cons]
          omega
        · rw [List.filter_cons_of_neg (by simpa using hp)]
          exact ih himp2 hx0'

/-- The first-run start vertex exists and is a pattern vertex whenever the
pattern has vertices. -/
theorem startVertex_some (p : Pattern) (m : CanonicalLabelManager)
    (hne : p.vertices ≠ []) :
    ∃ s, getPatternRankingStartVertex p m = some s ∧ s ∈ p.vertices.map Prod.fst := by
  unfold getPatternRankingStartVertex
  have hmapne : p.vertices.map (fun kv => kv.2.label) ≠ [] := by
    intro hc
    exact hne (List.map_eq_nil_iff.mp hc)
  obtain ⟨lbl, hlbl⟩ : ∃ lbl, p.getMinVertexLabel = some lbl := by
    unfold Pattern.getMinVertexLabel
    cases hmin : (p.vertices.map (fun kv => kv.2.label)).min? with
    | none => exact absurd (List.min?_eq_none_iff.mp hmin) hmapne
    | some l => exact ⟨l, rfl⟩
  rw [hlbl]
  dsimp only
  have hlblmem : lbl ∈ p.vertices.map (fun kv => kv.2.label) := by
    unfold Pattern.getMinVertexLabel at hlbl
    exact List.min?_mem (fun a b => min_choice a b) hlbl
  obtain ⟨kv0, hkv0, hkv0l⟩ := List.mem_map.mp hlblmem
  have hLne : (p.vertices.filter (fun kv => kv.2.label = lbl)).map Prod.fst ≠ [] := by
    intro hc
    have : kv0 ∈ p.vertices.filter (fun kv => kv.2.label = lbl) :=
      List.mem_filter.mpr ⟨hkv0, by simp [hkv0l]⟩
    rw [List.map_eq_nil_iff.mp hc] at this
    simp at this
  set f : Option Nat → Nat → Option Nat := fun acc vid =>
    match acc with
    | none => some vid
    | some best =>
      if (m.getVertexGroup vid).getD 0 < (m.getVertexGroup best).getD 0 then some vid
      else acc
  have hf : ∀ acc v, f acc v = some v ∨ ∃ b, acc = some b ∧ f acc v = some b := by
    intro acc v
    cases acc with
    | none => exact Or.inl rfl
    | some b =>
      by_cases hlt : (m.getVertexGroup v).getD 0 < (m.getVertexGroup b).getD 0
      · exact Or.inl (by simp [f, hlt])
      · exact Or.inr ⟨b, rfl, by simp [f, hlt]⟩
  cases hres : ((p.vertices.filter (fun kv => kv.2.label = lbl)).map Prod.fst).foldl f
      none with
  | none =>
    exact absurd hres (foldl_pick_ne_none f id hf _ none (Or.inr hLne))
  | some s =>
    refine ⟨s, rfl, ?_⟩
    rcases foldl_pick_some f id hf _ none s hres with hmem | hinit
    · rw [List.map_id] at hmem
      obtain ⟨kv, hkvf, hkv1⟩ := List.mem_map.mp hmem
      exact hkv1 ▸ List.mem_map_of_mem Prod.fst (List.mem_filter.mp hkvf).1
    · exact absurd hinit.symm Option.noConfusion

/-- The restart-seed fold picks nothing exactly when every vertex is
ranked. -/
theorem nextUnrankedSeed_none_iff (p : Pattern) (m : CanonicalLabelManager) :
    nextUnrankedSeed p m = none ↔ ∀ kv ∈ p.vertices, ¬ m.getVertexRank kv.1 = none := by
  unfold nextUnrankedSeed
  constructor
  · intro h kv hkv hrank
    have hfilter : kv ∈ p.vertices.filter (fun kv => m.getVertexRank kv.1 = none) :=
      List.mem_filter.mpr ⟨hkv, by simp [hrank]⟩
    have hne : p.vertices.filter (fun kv => m.getVertexRank kv.1 = none) ≠ [] := by
      intro hc
      rw [hc] at hfilter
      simp at hfilter
    have hf : ∀ (acc : Option (Nat × Int × Nat)) (kv2 : Nat × PatternVertex),
        (fun (acc : Option (Nat × Int × Nat)) kv =>
          let cand : Nat × Int × Nat := (kv.1, kv.2.label, (m.getVertexGroup kv.1).getD 0)
          match acc with
          | none => some cand
          | some best =>
            if cand.2.1 < best.2.1 ∨ (cand.2.1 = best.2.1 ∧ cand.2.2 < best.2.2) then some cand
            else acc) acc kv2
          = some ((kv2.1, kv2.2.label, (m.getVertexGroup kv2.1).getD 0) : Nat × Int × Nat)
        ∨ ∃ b, acc = some b ∧ (fun (acc : Option (Nat × Int × Nat)) kv =>
          let cand : Nat × Int × Nat := (kv.1, kv.2.label, (m.getVertexGroup kv.1).getD 0)
          match acc with
          | none => some cand
          | some best =>
            if cand.2.1 < best.2.1 ∨ (cand.2.1 = best.2.1 ∧ cand.2.2 < best.2.2) then some cand
            else acc) acc kv2 = some b := by
      intro acc kv2
      cases acc with
      | none => exact Or.inl rfl
      | some best =>
        dsimp only
        by_cases hc : kv2.2.label < best.2.1
          ∨ (kv2.2.label = best.2.1 ∧ (m.getVertexGroup kv2.1).getD 0 < best.2.2)
        · rw [if_pos hc]
          exact Or.inl rfl
        · rw [if_neg hc]
          exact Or.inr ⟨best, rfl, rfl⟩
    have hnn := foldl_pick_ne_none _
      (fun kv2 : Nat × PatternVertex =>
        ((kv2.1, kv2.2.label, (m.getVertexGroup kv2.1).getD 0) : Nat × Int × Nat))
      hf (p.vertices.filter (fun kv => m.getVertexRank kv.1 = none)) none (Or.inr hne)
    cases hfold : (p.vertices.filter (fun kv => m.getVertexRank kv.1 = none)).foldl
        (fun (acc : Option (Nat × Int × Nat)) kv =>
          let cand : Nat × Int × Nat := (kv.1, kv.2.label, (m.getVertexGroup kv.1).getD 0)
          match acc with
          | none => some cand
          | some best =>
            if cand.2.1 < best.2.1 ∨ (cand.2.1 = best.2.1 ∧ cand.2.2 < best.2.2) then some cand
            else acc) none with
    | none => exact hnn hfold
    | some t =>
      rw [hfold] at h
      simp at h
  · intro hall
    have hfe : p.vertices.filter (fun kv => m.getVertexRank kv.1 = none) = [] := by
      refine List.filter_eq_nil_iff.mpr ?_
      intro kv hkv
      simpa using hall kv hkv
    rw [hfe]
    rfl

/-- A picked restart seed is an unranked pattern vertex. -/
theorem nextUnrankedSeed_some (p : Pattern) (m : CanonicalLabelManager) (s : Nat)
    (h : nextUnrankedSeed p m = some s) :
    s ∈ p.vertices.map Prod.fst ∧ m.getVertexRank s = none := by
  unfold nextUnrankedSeed at h
  have hf : ∀ (acc : Option (Nat × Int × Nat)) (kv2 : Nat × PatternVertex),
      (fun (acc : Option (Nat × Int × Nat)) kv =>
        let cand : Nat × Int × Nat := (kv.1, kv.2.label, (m.getVertexGroup kv.1).getD 0)
        match acc with
        | none => some cand
        | some best =>
          if cand.2.1 < best.2.1 ∨ (cand.2.1 = best.2.1 ∧ cand.2.2 < best.2.2) then some cand
          else acc) acc kv2
        = some ((kv2.1, kv2.2.label, (m.getVertexGroup kv2.1).getD 0) : Nat × Int × Nat)
      ∨ ∃ b, acc = some b ∧ (fun (acc : Option (Nat × Int × Nat)) kv =>
        let cand : Nat × Int × Nat := (kv.1, kv.2.label, (m.getVertexGroup kv.1).getD 0)
        match acc with
        | none => some cand
        | some best =>
          if cand.2.1 < best.2.1 ∨ (cand.2.1 = best.2.1 ∧ cand.2.2 < best.2.2) then some cand
          else acc) acc kv2 = some b := by
    intro acc kv2
    cases acc with
    | none => exact Or.inl rfl
    | some best =>
      dsimp only
      by_cases hc : kv2.2.label < best.2.1
        ∨ (kv2.2.label = best.2.1 ∧ (m.getVertexGroup kv2.1).getD 0 < best.2.2)
      · rw [if_pos hc]
        exact Or.inl rfl
      · rw [if_neg hc]
        exact Or.inr ⟨best, rfl, rfl⟩
  cases hfold : (p.vertices.filter (fun kv => m.getVertexRank kv.1 = none)).foldl
      (fun (acc : Option (Nat × Int × Nat)) kv =>
        let cand : Nat × Int × Nat := (kv.1, kv.2.label, (m.getVertexGroup kv.1).getD 0)
        match acc with
        | none => some cand
        | some best =>
          if cand.2.1 < best.2.1 ∨ (cand.2.1 = best.2.1 ∧ cand.2.2 < best.2.2) then some cand
          else acc) none with
  | none =>
    rw [hfold] at h
    simp at h
  | some t =>
    rw [hfold] at h
    have hst : t.1 = s := by simpa using h
    rcases foldl_pick_some _
      (fun kv2 : Nat × PatternVertex =>
        ((kv2.1, kv2.2.label, (m.getVertexGroup kv2.1).getD 0) : Nat × Int × Nat))
      hf _ none t hfold with hmem | hinit
    · obtain ⟨kv, hkvf, hkvg⟩ := List.mem_map.mp hmem
      have hkvm := List.mem_filter.mp hkvf
      have h1 : kv.1 = t.1 := by rw [← hkvg]
      constructor
      · rw [← hst, ← h1]
        exact List.mem_map_of_mem Prod.fst hkvm.1
      · rw [← hst, ← h1]
        simpa using hkvm.2
    · exact absurd hinit.symm Option.noConfusion

/-- For a connected well-formed pattern, `pattern_ranking` starting from
all-unranked state makes the vertex ranks a bijection with `[0, V)` and
the edge ranks a bijection with `[0, E)`. -/
theorem patternRanking_connected_facts (p : Pattern) (hwf : PatternWF p)
    (hconn : ConnectedGraph p) (m : CanonicalLabelManager) (hAdj : AdjOk p m)
    (hrk : m.vertex_rank_map.map Prod.fst = p.vertices.map Prod.fst)
    (herk : m.edge_rank_map.map Prod.fst = p.edges.map Prod.fst)
    (hallnone : ∀ v, m.getVertexRank v = none) :
    (∀ u ∈ p.vertices.map Prod.fst,
      ∃ r, (patternRanking p m).getVertexRank u = some r ∧ r < p.vertices.length)
    ∧ (∀ r, r < p.vertices.length → ∃ u ∈ p.vertices.map Prod.fst,
        (patternRanking p m).getVertexRank u = some r)
    ∧ (∀ u w r, u ∈ p.vertices.map Prod.fst → w ∈ p.vertices.map Prod.fst →
        (patternRanking p m).getVertexRank u = some r →
        (patternRanking p m).getVertexRank w = some r → u = w)
    ∧ (∀ e ∈ p.edges.map Prod.fst,
        ∃ r, (patternRanking p m).getEdgeRank e = some r ∧ r < p.edges.length)
    ∧ (∀ r, r < p.edges.length → ∃ e ∈ p.edges.map Prod.fst,
        (patternRanking p m).getEdgeRank e = some r)
    ∧ (∀ e1 e2 r, e1 ∈ p.edges.map Prod.fst → e2 ∈ p.edges.map Prod.fst →
        (patternRanking p m).getEdgeRank e1 = some r →
        (patternRanking p m).getEdgeRank e2 = some r → e1 = e2)
    ∧ (patternRanking p m).vertex_rank_map.map Prod.fst = p.vertices.map Prod.fst
    ∧ (patternRanking p m).edge_rank_map.map Prod.fst = p.edges.map Prod.fst := by
  obtain ⟨hne, hrea⟩ := hconn
  obtain ⟨s, hstart, hsmem⟩ := startVertex_some p m hne
  obtain ⟨stF, hm1, hinv, hnil⟩ :=
    patternRankingFromVertex_facts p hwf m s hAdj hrk herk hsmem (hallnone s)
  obtain ⟨hreach, hedges⟩ := run1_coverage p hwf s m.getVertexRank hallnone stF hinv hnil
  have hallranked : ∀ u ∈ p.vertices.map Prod.fst, (stF.mgr.getVertexRank u).isSome :=
    fun u hu => hreach u (hrea s hsmem u hu)
  have hallvisited : ∀ e ∈ p.edges.map Prod.fst, e ∈ stF.visited := by
    intro e he
    obtain ⟨kv, hkv, hkvfst⟩ := List.mem_map.mp he
    subst hkvfst
    refine hedges kv hkv ?_
    have hstartmem : kv.2.start_vertex.id ∈ p.vertices.map Prod.fst := by
      have hg := (hwf.ends kv hkv).1
      exact VMap.mem_keys_of_get _ _ (by rw [hg]; rfl)
    exact hrea s hsmem _ hstartmem
  have hseednone : nextUnrankedSeed p stF.mgr = none := by
    rw [nextUnrankedSeed_none_iff]
    intro kv hkv hzero
    have hx := hallranked kv.1 (List.mem_map_of_mem Prod.fst hkv)
    rw [hzero] at hx
    simp at hx
  have hM : patternRanking p m = stF.mgr := by
    unfold patternRanking
    rw [hstart]
    dsimp only
    have heq : patternRankingLoop p (p.vertices.length + 1) m s
        = match nextUnrankedSeed p (patternRankingFromVertex m s) with
          | some next =>
            patternRankingLoop p p.vertices.length (patternRankingFromVertex m s) next
          | none => patternRankingFromVertex m s := rfl
    rw [heq, hm1, hseednone]
  rw [hM]
  have hndv : (p.vertices.map Prod.fst).Nodup := KeysOrd.nodup hwf.vOrd
  have hnde : (p.edges.map Prod.fst).Nodup := KeysOrd.nodup hwf.eOrd
  have hveq : p.vertices.length = stF.nextV := by
    have hc := count_bij_nat (p.vertices.map Prod.fst) hndv (stF.mgr.getVertexRank)
      stF.nextV ?_ ?_ ?_
    · rw [List.length_map] at hc
      exact hc
    · intro v hv
      exact hinv.vBij1 v ⟨hallnone v, hallranked v hv⟩
    · intro r hr
      obtain ⟨v, hN, hvr⟩ := hinv.vBij2 r hr
      exact ⟨v, hinv.newInVerts v hN, hvr⟩
    · intro v w r hv hw h1 h2
      exact hinv.vBij3 v w r ⟨hallnone v, by rw [h1]; rfl⟩ ⟨hallnone w, by rw [h2]; rfl⟩ h1 h2
  have heeq : p.edges.length = stF.nextE := by
    have hc := count_bij_nat stF.visited hinv.visNodup (stF.mgr.getEdgeRank) stF.nextE
      hinv.eBij1 hinv.eBij2 hinv.eBij3
    have hle1 := (List.subperm_of_subset hinv.visNodup
      (fun e he => hinv.visEdges e he)).length_le
    have hle2 := (List.subperm_of_subset hnde
      (fun e he => hallvisited e he)).length_le
    rw [List.length_map] at hle1 hle2
    omega
  refine ⟨?_, ?_, ?_, ?_, ?_, ?_, hinv.rankKeys, hinv.erankKeys⟩
  · intro u hu
    obtain ⟨r, hr, hlt⟩ := hinv.vBij1 u ⟨hallnone u, hallranked u hu⟩
    exact ⟨r, hr, by omega⟩
  · intro r hr
    rw [hveq] at hr
    obtain ⟨v, hN, hvr⟩ := hinv.vBij2 r hr
    exact ⟨v, hinv.newInVerts v hN, hvr⟩
  · intro u w r hu hw h1 h2
    exact hinv.vBij3 u w r ⟨hallnone u, by rw [h1]; rfl⟩ ⟨hallnone w, by rw [h2]; rfl⟩ h1 h2
  · intro e he
    obtain ⟨r, hr, hlt⟩ := hinv.eBij1 e (hallvisited e he)
    exact ⟨r, hr, by omega⟩
  · intro r hr
    rw [heeq] at hr
    obtain ⟨e, he, hre⟩ := hinv.eBij2 r hr
    exact ⟨e, hinv.visEdges e he, hre⟩
  · intro e1 e2 r h1 h2 hr1 hr2
    exact hinv.eBij3 e1 e2 r (hallvisited e1 h1) (hallvisited e2 h2) hr1 hr2

end CanonicalLabelManager

open CanonicalLabelManager

/-- Characterization of the `set_vertex_rank` write-back fold of
`update_pattern_ranks`: side data receives the folded ranks, the rank-to-id
map receives the inverse entries, and everything else is untouched. -/
theorem fold_setVertexRank_chars :
    ∀ (l : List (Nat × Option Nat)) (q : Pattern),
      (∀ kv ∈ l, kv.1 ∈ q.vertices_data.map Prod.fst) →
      KeysOrd q.vertices_data →
      (l.map Prod.fst).Nodup →
      ((l.foldl (fun q2 kv => q2.setVertexRank kv.1 (kv.2.getD 0)) q).vertices_data.map
          Prod.fst = q.vertices_data.map Prod.fst)
      ∧ (∀ u, u ∉ l.map Prod.fst →
          VMap.get (l.foldl (fun q2 kv => q2.setVertexRank kv.1 (kv.2.getD 0))
            q).vertices_data u = VMap.get q.vertices_data u)
      ∧ (∀ u ro, (u, ro) ∈ l →
          (VMap.get (l.foldl (fun q2 kv => q2.setVertexRank kv.1 (kv.2.getD 0))
            q).vertices_data u).map (fun vd => vd.rank) = some (ro.getD 0))
      ∧ ((l.foldl (fun q2 kv => q2.setVertexRank kv.1 (kv.2.getD 0)) q).edges_data
          = q.edges_data)
      ∧ ((l.foldl (fun q2 kv => q2.setVertexRank kv.1 (kv.2.getD 0)) q).vertices
          = q.vertices)
      ∧ ((l.foldl (fun q2 kv => q2.setVertexRank kv.1 (kv.2.getD 0)) q).edges
          = q.edges)
      ∧ ((l.foldl (fun q2 kv => q2.setVertexRank kv.1 (kv.2.getD 0)) q).rank_edge_map
          = q.rank_edge_map)
      ∧ (∀ r, (∀ kv ∈ l, ¬ kv.2.getD 0 = r) →
          VMap.get (l.foldl (fun q2 kv => q2.setVertexRank kv.1 (kv.2.getD 0))
            q).rank_vertex_map r = VMap.get q.rank_vertex_map r)
      ∧ (∀ u ro, (u, ro) ∈ l → (∀ kv ∈ l, kv.2.getD 0 = ro.getD 0 → kv.1 = u) →
          VMap.get (l.foldl (fun q2 kv => q2.setVertexRank kv.1 (kv.2.getD 0))
            q).rank_vertex_map (ro.getD 0) = some u) := by
  intro l
  induction l with
  | nil =>
    intro q _ _ _
    exact ⟨rfl, fun u _ => rfl, fun u ro h => absurd h (List.not_mem_nil _), rfl, rfl, rfl,
      rfl, fun r _ => rfl, fun u ro h _ => absurd h (List.not_mem_nil _)⟩
  | cons kv0 tl ih =>
    intro q hsub hord hnd
    obtain ⟨k, ro0⟩ := kv0
    have hkmem : k ∈ q.vertices_data.map Prod.fst := hsub (k, ro0) (List.mem_cons_self _ _)
    obtain ⟨vd, hvd⟩ : ∃ vd, VMap.get q.vertices_data k = some vd :=
      Option.isSome_iff_exists.mp (VMap.get_isSome_of_mem_keys _ _ hkmem)
    have hq'_data : (q.setVertexRank k (ro0.getD 0)).vertices_data
        = VMap.insert q.vertices_data k { vd with rank := ro0.getD 0 } := by
      simp only [Pattern.setVertexRank, hvd]
    have hq'_rvm : (q.setVertexRank k (ro0.getD 0)).rank_vertex_map
        = VMap.insert q.rank_vertex_map (ro0.getD 0) k := by
      simp only [Pattern.setVertexRank, hvd]
    have hq'_edata : (q.setVertexRank k (ro0.getD 0)).edges_data = q.edges_data := by
      simp only [Pattern.setVertexRank, hvd]
    have hq'_v : (q.setVertexRank k (ro0.getD 0)).vertices = q.vertices := by
      simp only [Pattern.setVertexRank, hvd]
    have hq'_e : (q.setVertexRank k (ro0.getD 0)).edges = q.edges := by
      simp only [Pattern.setVertexRank, hvd]
    have hq'_rem : (q.setVertexRank k (ro0.getD 0)).rank_edge_map = q.rank_edge_map := by
      simp only [Pattern.setVertexRank, hvd]
    have hkeys' : (q.setVertexRank k (ro0.getD 0)).vertices_data.map Prod.fst
        = q.vertices_data.map Prod.fst := by
      rw [hq'_data]
      exact VMap.insert_keys_of_mem _ hord k _ hkmem
    have hord' : KeysOrd (q.setVertexRank k (ro0.getD 0)).vertices_data := by
      show ((q.setVertexRank k (ro0.getD 0)).vertices_data.map Prod.fst).Sorted (· < ·)
      rw [hkeys']
      exact hord
    have hsub' : ∀ kv ∈ tl, kv.1 ∈ (q.setVertexRank k (ro0.getD 0)).vertices_data.map
        Prod.fst := by
      intro kv hkv
      rw [hkeys']
      exact hsub kv (List.mem_cons_of_mem _ hkv)
    have hknotin : k ∉ tl.map Prod.fst := (by
      have := hnd
      simp only [List.map_cons, List.nodup_cons] at this
      exact this.1)
    have hnd' : (tl.map Prod.fst).Nodup := (by
      have := hnd
      simp only [List.map_cons, List.nodup_cons] at this
      exact this.2)
    obtain ⟨ihkeys, ihframe, ihval, ihed, ihv, ihe, ihrem, ihrmf, ihrmv⟩ :=
      ih (q.setVertexRank k (ro0.getD 0)) hsub' hord' hnd'
    have hbeta : ∀ (q2 : Pattern),
        ((k, ro0) :: tl).foldl (fun q2 kv => q2.setVertexRank kv.1 (kv.2.getD 0)) q2
        = tl.foldl (fun q2 kv => q2.setVertexRank kv.1 (kv.2.getD 0))
            (q2.setVertexRank k (ro0.getD 0)) := fun q2 => rfl
    rw [hbeta q]
    refine ⟨ihkeys.trans hkeys', ?_, ?_, ihed.trans hq'_edata, ihv.trans hq'_v,
      ihe.trans hq'_e, ihrem.trans hq'_rem, ?_, ?_⟩
    · intro u hu
      simp only [List.map_cons, List.mem_cons] at hu
      push_neg at hu
      rw [ihframe u hu.2, hq'_data, VMap.get_insert, if_neg hu.1]
    · intro u ro h
      rcases List.mem_cons.mp h with hhead | htl
      · obtain ⟨rfl, rfl⟩ : u = k ∧ ro = ro0 := by
          have := Prod.mk.injEq u ro k ro0 ▸ hhead
          exact ⟨congrArg Prod.fst hhead, congrArg Prod.snd hhead⟩
        rw [ihframe u hknotin, hq'_data, VMap.get_insert, if_pos rfl]
        rfl
      · exact ihval u ro htl
    · intro r hr
      rw [ihrmf r (fun kv hkv => hr kv (List.mem_cons_of_mem _ hkv))]
      rw [hq'_rvm, VMap.get_insert,
        if_neg (fun hEq => hr (k, ro0) (List.mem_cons_self _ _) hEq.symm)]
    · intro u ro h huniq
      rcases List.mem_cons.mp h with hhead | htl
      · obtain ⟨rfl, rfl⟩ : u = k ∧ ro = ro0 :=
          ⟨congrArg Prod.fst hhead, congrArg Prod.snd hhead⟩
        have hnone : ∀ kv ∈ tl, ¬ kv.2.getD 0 = ro.getD 0 := by
          intro kv hkv hEq
          have := huniq kv (List.mem_cons_of_mem _ hkv) hEq
          exact hknotin (this ▸ List.mem_map_of_mem Prod.fst hkv)
        rw [ihrmf (ro.getD 0) hnone, hq'_rvm, VMap.get_insert, if_pos rfl]
      · exact ihrmv u ro htl (fun kv hkv => huniq kv (List.mem_cons_of_mem _ hkv))

/-- Characterization of the `set_edge_rank` write-back fold of
`update_pattern_ranks` (mirror of the vertex version). -/
theorem fold_setEdgeRank_chars :
    ∀ (l : List (Nat × Option Nat)) (q : Pattern),
      (∀ kv ∈ l, kv.1 ∈ q.edges_data.map Prod.fst) →
      KeysOrd q.edges_data →
      (l.map Prod.fst).Nodup →
      ((l.foldl (fun q2 kv => q2.setEdgeRank kv.1 (kv.2.getD 0)) q).edges_data.map
          Prod.fst = q.edges_data.map Prod.fst)
      ∧ (∀ u, u ∉ l.map Prod.fst →
          VMap.get (l.foldl (fun q2 kv => q2.setEdgeRank kv.1 (kv.2.getD 0))
            q).edges_data u = VMap.get q.edges_data u)
      ∧ (∀ u ro, (u, ro) ∈ l →
          (VMap.get (l.foldl (fun q2 kv => q2.setEdgeRank kv.1 (kv.2.getD 0))
            q).edges_data u).map (fun ed => ed.rank) = some (ro.getD 0))
      ∧ ((l.foldl (fun q2 kv => q2.setEdgeRank kv.1 (kv.2.getD 0)) q).vertices_data
          = q.vertices_data)
      ∧ ((l.foldl (fun q2 kv => q2.setEdgeRank kv.1 (kv.2.getD 0)) q).vertices
          = q.vertices)
      ∧ ((l.foldl (fun q2 kv => q2.setEdgeRank kv.1 (kv.2.getD 0)) q).edges
          = q.edges)
      ∧ ((l.foldl (fun q2 kv => q2.setEdgeRank kv.1 (kv.2.getD 0)) q).rank_vertex_map
          = q.rank_vertex_map)
      ∧ (∀ r, (∀ kv ∈ l, ¬ kv.2.getD 0 = r) →
          VMap.get (l.foldl (fun q2 kv => q2.setEdgeRank kv.1 (kv.2.getD 0))
            q).rank_edge_map r = VMap.get q.rank_edge_map r)
      ∧ (∀ u ro, (u, ro) ∈ l → (∀ kv ∈ l, kv.2.getD 0 = ro.getD 0 → kv.1 = u) →
          VMap.get (l.foldl (fun q2 kv => q2.setEdgeRank kv.1 (kv.2.getD 0))
            q).rank_edge_map (ro.getD 0) = some u) := by
  intro l
  induction l with
  | nil =>
    intro q _ _ _
    exact ⟨rfl, fun u _ => rfl, fun u ro h => absurd h (List.not_mem_nil _), rfl, rfl, rfl,
      rfl, fun r _ => rfl, fun u ro h _ => absurd h (List.not_mem_nil _)⟩
  | cons kv0 tl ih =>
    intro q hsub hord hnd
    obtain ⟨k, ro0⟩ := kv0
    have hkmem : k ∈ q.edges_data.map Prod.fst := hsub (k, ro0) (List.mem_cons_self _ _)
    obtain ⟨ed, hed⟩ : ∃ ed, VMap.get q.edges_data k = some ed :=
      Option.isSome_iff_exists.mp (VMap.get_isSome_of_mem_keys _ _ hkmem)
    have hq'_data : (q.setEdgeRank k (ro0.getD 0)).edges_data
        = VMap.insert q.edges_data k { ed with rank := ro0.getD 0 } := by
      simp only [Pattern.setEdgeRank, hed]
    have hq'_rem : (q.setEdgeRank k (ro0.getD 0)).rank_edge_map
        = VMap.insert q.rank_edge_map (ro0.getD 0) k := by
      simp only [Pattern.setEdgeRank, hed]
    have hq'_vdata : (q.setEdgeRank k (ro0.getD 0)).vertices_data = q.vertices_data := by
      simp only [Pattern.setEdgeRank, hed]
    have hq'_v : (q.setEdgeRank k (ro0.getD 0)).vertices = q.vertices := by
      simp only [Pattern.setEdgeRank, hed]
    have hq'_e : (q.setEdgeRank k (ro0.getD 0)).edges = q.edges := by
      simp only [Pattern.setEdgeRank, hed]
    have hq'_rvm : (q.setEdgeRank k (ro0.getD 0)).rank_vertex_map = q.rank_vertex_map := by
      simp only [Pattern.setEdgeRank, hed]
    have hkeys' : (q.setEdgeRank k (ro0.getD 0)).edges_data.map Prod.fst
        = q.edges_data.map Prod.fst := by
      rw [hq'_data]
      exact VMap.insert_keys_of_mem _ hord k _ hkmem
    have hord' : KeysOrd (q.setEdgeRank k (ro0.getD 0)).edges_data := by
      show ((q.setEdgeRank k (ro0.getD 0)).edges_data.map Prod.fst).Sorted (· < ·)
      rw [hkeys']
      exact hord
    have hsub' : ∀ kv ∈ tl, kv.1 ∈ (q.setEdgeRank k (ro0.getD 0)).edges_data.map
        Prod.fst := by
      intro kv hkv
      rw [hkeys']
      exact hsub kv (List.mem_cons_of_mem _ hkv)
    have hknotin : k ∉ tl.map Prod.fst := (by
      have := hnd
      simp only [List.map_cons, List.nodup_cons] at this
      exact this.1)
    have hnd' : (tl.map Prod.fst).Nodup := (by
      have := hnd
      simp only [List.map_cons, List.nodup_cons] at this
      exact this.2)
    obtain ⟨ihkeys, ihframe, ihval, ihvd, ihv, ihe, ihrvm, ihrmf, ihrmv⟩ :=
      ih (q.setEdgeRank k (ro0.getD 0)) hsub' hord' hnd'
    have hbeta : ((k, ro0) :: tl).foldl (fun q2 kv => q2.setEdgeRank kv.1 (kv.2.getD 0)) q
        = tl.foldl (fun q2 kv => q2.setEdgeRank kv.1 (kv.2.getD 0))
            (q.setEdgeRank k (ro0.getD 0)) := rfl
    rw [hbeta]
    refine ⟨ihkeys.trans hkeys', ?_, ?_, ihvd.trans hq'_vdata, ihv.trans hq'_v,
      ihe.trans hq'_e, ihrvm.trans hq'_rvm, ?_, ?_⟩
    · intro u hu
      simp only [List.map_cons, List.mem_cons] at hu
      push_neg at hu
      rw [ihframe u hu.2, hq'_data, VMap.get_insert, if_neg hu.1]
    · intro u ro h
      rcases List.mem_cons.mp h with hhead | htl
      · obtain ⟨rfl, rfl⟩ : u = k ∧ ro = ro0 :=
          ⟨congrArg Prod.fst hhead, congrArg Prod.snd hhead⟩
        rw [ihframe u hknotin, hq'_data, VMap.get_insert, if_pos rfl]
        rfl
      · exact ihval u ro htl
    · intro r hr
      rw [ihrmf r (fun kv hkv => hr kv (List.mem_cons_of_mem _ hkv))]
      rw [hq'_rem, VMap.get_insert,
        if_neg (fun hEq => hr (k, ro0) (List.mem_cons_self _ _) hEq.symm)]
    · intro u ro h huniq
      rcases List.mem_cons.mp h with hhead | htl
      · obtain ⟨rfl, rfl⟩ : u = k ∧ ro = ro0 :=
          ⟨congrArg Prod.fst hhead, congrArg Prod.snd hhead⟩
        have hnone : ∀ kv ∈ tl, ¬ kv.2.getD 0 = ro.getD 0 := by
          intro kv hkv hEq
          have := huniq kv (List.mem_cons_of_mem _ hkv) hEq
          exact hknotin (this ▸ List.mem_map_of_mem Prod.fst hkv)
        rw [ihrmf (ro.getD 0) hnone, hq'_rem, VMap.get_insert, if_pos rfl]
      · exact ihrmv u ro htl (fun kv hkv => huniq kv (List.mem_cons_of_mem _ hkv))

theorem map_fst_pair {α β : Type} (l : List (Nat × α)) (f : Nat × α → β) :
    (l.map (fun kv => (kv.1, f kv))).map Prod.fst = l.map Prod.fst := by
  induction l with
  | nil => rfl
  | cons kv rest ih =>
    simp only [List.map_cons]
    rw [ih]

/-- The `update_vertex_groups` fold changes only vertex side data, and
preserves its key set. -/
theorem fold_setVertexGroup_chars :
    ∀ (l : List (Nat × Nat)) (q : Pattern), KeysOrd q.vertices_data →
      ((l.foldl (fun q2 kv => q2.setVertexGroup kv.1 kv.2) q).vertices_data.map Prod.fst
          = q.vertices_data.map Prod.fst)
      ∧ ((l.foldl (fun q2 kv => q2.setVertexGroup kv.1 kv.2) q).edges_data
          = q.edges_data)
      ∧ ((l.foldl (fun q2 kv => q2.setVertexGroup kv.1 kv.2) q).rank_vertex_map
          = q.rank_vertex_map)
      ∧ ((l.foldl (fun q2 kv => q2.setVertexGroup kv.1 kv.2) q).rank_edge_map
          = q.rank_edge_map) := by
  intro l
  induction l with
  | nil =>
    intro q _
    exact ⟨rfl, rfl, rfl, rfl⟩
  | cons kv0 tl ih =>
    intro q hord
    obtain ⟨k, g⟩ := kv0
    have hbeta : ((k, g) :: tl).foldl (fun q2 kv => q2.setVertexGroup kv.1 kv.2) q
        = tl.foldl (fun q2 kv => q2.setVertexGroup kv.1 kv.2) (q.setVertexGroup k g) := rfl
    rw [hbeta]
    have hkeys' : (q.setVertexGroup k g).vertices_data.map Prod.fst
        = q.vertices_data.map Prod.fst := by
      unfold Pattern.setVertexGroup
      cases hget : VMap.get q.vertices_data k with
      | none => rfl
      | some vd =>
        dsimp only
        exact VMap.insert_keys_of_mem _ hord k _ (VMap.mem_keys_of_get _ _ (by rw [hget]; rfl))
    have hed : (q.setVertexGroup k g).edges_data = q.edges_data := by
      unfold Pattern.setVertexGroup
      cases hget : VMap.get q.vertices_data k with
      | none => rfl
      | some vd => rfl
    have hrvm : (q.setVertexGroup k g).rank_vertex_map = q.rank_vertex_map := by
      unfold Pattern.setVertexGroup
      cases hget : VMap.get q.vertices_data k with
      | none => rfl
      | some vd => rfl
    have hrem : (q.setVertexGroup k g).rank_edge_map = q.rank_edge_map := by
      unfold Pattern.setVertexGroup
      cases hget : VMap.get q.vertices_data k with
      | none => rfl
      | some vd => rfl
    have hord' : KeysOrd (q.setVertexGroup k g).vertices_data := by
      show ((q.setVertexGroup k g).vertices_data.map Prod.fst).Sorted (· < ·)
      rw [hkeys']
      exact hord
    obtain ⟨ihkeys, ihed, ihrvm, ihrem⟩ := ih (q.setVertexGroup k g) hord'
    exact ⟨ihkeys.trans hkeys', ihed.trans hed, ihrvm.trans hrvm, ihrem.trans hrem⟩

/-- The write-back `update_pattern_ranks` records in the side data exactly
the manager's ranks (defaulted at 0). -/
theorem updatePatternRanks_data_chars (p : Pattern) (M : CanonicalLabelManager)
    (hvd_ord : KeysOrd p.vertices_data) (hed_ord : KeysOrd p.edges_data)
    (hvk : M.vertex_rank_map.map Prod.fst = p.vertices_data.map Prod.fst)
    (hek : M.edge_rank_map.map Prod.fst = p.edges_data.map Prod.fst) :
    (∀ u ∈ p.vertices_data.map Prod.fst,
      (p.updatePatternRanks M).getVertexRank u = some ((M.getVertexRank u).getD 0))
    ∧ (∀ e ∈ p.edges_data.map Prod.fst,
      (p.updatePatternRanks M).getEdgeRank e = some ((M.getEdgeRank e).getD 0)) := by
  have hvnodup : (M.vertex_rank_map.map Prod.fst).Nodup := by
    rw [hvk]
    exact KeysOrd.nodup hvd_ord
  have henodup : (M.edge_rank_map.map Prod.fst).Nodup := by
    rw [hek]
    exact KeysOrd.nodup hed_ord
  have hV := fold_setVertexRank_chars M.vertex_rank_map
    { p with rank_vertex_map := ([] : List (Nat × Nat)) }
    (by intro kv hkv
        show kv.1 ∈ p.vertices_data.map Prod.fst
        rw [← hvk]
        exact List.mem_map_of_mem Prod.fst hkv)
    hvd_ord hvnodup
  obtain ⟨hVkeys, hVframe, hVval, hVed, hVv, hVe, hVrem, hVrmf, hVrmv⟩ := hV
  have hE := fold_setEdgeRank_chars M.edge_rank_map
    { M.vertex_rank_map.foldl (fun (q2 : Pattern) kv => q2.setVertexRank kv.1 (kv.2.getD 0))
        { p with rank_vertex_map := ([] : List (Nat × Nat)) } with
      rank_edge_map := ([] : List (Nat × Nat)) }
    (by intro kv hkv
        show kv.1 ∈ (M.vertex_rank_map.foldl
          (fun (q2 : Pattern) kv => q2.setVertexRank kv.1 (kv.2.getD 0))
          { p with rank_vertex_map := ([] : List (Nat × Nat)) }).edges_data.map Prod.fst
        rw [hVed]
        show kv.1 ∈ p.edges_data.map Prod.fst
        rw [← hek]
        exact List.mem_map_of_mem Prod.fst hkv)
    (by show KeysOrd (M.vertex_rank_map.foldl
          (fun (q2 : Pattern) kv => q2.setVertexRank kv.1 (kv.2.getD 0))
          { p with rank_vertex_map := ([] : List (Nat × Nat)) }).edges_data
        rw [hVed]
        exact hed_ord)
    henodup
  obtain ⟨hEkeys, hEframe, hEval, hEvd, hEv, hEe, hErvm, hErmf, hErmv⟩ := hE
  constructor
  · intro u hu
    have humem : u ∈ M.vertex_rank_map.map Prod.fst := by rw [hvk]; exact hu
    obtain ⟨ro, hro⟩ : ∃ ro, VMap.get M.vertex_rank_map u = some ro :=
      Option.isSome_iff_exists.mp (VMap.get_isSome_of_mem_keys _ _ humem)
    have hmem2 : (u, ro) ∈ M.vertex_rank_map := VMap.get_mem _ _ _ hro
    have hMu : M.getVertexRank u = ro := by
      unfold CanonicalLabelManager.getVertexRank
      rw [hro]
      rfl
    show (VMap.get (p.updatePatternRanks M).vertices_data u).map (fun vd => vd.rank)
      = some ((M.getVertexRank u).getD 0)
    have hres : (p.updatePatternRanks M).vertices_data
        = (M.vertex_rank_map.foldl (fun (q2 : Pattern) kv => q2.setVertexRank kv.1 (kv.2.getD 0))
            { p with rank_vertex_map := ([] : List (Nat × Nat)) }).vertices_data :=
      hEvd
    rw [hres, hMu]
    exact hVval u ro hmem2
  · intro e he
    have hemem : e ∈ M.edge_rank_map.map Prod.fst := by rw [hek]; exact he
    obtain ⟨ro, hro⟩ : ∃ ro, VMap.get M.edge_rank_map e = some ro :=
      Option.isSome_iff_exists.mp (VMap.get_isSome_of_mem_keys _ _ hemem)
    have hmem2 : (e, ro) ∈ M.edge_rank_map := VMap.get_mem _ _ _ hro
    have hMe : M.getEdgeRank e = ro := by
      unfold CanonicalLabelManager.getEdgeRank
      rw [hro]
      rfl
    show (VMap.get (p.updatePatternRanks M).edges_data e).map (fun ed => ed.rank)
      = some ((M.getEdgeRank e).getD 0)
    rw [hMe]
    exact hEval e ro hmem2

/-- With a total injective vertex ranking, the rebuilt rank-to-vertex map
inverts it. -/
theorem updatePatternRanks_rvm (p : Pattern) (M : CanonicalLabelManager)
    (hvd_ord : KeysOrd p.vertices_data) (hed_ord : KeysOrd p.edges_data)
    (hvk : M.vertex_rank_map.map Prod.fst = p.vertices_data.map Prod.fst)
    (hek : M.edge_rank_map.map Prod.fst = p.edges_data.map Prod.fst)
    (hall : ∀ w ∈ p.vertices_data.map Prod.fst, (M.getVertexRank w).isSome)
    (hinj : ∀ u w r, u ∈ p.vertices_data.map Prod.fst →
      w ∈ p.vertices_data.map Prod.fst →
      M.getVertexRank u = some r → M.getVertexRank w = some r → u = w)
    (u : Nat) (r : Nat) (hu : u ∈ p.vertices_data.map Prod.fst)
    (hur : M.getVertexRank u = some r) :
    VMap.get (p.updatePatternRanks M).rank_vertex_map r = some u := by
  have hvnodup : (M.vertex_rank_map.map Prod.fst).Nodup := by
    rw [hvk]
    exact KeysOrd.nodup hvd_ord
  have henodup : (M.edge_rank_map.map Prod.fst).Nodup := by
    rw [hek]
    exact KeysOrd.nodup hed_ord
  have hMord : KeysOrd M.vertex_rank_map := by
    show (M.vertex_rank_map.map Prod.fst).Sorted (· < ·)
    rw [hvk]
    exact hvd_ord
  have hV := fold_setVertexRank_chars M.vertex_rank_map
    { p with rank_vertex_map := ([] : List (Nat × Nat)) }
    (by intro kv hkv
        show kv.1 ∈ p.vertices_data.map Prod.fst
        rw [← hvk]
        exact List.mem_map_of_mem Prod.fst hkv)
    hvd_ord hvnodup
  obtain ⟨hVkeys, hVframe, hVval, hVed, hVv, hVe, hVrem, hVrmf, hVrmv⟩ := hV
  obtain ⟨ro, hro⟩ : ∃ ro, VMap.get M.vertex_rank_map u = some ro := by
    refine Option.isSome_iff_exists.mp (VMap.get_isSome_of_mem_keys _ _ ?_)
    rw [hvk]
    exact hu
  have hmem2 : (u, ro) ∈ M.vertex_rank_map := VMap.get_mem _ _ _ hro
  have hMu : M.getVertexRank u = ro := by
    unfold CanonicalLabelManager.getVertexRank
    rw [hro]
    rfl
  have hroval : ro = some r := by rw [← hMu, hur]
  have huniq : ∀ kv ∈ M.vertex_rank_map, kv.2.getD 0 = ro.getD 0 → kv.1 = u := by
    intro kv hkv hEq
    obtain ⟨w, row⟩ := kv
    have hwkeys : w ∈ p.vertices_data.map Prod.fst := by
      rw [← hvk]
      exact List.mem_map_of_mem Prod.fst hkv
    have hgetw : VMap.get M.vertex_rank_map w = some row :=
      VMap.get_of_mem_ordKeys _ hMord w row hkv
    have hMw : M.getVertexRank w = row := by
      unfold CanonicalLabelManager.getVertexRank
      rw [hgetw]
      rfl
    have hwsome := hall w hwkeys
    rw [hMw] at hwsome
    obtain ⟨rw2, hrw2⟩ := Option.isSome_iff_exists.mp hwsome
    subst hrw2
    have hrr : rw2 = r := by
      have h1 : ((some rw2 : Option Nat)).getD 0 = rw2 := rfl
      have h2 : ro.getD 0 = r := by
        rw [hroval]
        rfl
      rw [h1, h2] at hEq
      exact hEq
    rw [hrr] at hMw
    exact hinj w u r hwkeys hu hMw hur
  have hfinal := hVrmv u ro hmem2 huniq
  have hE := fold_setEdgeRank_chars M.edge_rank_map
    { M.vertex_rank_map.foldl (fun (q2 : Pattern) kv => q2.setVertexRank kv.1 (kv.2.getD 0))
        { p with rank_vertex_map := ([] : List (Nat × Nat)) } with
      rank_edge_map := ([] : List (Nat × Nat)) }
    (by intro kv hkv
        show kv.1 ∈ (M.vertex_rank_map.foldl
          (fun (q2 : Pattern) kv => q2.setVertexRank kv.1 (kv.2.getD 0))
          { p with rank_vertex_map := ([] : List (Nat × Nat)) }).edges_data.map Prod.fst
        rw [hVed]
        show kv.1 ∈ p.edges_data.map Prod.fst
        rw [← hek]
        exact List.mem_map_of_mem Prod.fst hkv)
    (by show KeysOrd (M.vertex_rank_map.foldl
          (fun (q2 : Pattern) kv => q2.setVertexRank kv.1 (kv.2.getD 0))
          { p with rank_vertex_map := ([] : List (Nat × Nat)) }).edges_data
        rw [hVed]
        exact hed_ord)
    henodup
  obtain ⟨hEkeys, hEframe, hEval, hEvd, hEv, hEe, hErvm, hErmf, hErmv⟩ := hE
  have hres : (p.updatePatternRanks M).rank_vertex_map
      = (M.vertex_rank_map.foldl
          (fun (q2 : Pattern) kv => q2.setVertexRank kv.1 (kv.2.getD 0))
          { p with rank_vertex_map := ([] : List (Nat × Nat)) }).rank_vertex_map :=
    hErvm
  rw [hres]
  have hrogetD : ro.getD 0 = r := by
    rw [hroval]
    rfl
  rw [← hrogetD]
  exact hfinal

/-- With a total injective edge ranking, the rebuilt rank-to-edge map
inverts it. -/
theorem updatePatternRanks_rem (p : Pattern) (M : CanonicalLabelManager)
    (hvd_ord : KeysOrd p.vertices_data) (hed_ord : KeysOrd p.edges_data)
    (hvk : M.vertex_rank_map.map Prod.fst = p.vertices_data.map Prod.fst)
    (hek : M.edge_rank_map.map Prod.fst = p.edges_data.map Prod.fst)
    (hall : ∀ w ∈ p.edges_data.map Prod.fst, (M.getEdgeRank w).isSome)
    (hinj : ∀ u w r, u ∈ p.edges_data.map Prod.fst →
      w ∈ p.edges_data.map Prod.fst →
      M.getEdgeRank u = some r → M.getEdgeRank w = some r → u = w)
    (e : Nat) (r : Nat) (he : e ∈ p.edges_data.map Prod.fst)
    (her : M.getEdgeRank e = some r) :
    VMap.get (p.updatePatternRanks M).rank_edge_map r = some e := by
  have hvnodup : (M.vertex_rank_map.map Prod.fst).Nodup := by
    rw [hvk]
    exact KeysOrd.nodup hvd_ord
  have henodup : (M.edge_rank_map.map Prod.fst).Nodup := by
    rw [hek]
    exact KeysOrd.nodup hed_ord
  have hMord : KeysOrd M.edge_rank_map := by
    show (M.edge_rank_map.map Prod.fst).Sorted (· < ·)
    rw [hek]
    exact hed_ord
  have hV := fold_setVertexRank_chars M.vertex_rank_map
    { p with rank_vertex_map := ([] : List (Nat × Nat)) }
    (by intro kv hkv
        show kv.1 ∈ p.vertices_data.map Prod.fst
        rw [← hvk]
        exact List.mem_map_of_mem Prod.fst hkv)
    hvd_ord hvnodup
  obtain ⟨hVkeys, hVframe, hVval, hVed, hVv, hVe, hVrem, hVrmf, hVrmv⟩ := hV
  have hE := fold_setEdgeRank_chars M.edge_rank_map
    { M.vertex_rank_map.foldl (fun (q2 : Pattern) kv => q2.setVertexRank kv.1 (kv.2.getD 0))
        { p with rank_vertex_map := ([] : List (Nat × Nat)) } with
      rank_edge_map := ([] : List (Nat × Nat)) }
    (by intro kv hkv
        show kv.1 ∈ (M.vertex_rank_map.foldl
          (fun (q2 : Pattern) kv => q2.setVertexRank kv.1 (kv.2.getD 0))
          { p with rank_vertex_map := ([] : List (Nat × Nat)) }).edges_data.map Prod.fst
        rw [hVed]
        show kv.1 ∈ p.edges_data.map Prod.fst
        rw [← hek]
        exact List.mem_map_of_mem Prod.fst hkv)
    (by show KeysOrd (M.vertex_rank_map.foldl
          (fun (q2 : Pattern) kv => q2.setVertexRank kv.1 (kv.2.getD 0))
          { p with rank_vertex_map := ([] : List (Nat × Nat)) }).edges_data
        rw [hVed]
        exact hed_ord)
    henodup
  obtain ⟨hEkeys, hEframe, hEval, hEvd, hEv, hEe, hErvm, hErmf, hErmv⟩ := hE
  obtain ⟨ro, hro⟩ : ∃ ro, VMap.get M.edge_rank_map e = some ro := by
    refine Option.isSome_iff_exists.mp (VMap.get_isSome_of_mem_keys _ _ ?_)
    rw [hek]
    exact he
  have hmem2 : (e, ro) ∈ M.edge_rank_map := VMap.get_mem _ _ _ hro
  have hMe : M.getEdgeRank e = ro := by
    unfold CanonicalLabelManager.getEdgeRank
    rw [hro]
    rfl
  have hroval : ro = some r := by rw [← hMe, her]
  have huniq : ∀ kv ∈ M.edge_rank_map, kv.2.getD 0 = ro.getD 0 → kv.1 = e := by
    intro kv hkv hEq
    obtain ⟨w, row⟩ := kv
    have hwkeys : w ∈ p.edges_data.map Prod.fst := by
      rw [← hek]
      exact List.mem_map_of_mem Prod.fst hkv
    have hgetw : VMap.get M.edge_rank_map w = some row :=
      VMap.get_of_mem_ordKeys _ hMord w row hkv
    have hMw : M.getEdgeRank w = row := by
      unfold CanonicalLabelManager.getEdgeRank
      rw [hgetw]
      rfl
    have hwsome := hall w hwkeys
    rw [hMw] at hwsome
    obtain ⟨rw2, hrw2⟩ := Option.isSome_iff_exists.mp hwsome
    subst hrw2
    have hrr : rw2 = r := by
      have h1 : ((some rw2 : Option Nat)).getD 0 = rw2 := rfl
      have h2 : ro.getD 0 = r := by
        rw [hroval]
        rfl
      rw [h1, h2] at hEq
      exact hEq
    rw [hrr] at hMw
    exact hinj w e r hwkeys he hMw her
  have hfinal := hErmv e ro hmem2 huniq
  have hrogetD : ro.getD 0 = r := by
    rw [hroval]
    rfl
  rw [← hrogetD]
  exact hfinal

/-- The pre-ranking manager (built and group-refined) seen by
`pattern_ranking` inside `canonical_labeling`: adjacency lists match the
pattern, rank maps are keyed by the pattern's ids, and no rank is set. -/
theorem groupedManager_facts (p : Pattern) (hwf : PatternWF p) :
    AdjOk p ((fromPattern p).vertexGrouping p)
    ∧ ((fromPattern p).vertexGrouping p).vertex_rank_map.map Prod.fst
        = p.vertices.map Prod.fst
    ∧ ((fromPattern p).vertexGrouping p).edge_rank_map.map Prod.fst
        = p.edges.map Prod.fst
    ∧ (∀ v, ((fromPattern p).vertexGrouping p).getVertexRank v = none) := by
  have hvrm : ((fromPattern p).vertexGrouping p).vertex_rank_map
      = (fromPattern p).vertex_rank_map := grouping_vertex_rank_map p _ _
  have herm : ((fromPattern p).vertexGrouping p).edge_rank_map
      = (fromPattern p).edge_rank_map := grouping_edge_rank_map p _ _
  refine ⟨?_, ?_, ?_, ?_⟩
  · exact adjOk_grouping p _ _ (adjOk_fromPattern p hwf)
  · rw [hvrm, fromPattern_vertex_rank_map]
    exact map_fst_pair p.vertices _
  · rw [herm, fromPattern_edge_rank_map]
    exact map_fst_pair p.edges _
  · intro v
    have : ((fromPattern p).vertexGrouping p).getVertexRank v
        = (fromPattern p).getVertexRank v := by
      unfold CanonicalLabelManager.getVertexRank
      rw [hvrm]
    rw [this]
    exact fromPattern_rank_none p v

/-- C2 (amended).  For a connected well-formed pattern, canonical labeling
makes the ranks a bijection: every vertex carries a rank in `[0, V)`,
every edge a rank in `[0, E)`, distinct vertices (edges) carry distinct
ranks, every rank below `V` (resp. `E`) is attained, and the rank-to-id
maps record the inverse assignment.  (For disconnected patterns the DFS
counters restart at 0 per component, so the rank maps need not be
bijections — see the counterexample.) -/
theorem claim_C2 (p : Pattern) (hwf : PatternWF p) (hconn : ConnectedGraph p) :
    (∀ u ∈ p.vertices.map Prod.fst,
      ∃ r, (p.canonicalLabeling).getVertexRank u = some r ∧ r < p.vertices.length)
    ∧ (∀ r, r < p.vertices.length → ∃ u ∈ p.vertices.map Prod.fst,
        VMap.get (p.canonicalLabeling).rank_vertex_map r = some u
        ∧ (p.canonicalLabeling).getVertexRank u = some r)
    ∧ (∀ u w r, u ∈ p.vertices.map Prod.fst → w ∈ p.vertices.map Prod.fst →
        (p.canonicalLabeling).getVertexRank u = some r →
        (p.canonicalLabeling).getVertexRank w = some r → u = w)
    ∧ (∀ e ∈ p.edges.map Prod.fst,
        ∃ r, (p.canonicalLabeling).getEdgeRank e = some r ∧ r < p.edges.length)
    ∧ (∀ r, r < p.edges.length → ∃ e ∈ p.edges.map Prod.fst,
        VMap.get (p.canonicalLabeling).rank_edge_map r = some e
        ∧ (p.canonicalLabeling).getEdgeRank e = some r)
    ∧ (∀ e1 e2 r, e1 ∈ p.edges.map Prod.fst → e2 ∈ p.edges.map Prod.fst →
        (p.canonicalLabeling).getEdgeRank e1 = some r →
        (p.canonicalLabeling).getEdgeRank e2 = some r → e1 = e2) := by
  obtain ⟨hAdj2, hrk2, herk2, hnone2⟩ := groupedManager_facts p hwf
  obtain ⟨A1, A2, A3, B1, B2, B3, K1, K2⟩ :=
    patternRanking_connected_facts p hwf hconn ((fromPattern p).vertexGrouping p)
      hAdj2 hrk2 herk2 hnone2
  have hord_vd : KeysOrd p.vertices_data := by
    show (p.vertices_data.map Prod.fst).Sorted (· < ·)
    rw [hwf.vdKeys]
    exact hwf.vOrd
  have hord_ed : KeysOrd p.edges_data := by
    show (p.edges_data.map Prod.fst).Sorted (· < ·)
    rw [hwf.edKeys]
    exact hwf.eOrd
  obtain ⟨hGkeys, hGed, hGrvm, hGrem⟩ :=
    fold_setVertexGroup_chars
      (patternRanking p ((fromPattern p).vertexGrouping p)).vertex_group_map p hord_vd
  have hGkeys2 : (p.updateVertexGroups
      (patternRanking p ((fromPattern p).vertexGrouping p))).vertices_data.map Prod.fst
      = p.vertices_data.map Prod.fst := hGkeys
  have hGed2 : (p.updateVertexGroups
      (patternRanking p ((fromPattern p).vertexGrouping p))).edges_data
      = p.edges_data := hGed
  have hord_vd1 : KeysOrd (p.updateVertexGroups
      (patternRanking p ((fromPattern p).vertexGrouping p))).vertices_data := by
    show ((p.updateVertexGroups _).vertices_data.map Prod.fst).Sorted (· < ·)
    rw [hGkeys2]
    exact hord_vd
  have hord_ed1 : KeysOrd (p.updateVertexGroups
      (patternRanking p ((fromPattern p).vertexGrouping p))).edges_data := by
    show ((p.updateVertexGroups _).edges_data.map Prod.fst).Sorted (· < ·)
    rw [hGed2]
    exact hord_ed
  have hkeyconv : (p.updateVertexGroups
      (patternRanking p ((fromPattern p).vertexGrouping p))).vertices_data.map Prod.fst
      = p.vertices.map Prod.fst := hGkeys2.trans hwf.vdKeys
  have hkeyconvE : (p.updateVertexGroups
      (patternRanking p ((fromPattern p).vertexGrouping p))).edges_data.map Prod.fst
      = p.edges.map Prod.fst := by
    rw [hGed2]
    exact hwf.edKeys
  have hvk1 : (patternRanking p ((fromPattern p).vertexGrouping p)).vertex_rank_map.map
      Prod.fst = (p.updateVertexGroups
        (patternRanking p ((fromPattern p).vertexGrouping p))).vertices_data.map
          Prod.fst := K1.trans hkeyconv.symm
  have hek1 : (patternRanking p ((fromPattern p).vertexGrouping p)).edge_rank_map.map
      Prod.fst = (p.updateVertexGroups
        (patternRanking p ((fromPattern p).vertexGrouping p))).edges_data.map
          Prod.fst := K2.trans hkeyconvE.symm
  obtain ⟨U1, U2⟩ := updatePatternRanks_data_chars
    (p.updateVertexGroups (patternRanking p ((fromPattern p).vertexGrouping p)))
    (patternRanking p ((fromPattern p).vertexGrouping p))
    hord_vd1 hord_ed1 hvk1 hek1
  have hcl : p.canonicalLabeling
      = (p.updateVertexGroups
          (patternRanking p ((fromPattern p).vertexGrouping p))).updatePatternRanks
          (patternRanking p ((fromPattern p).vertexGrouping p)) := rfl
  have hall1 : ∀ w ∈ (p.updateVertexGroups
      (patternRanking p ((fromPattern p).vertexGrouping p))).vertices_data.map Prod.fst,
      ((patternRanking p ((fromPattern p).vertexGrouping p)).getVertexRank w).isSome := by
    intro w hw
    rw [hkeyconv] at hw
    obtain ⟨r, hr, _⟩ := A1 w hw
    rw [hr]
    rfl
  have hinj1 : ∀ u w r, u ∈ (p.updateVertexGroups
      (patternRanking p ((fromPattern p).vertexGrouping p))).vertices_data.map Prod.fst →
      w ∈ (p.updateVertexGroups
      (patternRanking p ((fromPattern p).vertexGrouping p))).vertices_data.map Prod.fst →
      (patternRanking p ((fromPattern p).vertexGrouping p)).getVertexRank u = some r →
      (patternRanking p ((fromPattern p).vertexGrouping p)).getVertexRank w = some r →
      u = w := by
    intro u w r hu hw h1 h2
    rw [hkeyconv] at hu hw
    exact A3 u w r hu hw h1 h2
  have hallE1 : ∀ w ∈ (p.updateVertexGroups
      (patternRanking p ((fromPattern p).vertexGrouping p))).edges_data.map Prod.fst,
      ((patternRanking p ((fromPattern p).vertexGrouping p)).getEdgeRank w).isSome := by
    intro w hw
    rw [hkeyconvE] at hw
    obtain ⟨r, hr, _⟩ := B1 w hw
    rw [hr]
    rfl
  have hinjE1 : ∀ u w r, u ∈ (p.updateVertexGroups
      (patternRanking p ((fromPattern p).vertexGrouping p))).edges_data.map Prod.fst →
      w ∈ (p.updateVertexGroups
      (patternRanking p ((fromPattern p).vertexGrouping p))).edges_data.map Prod.fst →
      (patternRanking p ((fromPattern p).vertexGrouping p)).getEdgeRank u = some r →
      (patternRanking p ((fromPattern p).vertexGrouping p)).getEdgeRank w = some r →
      u = w := by
    intro u w r hu hw h1 h2
    rw [hkeyconvE] at hu hw
    exact B3 u w r hu hw h1 h2
  refine ⟨?_, ?_, ?_, ?_, ?_, ?_⟩
  · intro u hu
    obtain ⟨r, hr, hlt⟩ := A1 u hu
    refine ⟨r, ?_, hlt⟩
    rw [hcl]
    have := U1 u (by rw [hkeyconv]; exact hu)
    rw [hr] at this
    exact this
  · intro r hr
    obtain ⟨u, hu, hur⟩ := A2 r hr
    refine ⟨u, hu, ?_, ?_⟩
    · rw [hcl]
      exact updatePatternRanks_rvm _ _ hord_vd1 hord_ed1 hvk1 hek1 hall1 hinj1 u r
        (by rw [hkeyconv]; exact hu) hur
    · rw [hcl]
      have := U1 u (by rw [hkeyconv]; exact hu)
      rw [hur] at this
      exact this
  · intro u w r hu hw h1 h2
    rw [hcl] at h1 h2
    obtain ⟨ru, hru, _⟩ := A1 u hu
    obtain ⟨rw2, hrw2, _⟩ := A1 w hw
    have hu2 := U1 u (by rw [hkeyconv]; exact hu)
    have hw2 := U1 w (by rw [hkeyconv]; exact hw)
    rw [hru] at hu2
    rw [hrw2] at hw2
    rw [h1] at hu2
    rw [h2] at hw2
    have hru2 : ru = r := Option.some.inj hu2.symm
    have hrw3 : rw2 = r := Option.some.inj hw2.symm
    rw [hru2] at hru
    rw [hrw3] at hrw2
    exact A3 u w r hu hw hru hrw2
  · intro e he
    obtain ⟨r, hr, hlt⟩ := B1 e he
    refine ⟨r, ?_, hlt⟩
    rw [hcl]
    have := U2 e (by rw [hkeyconvE]; exact he)
    rw [hr] at this
    exact this
  · intro r hr
    obtain ⟨e, he, her⟩ := B2 r hr
    refine ⟨e, he, ?_, ?_⟩
    · rw [hcl]
      exact updatePatternRanks_rem _ _ hord_vd1 hord_ed1 hvk1 hek1 hallE1 hinjE1 e r
        (by rw [hkeyconvE]; exact he) her
    · rw [hcl]
      have := U2 e (by rw [hkeyconvE]; exact he)
      rw [her] at this
      exact this
  · intro e1 e2 r h1m h2m h1 h2
    rw [hcl] at h1 h2
    obtain ⟨r1, hr1, _⟩ := B1 e1 h1m
    obtain ⟨r2, hr2, _⟩ := B1 e2 h2m
    have he1 := U2 e1 (by rw [hkeyconvE]; exact h1m)
    have he2 := U2 e2 (by rw [hkeyconvE]; exact h2m)
    rw [hr1] at he1
    rw [hr2] at he2
    rw [h1] at he1
    rw [h2] at he2
    have hru2 : r1 = r := Option.some.inj he1.symm
    have hrw3 : r2 = r := Option.some.inj he2.symm
    rw [hru2] at hr1
    rw [hrw3] at hr2
    exact B3 e1 e2 r h1m h2m hr1 hr2

theorem claim_C2_witness :
    PatternWF path3Pat ∧ ConnectedGraph path3Pat
    ∧ (∀ u ∈ path3Pat.vertices.map Prod.fst,
        ∃ r, (path3Pat.canonicalLabeling).getVertexRank u = some r
          ∧ r < path3Pat.vertices.length)
    ∧ (∀ e ∈ path3Pat.edges.map Prod.fst,
        ∃ r, (path3Pat.canonicalLabeling).getEdgeRank e = some r
          ∧ r < path3Pat.edges.length) := by
  have hwf : PatternWF path3Pat :=
    ⟨by decide, by decide, by decide, by decide, by decide, by decide, by decide,
      by decide, by decide, by decide⟩
  have h01 : Reach path3Pat 0 1 := Relation.ReflTransGen.single (by unfold EdgeAdj; decide)
  have h12 : Reach path3Pat 1 2 := Relation.ReflTransGen.single (by unfold EdgeAdj; decide)
  have h02 : Reach path3Pat 0 2 := h01.trans h12
  have hconn : ConnectedGraph path3Pat := by
    refine ⟨by decide, ?_⟩
    intro u hu w hw
    have hids : path3Pat.vertices.map Prod.fst = [0, 1, 2] := by decide
    rw [hids] at hu hw
    simp only [List.mem_cons, List.not_mem_nil, or_false] at hu hw
    rcases hu with rfl | rfl | rfl <;> rcases hw with rfl | rfl | rfl
    · exact Relation.ReflTransGen.refl
    · exact h01
    · exact h02
    · exact reach_symm path3Pat h01
    · exact Relation.ReflTransGen.refl
    · exact h12
    · exact reach_symm path3Pat h02
    · exact reach_symm path3Pat h12
    · exact Relation.ReflTransGen.refl
  exact ⟨hwf, hconn, (claim_C2 path3Pat hwf hconn).1,
    (claim_C2 path3Pat hwf hconn).2.2.2.1⟩

/-- The restart loop of `pattern_ranking` ranks every vertex, and keeps
every ranked vertex reachable from some rank-0 vertex (the seed of its
run). -/
theorem patternRankingLoop_facts (p : Pattern) (hwf : PatternWF p) :
    ∀ (fuel : Nat) (m : CanonicalLabelManager) (s : Nat),
      AdjOk p m →
      m.vertex_rank_map.map Prod.fst = p.vertices.map Prod.fst →
      m.edge_rank_map.map Prod.fst = p.edges.map Prod.fst →
      s ∈ p.vertices.map Prod.fst →
      m.getVertexRank s = none →
      (∀ u, (m.getVertexRank u).isSome →
        ∃ z, z ∈ p.vertices.map Prod.fst ∧ m.getVertexRank z = some 0 ∧ Reach p z u) →
      (p.vertices.filter (fun kv => m.getVertexRank kv.1 = none)).length < fuel →
      (∀ kv ∈ p.vertices, ((patternRankingLoop p fuel m s).getVertexRank kv.1).isSome)
      ∧ (∀ u, ((patternRankingLoop p fuel m s).getVertexRank u).isSome →
          ∃ z, z ∈ p.vertices.map Prod.fst
            ∧ (patternRankingLoop p fuel m s).getVertexRank z = some 0 ∧ Reach p z u)
      ∧ ((patternRankingLoop p fuel m s).vertex_rank_map.map Prod.fst
          = p.vertices.map Prod.fst)
      ∧ ((patternRankingLoop p fuel m s).edge_rank_map.map Prod.fst
          = p.edges.map Prod.fst) := by
  intro fuel
  induction fuel with
  | zero =>
    intro m s _ _ _ _ _ _ hlt
    exact absurd hlt (Nat.not_lt_zero _)
  | succ n ih =>
    intro m s hAdj hrk herk hs hnone hAgg hcnt
    obtain ⟨stF, hm1, hinv, hnil⟩ :=
      patternRankingFromVertex_facts p hwf m s hAdj hrk herk hs hnone
    have hmono : ∀ u r, m.getVertexRank u = some r → stF.mgr.getVertexRank u = some r := by
      intro u r hu
      rcases hinv.rankCase u with hc | hc
      · rw [hc]
        exact hu
      · rw [hu] at hc
        exact absurd hc.1 (by simp)
    have hAgg1 : ∀ u, (stF.mgr.getVertexRank u).isSome →
        ∃ z, z ∈ p.vertices.map Prod.fst ∧ stF.mgr.getVertexRank z = some 0
          ∧ Reach p z u := by
      intro u hu
      by_cases hold : (m.getVertexRank u).isSome
      · obtain ⟨z, hz1, hz2, hz3⟩ := hAgg u hold
        exact ⟨z, hz1, hmono z 0 hz2, hz3⟩
      · have hnoneu : m.getVertexRank u = none := Option.not_isSome_iff_eq_none.mp hold
        exact ⟨s, hs, hinv.seed0, hinv.newReach u ⟨hnoneu, hu⟩⟩
    have heq : patternRankingLoop p (n + 1) m s
        = match nextUnrankedSeed p (patternRankingFromVertex m s) with
          | some next => patternRankingLoop p n (patternRankingFromVertex m s) next
          | none => patternRankingFromVertex m s := rfl
    rw [heq, hm1]
    cases hseed : nextUnrankedSeed p stF.mgr with
    | none =>
      have hall := (nextUnrankedSeed_none_iff p stF.mgr).mp hseed
      refine ⟨?_, hAgg1, hinv.rankKeys, hinv.erankKeys⟩
      intro kv hkv
      exact Option.ne_none_iff_isSome.mp (hall kv hkv)
    | some next =>
      obtain ⟨hnextmem, hnextnone⟩ := nextUnrankedSeed_some p stF.mgr next hseed
      refine ih stF.mgr next hinv.adjOk hinv.rankKeys hinv.erankKeys hnextmem
        hnextnone hAgg1 ?_
      have hlt2 : (p.vertices.filter
          (fun kv => stF.mgr.getVertexRank kv.1 = none)).length
          < (p.vertices.filter (fun kv => m.getVertexRank kv.1 = none)).length := by
        obtain ⟨kv0, hkv0, hkv0fst⟩ := List.mem_map.mp hs
        refine filter_length_lt_of_imp p.vertices _ _ ?_ kv0 hkv0 ?_ ?_
        · intro kv hkv hq
          have hqnew : stF.mgr.getVertexRank kv.1 = none := of_decide_eq_true hq
          refine decide_eq_true ?_
          cases holdv : m.getVertexRank kv.1 with
          | none => rfl
          | some r =>
            have := hmono kv.1 r holdv
            rw [hqnew] at this
            exact absurd this (by simp)
        · refine decide_eq_true ?_
          rw [hkv0fst]
          exact hnone
        · refine decide_eq_false ?_
          rw [hkv0fst]
          rw [hinv.seed0]
          simp
      omega

/-- The canonical labeling writes the ranking manager's vertex rank
(defaulted at 0) into the vertex side data. -/
theorem canonicalLabeling_getVertexRank (p : Pattern) (hwf : PatternWF p)
    (hK1 : (patternRanking p ((fromPattern p).vertexGrouping p)).vertex_rank_map.map
      Prod.fst = p.vertices.map Prod.fst)
    (hK2 : (patternRanking p ((fromPattern p).vertexGrouping p)).edge_rank_map.map
      Prod.fst = p.edges.map Prod.fst)
    (u : Nat) (hu : u ∈ p.vertices.map Prod.fst) :
    (p.canonicalLabeling).getVertexRank u
      = some (((patternRanking p ((fromPattern p).vertexGrouping p)).getVertexRank
          u).getD 0) := by
  have hord_vd : KeysOrd p.vertices_data := by
    show (p.vertices_data.map Prod.fst).Sorted (· < ·)
    rw [hwf.vdKeys]
    exact hwf.vOrd
  have hord_ed : KeysOrd p.edges_data := by
    show (p.edges_data.map Prod.fst).Sorted (· < ·)
    rw [hwf.edKeys]
    exact hwf.eOrd
  obtain ⟨hGkeys, hGed, _, _⟩ :=
    fold_setVertexGroup_chars
      (patternRanking p ((fromPattern p).vertexGrouping p)).vertex_group_map p hord_vd
  have hGkeys2 : (p.updateVertexGroups
      (patternRanking p ((fromPattern p).vertexGrouping p))).vertices_data.map Prod.fst
      = p.vertices_data.map Prod.fst := hGkeys
  have hGed2 : (p.updateVertexGroups
      (patternRanking p ((fromPattern p).vertexGrouping p))).edges_data
      = p.edges_data := hGed
  have hord_vd1 : KeysOrd (p.updateVertexGroups
      (patternRanking p ((fromPattern p).vertexGrouping p))).vertices_data := by
    show ((p.updateVertexGroups _).vertices_data.map Prod.fst).Sorted (· < ·)
    rw [hGkeys2]
    exact hord_vd
  have hord_ed1 : KeysOrd (p.updateVertexGroups
      (patternRanking p ((fromPattern p).vertexGrouping p))).edges_data := by
    show ((p.updateVertexGroups _).edges_data.map Prod.fst).Sorted (· < ·)
    rw [hGed2]
    exact hord_ed
  have hkeyconv : (p.updateVertexGroups
      (patternRanking p ((fromPattern p).vertexGrouping p))).vertices_data.map Prod.fst
      = p.vertices.map Prod.fst := hGkeys2.trans hwf.vdKeys
  have hkeyconvE : (p.updateVertexGroups
      (patternRanking p ((fromPattern p).vertexGrouping p))).edges_data.map Prod.fst
      = p.edges.map Prod.fst := by
    rw [hGed2]
    exact hwf.edKeys
  obtain ⟨U1, U2⟩ := updatePatternRanks_data_chars
    (p.updateVertexGroups (patternRanking p ((fromPattern p).vertexGrouping p)))
    (patternRanking p ((fromPattern p).vertexGrouping p))
    hord_vd1 hord_ed1 (hK1.trans hkeyconv.symm) (hK2.trans hkeyconvE.symm)
  exact U1 u (by rw [hkeyconv]; exact hu)

/-- If canonical labeling reports exactly one connected component, the
pattern really is connected as a graph. -/
theorem connected_of_componentNum_one (p : Pattern) (hwf : PatternWF p)
    (h1 : (p.canonicalLabeling).getConnectedComponentNum = 1) :
    ConnectedGraph p := by
  have hne : p.vertices ≠ [] := by
    intro hc
    unfold Pattern.getConnectedComponentNum at h1
    rw [Pattern.canonicalLabeling_vertices, hc] at h1
    simp at h1
  obtain ⟨hAdj2, hrk2, herk2, hnone2⟩ := groupedManager_facts p hwf
  obtain ⟨s, hstart, hsmem⟩ := startVertex_some p ((fromPattern p).vertexGrouping p) hne
  have hPR : patternRanking p ((fromPattern p).vertexGrouping p)
      = patternRankingLoop p (p.vertices.length + 1)
          ((fromPattern p).vertexGrouping p) s := by
    unfold patternRanking
    rw [hstart]
  obtain ⟨T1, T2, T3, T4⟩ := patternRankingLoop_facts p hwf (p.vertices.length + 1)
    ((fromPattern p).vertexGrouping p) s hAdj2 hrk2 herk2 hsmem (hnone2 s)
    (by intro u hu
        rw [hnone2 u] at hu
        simp at hu)
    (by have hle := List.length_filter_le
          (fun kv => decide (((fromPattern p).vertexGrouping p).getVertexRank kv.1
            = none)) p.vertices
        omega)
  rw [← hPR] at T1 T2 T3 T4
  have hrankeq := canonicalLabeling_getVertexRank p hwf T3 T4
  have hfiltereq : (p.canonicalLabeling).getConnectedComponentNum
      = (p.vertices.filter (fun kv =>
          (patternRanking p ((fromPattern p).vertexGrouping p)).getVertexRank kv.1
            = some 0)).length := by
    unfold Pattern.getConnectedComponentNum
    rw [Pattern.canonicalLabeling_vertices]
    refine congrArg List.length (List.filter_congr ?_)
    intro kv hkv
    refine decide_eq_decide.mpr ?_
    rw [hrankeq kv.1 (List.mem_map_of_mem Prod.fst hkv)]
    have hsome := T1 kv hkv
    obtain ⟨r, hr⟩ := Option.isSome_iff_exists.mp hsome
    rw [hr]
    constructor
    · intro hx
      have : r = 0 := by
        have := Option.some.inj hx
        simpa using this
      rw [this]
    · intro hx
      have : r = 0 := Option.some.inj hx
      rw [this]
      rfl
  rw [hfiltereq] at h1
  obtain ⟨kv0, hsing⟩ := List.length_eq_one.mp h1
  have hkv0 : kv0 ∈ p.vertices ∧ (patternRanking p
      ((fromPattern p).vertexGrouping p)).getVertexRank kv0.1 = some 0 := by
    have : kv0 ∈ p.vertices.filter (fun kv =>
        (patternRanking p ((fromPattern p).vertexGrouping p)).getVertexRank kv.1
          = some 0) := by
      rw [hsing]
      exact List.mem_singleton_self _
    have hm := List.mem_filter.mp this
    exact ⟨hm.1, of_decide_eq_true hm.2⟩
  have huniq : ∀ kv ∈ p.vertices, (patternRanking p
      ((fromPattern p).vertexGrouping p)).getVertexRank kv.1 = some 0 → kv = kv0 := by
    intro kv hkv hr
    have : kv ∈ p.vertices.filter (fun kv =>
        (patternRanking p ((fromPattern p).vertexGrouping p)).getVertexRank kv.1
          = some 0) := List.mem_filter.mpr ⟨hkv, decide_eq_true hr⟩
    rw [hsing] at this
    exact List.mem_singleton.mp this
  refine ⟨hne, ?_⟩
  have hto0 : ∀ u ∈ p.vertices.map Prod.fst, Reach p kv0.1 u := by
    intro u hu
    obtain ⟨kvu, hkvu, hkvufst⟩ := List.mem_map.mp hu
    obtain ⟨z, hzmem, hz0, hzu⟩ := T2 kvu.1 (T1 kvu hkvu)
    obtain ⟨kvz, hkvz, hkvzfst⟩ := List.mem_map.mp hzmem
    have hzeq : kvz = kv0 := huniq kvz hkvz (by rw [hkvzfst]; exact hz0)
    rw [← hkvufst]
    rw [← hkvzfst, hzeq] at hzu
    exact hzu
  intro u hu w hw
  exact (reach_symm p (hto0 u hu)).trans (hto0 w hw)

/-! ## Removal of a vertex: well-formedness preservation -/

theorem VMap.erase_eq_filter {α : Type} (m : List (Nat × α))
    (hnd : (m.map Prod.fst).Nodup) (k : Nat) :
    VMap.erase m k = m.filter (fun kv => kv.1 ≠ k) := by
  induction m with
  | nil => rfl
  | cons kv0 rest ih =>
    obtain ⟨k0, v0⟩ := kv0
    simp only [List.map_cons, List.nodup_cons] at hnd
    by_cases hk : k = k0
    · subst hk
      unfold VMap.erase
      rw [if_pos rfl]
      rw [List.filter_cons_of_neg (by simp)]
      have : ∀ kv ∈ rest, (kv.1 ≠ k) := by
        intro kv hkv hEq
        exact hnd.1 (hEq ▸ List.mem_map_of_mem Prod.fst hkv)
      rw [List.filter_eq_self.mpr (fun kv hkv => by
        refine decide_eq_true ?_
        exact this kv hkv)]
    · unfold VMap.erase
      rw [if_neg hk]
      rw [List.filter_cons_of_pos (by
        refine decide_eq_true ?_
        exact fun hEq => hk hEq.symm)]
      rw [ih hnd.2]

theorem VMap.get_cons {α : Type} (k0 : Nat) (v0 : α) (rest : List (Nat × α)) (k : Nat) :
    VMap.get ((k0, v0) :: rest) k = if k = k0 then some v0 else VMap.get rest k := rfl

theorem VMap.get_filter_key {α : Type} (m : List (Nat × α)) (P : Nat → Bool) (k : Nat) :
    VMap.get (m.filter (fun kv => P kv.1)) k = if P k then VMap.get m k else none := by
  induction m with
  | nil =>
    by_cases hp : P k = true
    · rw [if_pos hp]
      rfl
    · rw [if_neg hp]
      rfl
  | cons kv0 rest ih =>
    obtain ⟨k0, v0⟩ := kv0
    by_cases hp0 : P k0 = true
    · rw [List.filter_cons_of_pos (by simpa using hp0)]
      rw [VMap.get_cons, VMap.get_cons, ih]
      by_cases hk : k = k0
      · subst hk
        rw [if_pos rfl, if_pos hp0, if_pos rfl]
      · rw [if_neg hk]
        by_cases hp : P k = true
        · rw [if_pos hp, if_pos hp, if_neg hk]
        · rw [if_neg hp, if_neg hp]
    · rw [List.filter_cons_of_neg (by simpa using hp0)]
      rw [ih]
      by_cases hk : k = k0
      · subst hk
        rw [if_neg hp0, if_neg hp0]
      · by_cases hp : P k = true
        · rw [if_pos hp, if_pos hp, VMap.get_cons, if_neg hk]
        · rw [if_neg hp, if_neg hp]

theorem map_fst_filter_key {α : Type} (m : List (Nat × α)) (P : Nat → Bool) :
    (m.filter (fun kv => P kv.1)).map Prod.fst = (m.map Prod.fst).filter P := by
  induction m with
  | nil => rfl
  | cons kv0 rest ih =>
    obtain ⟨k0, v0⟩ := kv0
    by_cases hp0 : P k0 = true
    · rw [List.filter_cons_of_pos (by simpa using hp0)]
      simp only [List.map_cons]
      rw [List.filter_cons_of_pos (by simpa using hp0)]
      rw [ih]
    · rw [List.filter_cons_of_neg (by simpa using hp0)]
      simp only [List.map_cons]
      rw [List.filter_cons_of_neg (by simpa using hp0)]
      rw [ih]

theorem mem_of_mem_erase {α : Type} {m : List (Nat × α)} {k : Nat} {kv : Nat × α}
    (h : kv ∈ VMap.erase m k) : kv ∈ m := by
  induction m with
  | nil => exact absurd h (List.not_mem_nil _)
  | cons kv0 rest ih =>
    obtain ⟨k0, v0⟩ := kv0
    unfold VMap.erase at h
    by_cases hk : k = k0
    · rw [if_pos hk] at h
      exact List.mem_cons_of_mem _ h
    · rw [if_neg hk] at h
      rcases List.mem_cons.mp h with rfl | h2
      · exact List.mem_cons_self _ _
      · exact List.mem_cons_of_mem _ (ih h2)

theorem VMap.erase_length_of_mem {α : Type} (m : List (Nat × α)) (k : Nat)
    (h : k ∈ m.map Prod.fst) : (VMap.erase m k).length = m.length - 1 := by
  induction m with
  | nil => simp at h
  | cons kv0 rest ih =>
    obtain ⟨k0, v0⟩ := kv0
    unfold VMap.erase
    by_cases hk : k = k0
    · rw [if_pos hk]
      rfl
    · rw [if_neg hk]
      simp only [List.map_cons, List.mem_cons] at h
      rcases h with h | h
      · exact absurd h hk
      · have hlen := ih h
        have hpos : 1 ≤ rest.length := by
          cases hrest : rest with
          | nil =>
            rw [hrest] at h
            simp at h
          | cons x xs => simp
        simp only [List.length_cons]
        omega

/-- The edge ids removed from a far vertex's out-list during the
`remove_vertex` fold (in-direction records). -/
def remOutIds (L : List Adjacency) (u : Nat) : List Nat :=
  (L.filter (fun b => b.direction = PatternDirection.In ∧ b.adj_vertex.id = u)).map
    (fun b => b.edge_id)

/-- The edge ids removed from a far vertex's in-list during the
`remove_vertex` fold (out-direction records). -/
def remInIds (L : List Adjacency) (u : Nat) : List Nat :=
  (L.filter (fun b => b.direction = PatternDirection.Out ∧ b.adj_vertex.id = u)).map
    (fun b => b.edge_id)

theorem removeVertexAdjStep_vertices (q : Pattern) (a : Adjacency) :
    (Pattern.removeVertexAdjStep q a).vertices = q.vertices := by
  unfold Pattern.removeVertexAdjStep Pattern.updateVData
  cases htag : Pattern.getEdgeTag { q with edges := VMap.erase q.edges a.edge_id }
      a.edge_id with
  | none =>
    dsimp only
    rw [htag]
    cases a.direction <;> dsimp only <;> split <;> rfl
  | some tag =>
    dsimp only
    rw [htag]
    cases a.direction <;> dsimp only <;> split <;> rfl

theorem removeVertexAdjStep_edges (q : Pattern) (a : Adjacency) :
    (Pattern.removeVertexAdjStep q a).edges = VMap.erase q.edges a.edge_id := by
  unfold Pattern.removeVertexAdjStep Pattern.updateVData
  cases htag : Pattern.getEdgeTag { q with edges := VMap.erase q.edges a.edge_id }
      a.edge_id with
  | none =>
    dsimp only
    rw [htag]
    cases a.direction <;> dsimp only <;> split <;> rfl
  | some tag =>
    dsimp only
    rw [htag]
    cases a.direction <;> dsimp only <;> split <;> rfl

theorem removeVertexAdjStep_edges_data (q : Pattern) (a : Adjacency) :
    (Pattern.removeVertexAdjStep q a).edges_data = VMap.erase q.edges_data a.edge_id := by
  unfold Pattern.removeVertexAdjStep Pattern.updateVData
  cases htag : Pattern.getEdgeTag { q with edges := VMap.erase q.edges a.edge_id }
      a.edge_id with
  | none =>
    dsimp only
    rw [htag]
    cases a.direction <;> dsimp only <;> split <;> rfl
  | some tag =>
    dsimp only
    rw [htag]
    cases a.direction <;> dsimp only <;> split <;> rfl

/-- The per-record directional list update `remove_vertex` applies to the
far endpoint. -/
def dirUpdate (a : Adjacency) (vd : PatternVertexData) : PatternVertexData :=
  match a.direction with
  | PatternDirection.Out =>
    { vd with in_adjacencies :=
        vd.in_adjacencies.filter (fun adj => adj.edge_id ≠ a.edge_id) }
  | PatternDirection.In =>
    { vd with out_adjacencies :=
        vd.out_adjacencies.filter (fun adj => adj.edge_id ≠ a.edge_id) }

theorem removeVertexAdjStep_vdata (q : Pattern) (a : Adjacency) :
    (Pattern.removeVertexAdjStep q a).vertices_data
      = match VMap.get q.vertices_data a.adj_vertex.id with
        | none => q.vertices_data
        | some vd => VMap.insert q.vertices_data a.adj_vertex.id (dirUpdate a vd) := by
  unfold Pattern.removeVertexAdjStep Pattern.updateVData dirUpdate
  cases htag : Pattern.getEdgeTag { q with edges := VMap.erase q.edges a.edge_id }
      a.edge_id with
  | none =>
    dsimp only
    rw [htag]
    cases a.direction <;> dsimp only <;>
      cases hget : VMap.get q.vertices_data a.adj_vertex.id <;> simp [hget]
  | some tag =>
    dsimp only
    rw [htag]
    cases a.direction <;> dsimp only <;>
      cases hget : VMap.get q.vertices_data a.adj_vertex.id <;> simp [hget]

theorem dirUpdate_out (a : Adjacency) (vd : PatternVertexData)
    (h : a.direction = PatternDirection.Out) :
    dirUpdate a vd = { vd with in_adjacencies :=
        vd.in_adjacencies.filter (fun adj => adj.edge_id ≠ a.edge_id) } := by
  unfold dirUpdate
  rw [h]

theorem dirUpdate_in (a : Adjacency) (vd : PatternVertexData)
    (h : a.direction = PatternDirection.In) :
    dirUpdate a vd = { vd with out_adjacencies :=
        vd.out_adjacencies.filter (fun adj => adj.edge_id ≠ a.edge_id) } := by
  unfold dirUpdate
  rw [h]

theorem remOutIds_cons (a : Adjacency) (tl : List Adjacency) (u : Nat) :
    remOutIds (a :: tl) u
      = if a.direction = PatternDirection.In ∧ a.adj_vertex.id = u then
          a.edge_id :: remOutIds tl u
        else remOutIds tl u := by
  unfold remOutIds
  by_cases h : a.direction = PatternDirection.In ∧ a.adj_vertex.id = u
  · rw [List.filter_cons_of_pos (by exact decide_eq_true h), if_pos h]
    rfl
  · rw [List.filter_cons_of_neg (by simpa using h), if_neg h]

theorem remInIds_cons (a : Adjacency) (tl : List Adjacency) (u : Nat) :
    remInIds (a :: tl) u
      = if a.direction = PatternDirection.Out ∧ a.adj_vertex.id = u then
          a.edge_id :: remInIds tl u
        else remInIds tl u := by
  unfold remInIds
  by_cases h : a.direction = PatternDirection.Out ∧ a.adj_vertex.id = u
  · rw [List.filter_cons_of_pos (by exact decide_eq_true h), if_pos h]
    rfl
  · rw [List.filter_cons_of_neg (by simpa using h), if_neg h]

theorem filter_adj_ne_comp (l : List Adjacency) (e : Nat) (ids : List Nat) :
    (l.filter (fun adj => adj.edge_id ≠ e)).filter
      (fun adj => ¬ ids.contains adj.edge_id)
      = l.filter (fun adj => ¬ (e :: ids).contains adj.edge_id) := by
  rw [List.filter_filter]
  refine List.filter_congr ?_
  intro x _
  by_cases h1 : x.edge_id = e <;> by_cases h2 : ids.contains x.edge_id = true <;>
    simp [h1, h2]

theorem filter_key_ne_comp {α : Type} (l : List (Nat × α)) (e : Nat) (ids : List Nat) :
    (l.filter (fun ke => ke.1 ≠ e)).filter (fun ke => ¬ ids.contains ke.1)
      = l.filter (fun ke => ¬ (e :: ids).contains ke.1) := by
  rw [List.filter_filter]
  refine List.filter_congr ?_
  intro x _
  by_cases h1 : x.1 = e <;> by_cases h2 : ids.contains x.1 = true <;>
    simp [h1, h2]

theorem filter_adj_nil_noop (l : List Adjacency) (ids : List Nat) (hids : ids = []) :
    l.filter (fun adj => ¬ ids.contains adj.edge_id) = l := by
  subst hids
  refine List.filter_eq_self.mpr ?_
  intro x _
  simp

/-- The characterization of the `remove_vertex` adjacency fold: the
vertex map is untouched, the listed edges disappear from the edge maps,
and every surviving vertex's adjacency lists lose exactly the records of
the removed edges that pointed back at it. -/
theorem removeFold_chars :
    ∀ (L2 : List Adjacency) (q : Pattern),
      (q.edges.map Prod.fst).Nodup →
      (q.edges_data.map Prod.fst).Nodup →
      KeysOrd q.vertices_data →
      (∀ a ∈ L2, a.adj_vertex.id ∈ q.vertices_data.map Prod.fst) →
      ((L2.foldl Pattern.removeVertexAdjStep q).vertices = q.vertices)
      ∧ ((L2.foldl Pattern.removeVertexAdjStep q).edges
          = q.edges.filter
            (fun ke => ¬ (L2.map (fun b => b.edge_id)).contains ke.1))
      ∧ ((L2.foldl Pattern.removeVertexAdjStep q).edges_data
          = q.edges_data.filter
            (fun ke => ¬ (L2.map (fun b => b.edge_id)).contains ke.1))
      ∧ ((L2.foldl Pattern.removeVertexAdjStep q).vertices_data.map Prod.fst
          = q.vertices_data.map Prod.fst)
      ∧ (∀ u vd, VMap.get q.vertices_data u = some vd →
          VMap.get (L2.foldl Pattern.removeVertexAdjStep q).vertices_data u
            = some { vd with
                out_adjacencies := vd.out_adjacencies.filter
                  (fun adj => ¬ (remOutIds L2 u).contains adj.edge_id)
                in_adjacencies := vd.in_adjacencies.filter
                  (fun adj => ¬ (remInIds L2 u).contains adj.edge_id) }) := by
  intro L2
  induction L2 with
  | nil =>
    intro q hnde hnded hordv hfar
    refine ⟨rfl, ?_, ?_, rfl, ?_⟩
    · exact (List.filter_eq_self.mpr (fun ke _ => by simp)).symm
    · exact (List.filter_eq_self.mpr (fun ke _ => by simp)).symm
    · intro u vd hvd
      rw [filter_adj_nil_noop vd.out_adjacencies (remOutIds [] u) rfl,
        filter_adj_nil_noop vd.in_adjacencies (remInIds [] u) rfl]
      exact hvd
  | cons a tl ih =>
    intro q hnde hnded hordv hfar
    have hfarmem : a.adj_vertex.id ∈ q.vertices_data.map Prod.fst :=
      hfar a (List.mem_cons_self _ _)
    obtain ⟨vdf, hvdf⟩ : ∃ vdf, VMap.get q.vertices_data a.adj_vertex.id = some vdf :=
      Option.isSome_iff_exists.mp (VMap.get_isSome_of_mem_keys _ _ hfarmem)
    have hq1e : (Pattern.removeVertexAdjStep q a).edges
        = q.edges.filter (fun ke => ke.1 ≠ a.edge_id) := by
      rw [removeVertexAdjStep_edges, VMap.erase_eq_filter q.edges hnde]
    have hq1ed : (Pattern.removeVertexAdjStep q a).edges_data
        = q.edges_data.filter (fun ke => ke.1 ≠ a.edge_id) := by
      rw [removeVertexAdjStep_edges_data, VMap.erase_eq_filter q.edges_data hnded]
    have hq1vd : (Pattern.removeVertexAdjStep q a).vertices_data
        = VMap.insert q.vertices_data a.adj_vertex.id (dirUpdate a vdf) := by
      rw [removeVertexAdjStep_vdata, hvdf]
    have hq1keys : (Pattern.removeVertexAdjStep q a).vertices_data.map Prod.fst
        = q.vertices_data.map Prod.fst := by
      rw [hq1vd]
      exact VMap.insert_keys_of_mem _ hordv _ _ hfarmem
    have hnde1 : ((Pattern.removeVertexAdjStep q a).edges.map Prod.fst).Nodup := by
      rw [hq1e]
      exact ((List.filter_sublist _).map Prod.fst).nodup hnde
    have hnded1 : ((Pattern.removeVertexAdjStep q a).edges_data.map Prod.fst).Nodup := by
      rw [hq1ed]
      exact ((List.filter_sublist _).map Prod.fst).nodup hnded
    have hordv1 : KeysOrd (Pattern.removeVertexAdjStep q a).vertices_data := by
      show ((Pattern.removeVertexAdjStep q a).vertices_data.map Prod.fst).Sorted (· < ·)
      rw [hq1keys]
      exact hordv
    have hfar1 : ∀ b ∈ tl,
        b.adj_vertex.id ∈ (Pattern.removeVertexAdjStep q a).vertices_data.map Prod.fst := by
      intro b hb
      rw [hq1keys]
      exact hfar b (List.mem_cons_of_mem _ hb)
    obtain ⟨C1, C2, C3, C4, C5⟩ :=
      ih (Pattern.removeVertexAdjStep q a) hnde1 hnded1 hordv1 hfar1
    have hfold : (a :: tl).foldl Pattern.removeVertexAdjStep q
        = tl.foldl Pattern.removeVertexAdjStep (Pattern.removeVertexAdjStep q a) := rfl
    rw [hfold]
    refine ⟨C1.trans (removeVertexAdjStep_vertices q a), ?_, ?_,
      C4.trans hq1keys, ?_⟩
    · rw [C2, hq1e, filter_key_ne_comp]
      simp only [List.map_cons]
    · rw [C3, hq1ed, filter_key_ne_comp]
      simp only [List.map_cons]
    · intro u vd hvd
      by_cases hu : u = a.adj_vertex.id
      · rw [hu] at hvd
        rw [hu]
        have hvdeq : vdf = vd := Option.some.inj (hvdf.symm.trans hvd)
        subst hvdeq
        have hstepget : VMap.get (Pattern.removeVertexAdjStep q a).vertices_data
            a.adj_vertex.id = some (dirUpdate a vdf) := by
          rw [hq1vd, VMap.get_insert,
            if_pos (show a.adj_vertex.id = a.adj_vertex.id from rfl)]
        have hres := C5 a.adj_vertex.id (dirUpdate a vdf) hstepget
        cases hdir : a.direction with
        | Out =>
          rw [dirUpdate_out a vdf hdir] at hres
          dsimp only at hres
          rw [hres]
          have hnotIn : ¬ (a.direction = PatternDirection.In
              ∧ a.adj_vertex.id = a.adj_vertex.id) := by
            rintro ⟨h1, _⟩
            rw [hdir] at h1
            exact PatternDirection.noConfusion h1
          rw [remOutIds_cons, remInIds_cons, if_neg hnotIn, if_pos ⟨hdir, rfl⟩]
          rw [filter_adj_ne_comp]
        | In =>
          rw [dirUpdate_in a vdf hdir] at hres
          dsimp only at hres
          rw [hres]
          have hnotOut : ¬ (a.direction = PatternDirection.Out
              ∧ a.adj_vertex.id = a.adj_vertex.id) := by
            rintro ⟨h1, _⟩
            rw [hdir] at h1
            exact PatternDirection.noConfusion h1
          rw [remOutIds_cons, remInIds_cons, if_pos ⟨hdir, rfl⟩, if_neg hnotOut]
          rw [filter_adj_ne_comp]
      · have hstepget : VMap.get (Pattern.removeVertexAdjStep q a).vertices_data u
            = some vd := by
          rw [hq1vd, VMap.get_insert, if_neg hu]
          exact hvd
        have hres := C5 u vd hstepget
        rw [hres]
        rw [remOutIds_cons, remInIds_cons,
          if_neg (by rintro ⟨_, h2⟩; exact hu h2.symm),
          if_neg (by rintro ⟨_, h2⟩; exact hu h2.symm)]

theorem filter_map_comm {α β : Type} (f : α → β) (pb : β → Bool) (l : List α) :
    (l.map f).filter pb = (l.filter (fun x => pb (f x))).map f := by
  induction l with
  | nil => rfl
  | cons x xs ih =>
    by_cases hx : pb (f x) = true
    · simp only [List.map_cons]
      rw [List.filter_cons_of_pos (by exact hx), List.filter_cons_of_pos (by exact hx)]
      simp only [List.map_cons]
      rw [ih]
    · simp only [List.map_cons]
      rw [List.filter_cons_of_neg (by simp [hx]), List.filter_cons_of_neg (by simp [hx])]
      exact ih

theorem removeVertexInternal_chars (p : Pattern) (v : Nat) :
    (p.removeVertexInternal v).vertices = VMap.erase p.vertices v
    ∧ (p.removeVertexInternal v).vertices_data = VMap.erase p.vertices_data v
    ∧ (p.removeVertexInternal v).edges = p.edges
    ∧ (p.removeVertexInternal v).edges_data = p.edges_data := by
  unfold Pattern.removeVertexInternal
  dsimp only
  split <;> exact ⟨rfl, rfl, rfl, rfl⟩

/-- Removing a vertex and folding away its incident edges preserves the
structural pattern invariant; the vertex map ends as the erasure. -/
theorem removeVertex_WF (p : Pattern) (hwf : PatternWF p) (v : Nat)
    (hv : (p.getVertex v).isSome) :
    PatternWF ((p.adjacencies v).foldl Pattern.removeVertexAdjStep
      (p.removeVertexInternal v))
    ∧ ((p.adjacencies v).foldl Pattern.removeVertexAdjStep
        (p.removeVertexInternal v)).vertices = VMap.erase p.vertices v := by
  obtain ⟨hIv, hIvd, hIe, hIed⟩ := removeVertexInternal_chars p v
  have hvmem : v ∈ p.vertices.map Prod.fst := VMap.mem_keys_of_get _ _ hv
  have hvdmem : v ∈ p.vertices_data.map Prod.fst := by
    rw [hwf.vdKeys]
    exact hvmem
  obtain ⟨vdv, hvdv⟩ : ∃ vdv, VMap.get p.vertices_data v = some vdv :=
    Option.isSome_iff_exists.mp (VMap.get_isSome_of_mem_keys _ _ hvdmem)
  have hL : p.adjacencies v = vdv.out_adjacencies ++ vdv.in_adjacencies := by
    unfold Pattern.adjacencies
    rw [hvdv]
  have hord_vd : KeysOrd p.vertices_data := by
    show (p.vertices_data.map Prod.fst).Sorted (· < ·)
    rw [hwf.vdKeys]
    exact hwf.vOrd
  have hnd_vd : (p.vertices_data.map Prod.fst).Nodup := KeysOrd.nodup hord_vd
  have hnd_v : (p.vertices.map Prod.fst).Nodup := KeysOrd.nodup hwf.vOrd
  have hnd_e : (p.edges.map Prod.fst).Nodup := KeysOrd.nodup hwf.eOrd
  have hnd_ed : (p.edges_data.map Prod.fst).Nodup := by
    rw [hwf.edKeys]
    exact hnd_e
  have hmfv : (p.vertices.filter (fun kv => kv.1 ≠ v)).map Prod.fst
      = (p.vertices.map Prod.fst).filter (fun x => decide (x ≠ v)) :=
    map_fst_filter_key p.vertices (fun x => decide (x ≠ v))
  have hmfvd : (p.vertices_data.filter (fun kv => kv.1 ≠ v)).map Prod.fst
      = (p.vertices_data.map Prod.fst).filter (fun x => decide (x ≠ v)) :=
    map_fst_filter_key p.vertices_data (fun x => decide (x ≠ v))
  have houtperm : vdv.out_adjacencies.Perm
      ((p.edges.filter (fun ke => ke.2.start_vertex.id = v)).map
        (fun ke => outRecord ke.2)) := hwf.adjOut (v, vdv) (VMap.get_mem _ _ _ hvdv)
  have hinperm : vdv.in_adjacencies.Perm
      ((p.edges.filter (fun ke => ke.2.end_vertex.id = v)).map
        (fun ke => inRecord ke.2)) := hwf.adjIn (v, vdv) (VMap.get_mem _ _ _ hvdv)
  -- membership characterization of the removed edge ids
  have hremfwd : ∀ e, e ∈ (p.adjacencies v).map (fun b => b.edge_id) →
      ∃ kv ∈ p.edges, kv.1 = e
        ∧ (kv.2.start_vertex.id = v ∨ kv.2.end_vertex.id = v) := by
    intro e he
    rw [hL, List.map_append] at he
    rcases List.mem_append.mp he with he | he
    · have := (houtperm.map (fun b => b.edge_id)).mem_iff.mp he
      rw [List.map_map] at this
      obtain ⟨ke, hke, hkeid⟩ := List.mem_map.mp this
      have hkem := List.mem_filter.mp hke
      refine ⟨ke, hkem.1, ?_, Or.inl (by simpa using hkem.2)⟩
      rw [← hkeid]
      show ke.1 = ke.2.id
      exact (hwf.eIds ke hkem.1).symm
    · have := (hinperm.map (fun b => b.edge_id)).mem_iff.mp he
      rw [List.map_map] at this
      obtain ⟨ke, hke, hkeid⟩ := List.mem_map.mp this
      have hkem := List.mem_filter.mp hke
      refine ⟨ke, hkem.1, ?_, Or.inr (by simpa using hkem.2)⟩
      rw [← hkeid]
      show ke.1 = ke.2.id
      exact (hwf.eIds ke hkem.1).symm
  have hrembwd : ∀ kv ∈ p.edges,
      (kv.2.start_vertex.id = v ∨ kv.2.end_vertex.id = v) →
      kv.1 ∈ (p.adjacencies v).map (fun b => b.edge_id) := by
    intro kv hkv hcase
    rw [hL, List.map_append]
    rcases hcase with hc | hc
    · refine List.mem_append.mpr (Or.inl ?_)
      refine (houtperm.map (fun b => b.edge_id)).mem_iff.mpr ?_
      rw [List.map_map]
      refine List.mem_map.mpr ⟨kv, List.mem_filter.mpr ⟨hkv, by simpa using hc⟩, ?_⟩
      show kv.2.id = kv.1
      exact hwf.eIds kv hkv
    · refine List.mem_append.mpr (Or.inr ?_)
      refine (hinperm.map (fun b => b.edge_id)).mem_iff.mpr ?_
      rw [List.map_map]
      refine List.mem_map.mpr ⟨kv, List.mem_filter.mpr ⟨hkv, by simpa using hc⟩, ?_⟩
      show kv.2.id = kv.1
      exact hwf.eIds kv hkv
  -- preconditions of the fold characterization
  have hIvkeys : (p.removeVertexInternal v).vertices_data.map Prod.fst
      = (p.vertices_data.map Prod.fst).filter (fun x => decide (x ≠ v)) := by
    rw [hIvd, VMap.erase_eq_filter p.vertices_data hnd_vd v]
    exact hmfvd
  have hordv0 : KeysOrd (p.removeVertexInternal v).vertices_data := by
    show ((p.removeVertexInternal v).vertices_data.map Prod.fst).Sorted (· < ·)
    rw [hIvkeys]
    exact List.Pairwise.sublist (List.filter_sublist _) hord_vd
  have hfar0 : ∀ a ∈ p.adjacencies v,
      a.adj_vertex.id ∈ (p.removeVertexInternal v).vertices_data.map Prod.fst := by
    intro a ha
    obtain ⟨kv, hkv, hkid, hcase⟩ := adjacencies_sound p hwf v a ha
    have hfarne : a.adj_vertex.id ≠ v := by
      rcases hcase with ⟨hs, hav⟩ | ⟨he, hav⟩
      · rw [hav]
        intro hc
        exact hwf.noLoop kv hkv (hs.trans hc.symm)
      · rw [hav]
        intro hc
        exact hwf.noLoop kv hkv (hc.trans he.symm)
    have hfarmem : a.adj_vertex.id ∈ p.vertices_data.map Prod.fst := by
      rw [hwf.vdKeys]
      rcases hcase with ⟨_, hav⟩ | ⟨_, hav⟩
      · have hg := (hwf.ends kv hkv).2
        rw [hav]
        exact VMap.mem_keys_of_get _ _ (by rw [hg]; rfl)
      · have hg := (hwf.ends kv hkv).1
        rw [hav]
        exact VMap.mem_keys_of_get _ _ (by rw [hg]; rfl)
    rw [hIvkeys]
    exact List.mem_filter.mpr ⟨hfarmem, by simpa using hfarne⟩
  have hnd_e0 : ((p.removeVertexInternal v).edges.map Prod.fst).Nodup := by
    rw [hIe]
    exact hnd_e
  have hnd_ed0 : ((p.removeVertexInternal v).edges_data.map Prod.fst).Nodup := by
    rw [hIed]
    exact hnd_ed
  obtain ⟨C1, C2, C3, C4, C5⟩ := removeFold_chars (p.adjacencies v)
    (p.removeVertexInternal v) hnd_e0 hnd_ed0 hordv0 hfar0
  rw [hIe] at C2
  rw [hIed] at C3
  have hVtx : ((p.adjacencies v).foldl Pattern.removeVertexAdjStep
      (p.removeVertexInternal v)).vertices = VMap.erase p.vertices v := C1.trans hIv
  have hVdKeys : ((p.adjacencies v).foldl Pattern.removeVertexAdjStep
      (p.removeVertexInternal v)).vertices_data.map Prod.fst
      = (p.vertices_data.map Prod.fst).filter (fun x => decide (x ≠ v)) :=
    C4.trans hIvkeys
  have hsurv : ∀ kv ∈ ((p.adjacencies v).foldl Pattern.removeVertexAdjStep
      (p.removeVertexInternal v)).edges,
      kv ∈ p.edges ∧ kv.2.start_vertex.id ≠ v ∧ kv.2.end_vertex.id ≠ v := by
    intro kv hkv
    rw [C2] at hkv
    obtain ⟨hm, hpred⟩ := List.mem_filter.mp hkv
    have hnotin : kv.1 ∉ (p.adjacencies v).map (fun b => b.edge_id) := by
      intro hc
      have := of_decide_eq_true hpred
      exact this ((contains_iff_mem _ _).mpr hc)
    refine ⟨hm, ?_, ?_⟩
    · intro hc
      exact hnotin (hrembwd kv hm (Or.inl hc))
    · intro hc
      exact hnotin (hrembwd kv hm (Or.inr hc))
  have hordP2 : KeysOrd ((p.adjacencies v).foldl Pattern.removeVertexAdjStep
      (p.removeVertexInternal v)).vertices_data := by
    show (((p.adjacencies v).foldl Pattern.removeVertexAdjStep
      (p.removeVertexInternal v)).vertices_data.map Prod.fst).Sorted (· < ·)
    rw [hVdKeys]
    exact List.Pairwise.sublist (List.filter_sublist _) hord_vd
  have hmfe := map_fst_filter_key p.edges
    (fun x => decide (¬ ((p.adjacencies v).map (fun b => b.edge_id)).contains x))
  have hmfed := map_fst_filter_key p.edges_data
    (fun x => decide (¬ ((p.adjacencies v).map (fun b => b.edge_id)).contains x))
  refine ⟨⟨?_, ?_, ?_, ?_, ?_, ?_, ?_, ?_, ?_, ?_⟩, hVtx⟩
  · show (((p.adjacencies v).foldl Pattern.removeVertexAdjStep
      (p.removeVertexInternal v)).vertices.map Prod.fst).Sorted (· < ·)
    rw [hVtx, VMap.erase_eq_filter p.vertices hnd_v v, hmfv]
    exact List.Pairwise.sublist (List.filter_sublist _) hwf.vOrd
  · show (((p.adjacencies v).foldl Pattern.removeVertexAdjStep
      (p.removeVertexInternal v)).edges.map Prod.fst).Sorted (· < ·)
    rw [C2]
    exact List.Pairwise.sublist ((List.filter_sublist _).map Prod.fst) hwf.eOrd
  · rw [hVdKeys, hwf.vdKeys, hVtx, VMap.erase_eq_filter p.vertices hnd_v v, hmfv]
  · rw [C3, C2, hmfe, hmfed, hwf.edKeys]
  · intro kv hkv
    rw [hVtx] at hkv
    exact hwf.vIds kv (mem_of_mem_erase hkv)
  · intro kv hkv
    rw [C2] at hkv
    exact hwf.eIds kv (List.mem_filter.mp hkv).1
  · intro kv hkv
    obtain ⟨hm, hsne, hene⟩ := hsurv kv hkv
    have hgf1 := VMap.get_filter_key p.vertices (fun x => decide (x ≠ v))
      kv.2.start_vertex.id
    have hgf2 := VMap.get_filter_key p.vertices (fun x => decide (x ≠ v))
      kv.2.end_vertex.id
    constructor
    · show VMap.get ((p.adjacencies v).foldl Pattern.removeVertexAdjStep
        (p.removeVertexInternal v)).vertices kv.2.start_vertex.id = some kv.2.start_vertex
      rw [hVtx, VMap.erase_eq_filter p.vertices hnd_v v, hgf1,
        if_pos (by exact decide_eq_true hsne)]
      exact (hwf.ends kv hm).1
    · show VMap.get ((p.adjacencies v).foldl Pattern.removeVertexAdjStep
        (p.removeVertexInternal v)).vertices kv.2.end_vertex.id = some kv.2.end_vertex
      rw [hVtx, VMap.erase_eq_filter p.vertices hnd_v v, hgf2,
        if_pos (by exact decide_eq_true hene)]
      exact (hwf.ends kv hm).2
  · intro kv hkv
    rw [C2] at hkv
    exact hwf.noLoop kv (List.mem_filter.mp hkv).1
  · intro kvd hkvd
    have hget2 : VMap.get ((p.adjacencies v).foldl Pattern.removeVertexAdjStep
        (p.removeVertexInternal v)).vertices_data kvd.1 = some kvd.2 :=
      VMap.get_of_mem_ordKeys _ hordP2 kvd.1 kvd.2 hkvd
    have humem := List.mem_map_of_mem Prod.fst hkvd
    rw [hVdKeys] at humem
    obtain ⟨hudata, hunedec⟩ := List.mem_filter.mp humem
    have hune : kvd.1 ≠ v := of_decide_eq_true hunedec
    obtain ⟨vdu, hvdu⟩ : ∃ vdu, VMap.get p.vertices_data kvd.1 = some vdu :=
      Option.isSome_iff_exists.mp (VMap.get_isSome_of_mem_keys _ _ hudata)
    have hget0 : VMap.get (p.removeVertexInternal v).vertices_data kvd.1
        = some vdu := by
      rw [hIvd, VMap.erase_eq_filter p.vertices_data hnd_vd v,
        VMap.get_filter_key p.vertices_data (fun x => decide (x ≠ v)) kvd.1,
        if_pos (by exact decide_eq_true hune)]
      exact hvdu
    have hgetF := C5 kvd.1 vdu hget0
    have hkvd2 : kvd.2 = { vdu with
        out_adjacencies := vdu.out_adjacencies.filter
          (fun adj => ¬ (remOutIds (p.adjacencies v) kvd.1).contains adj.edge_id)
        in_adjacencies := vdu.in_adjacencies.filter
          (fun adj => ¬ (remInIds (p.adjacencies v) kvd.1).contains adj.edge_id) } :=
      Option.some.inj (hget2.symm.trans hgetF)
    rw [hkvd2]
    show (vdu.out_adjacencies.filter
        (fun adj => ¬ (remOutIds (p.adjacencies v) kvd.1).contains adj.edge_id)).Perm _
    rw [C2]
    have hstep1 := (hwf.adjOut (kvd.1, vdu) (VMap.get_mem _ _ _ hvdu)).filter
      (fun adj => decide (¬ (remOutIds (p.adjacencies v) kvd.1).contains adj.edge_id))
    rw [filter_map_comm] at hstep1
    refine hstep1.trans (List.Perm.of_eq (congrArg (List.map _) ?_))
    rw [List.filter_filter, List.filter_filter]
    refine List.filter_congr ?_
    intro ke hke
    by_cases hsu : ke.2.start_vertex.id = kvd.1
    · have hkeid : ke.2.id = ke.1 := hwf.eIds ke hke
      have hiff : ke.1 ∈ remOutIds (p.adjacencies v) kvd.1
          ↔ ke.1 ∈ (p.adjacencies v).map (fun b => b.edge_id) := by
        constructor
        · intro hc
          unfold remOutIds at hc
          obtain ⟨b, hb, hbeq⟩ := List.mem_map.mp hc
          exact hbeq ▸ List.mem_map_of_mem _ (List.mem_filter.mp hb).1
        · intro hc
          obtain ⟨kv2, hkv2, hkv2id, hkv2case⟩ := hremfwd ke.1 hc
          have hkv2eq : kv2 = ke := entry_unique p.edges hnd_e hkv2 hke hkv2id
          subst hkv2eq
          have hendv : kv2.2.end_vertex.id = v := by
            rcases hkv2case with hcv | hcv
            · exact absurd hcv (by rw [hsu]; exact hune)
            · exact hcv
          have hrecmem : inRecord kv2.2 ∈ p.adjacencies v := by
            rw [hL]
            refine List.mem_append.mpr (Or.inr (hinperm.mem_iff.mpr ?_))
            exact List.mem_map.mpr ⟨kv2, List.mem_filter.mpr ⟨hkv2,
              by simpa using hendv⟩, rfl⟩
          unfold remOutIds
          refine List.mem_map.mpr ⟨inRecord kv2.2, List.mem_filter.mpr ⟨hrecmem, ?_⟩, ?_⟩
          · refine decide_eq_true ?_
            exact ⟨rfl, hsu⟩
          · show kv2.2.id = kv2.1
            exact hkeid
      simp only [outRecord, hsu, hkeid]
      by_cases hc1 : ke.1 ∈ remOutIds (p.adjacencies v) kvd.1
      · have hc2 := hiff.mp hc1
        simp [hc1, hc2, contains_iff_mem]
      · have hc2 := fun hx => hc1 (hiff.mpr hx)
        simp [hc1, hc2, contains_iff_mem]
        intro x hx heq
        exact hc2 (List.mem_map.mpr ⟨x, hx, heq⟩)
    · simp [hsu]
  · intro kvd hkvd
    have hget2 : VMap.get ((p.adjacencies v).foldl Pattern.removeVertexAdjStep
        (p.removeVertexInternal v)).vertices_data kvd.1 = some kvd.2 :=
      VMap.get_of_mem_ordKeys _ hordP2 kvd.1 kvd.2 hkvd
    have humem := List.mem_map_of_mem Prod.fst hkvd
    rw [hVdKeys] at humem
    obtain ⟨hudata, hunedec⟩ := List.mem_filter.mp humem
    have hune : kvd.1 ≠ v := of_decide_eq_true hunedec
    obtain ⟨vdu, hvdu⟩ : ∃ vdu, VMap.get p.vertices_data kvd.1 = some vdu :=
      Option.isSome_iff_exists.mp (VMap.get_isSome_of_mem_keys _ _ hudata)
    have hget0 : VMap.get (p.removeVertexInternal v).vertices_data kvd.1
        = some vdu := by
      rw [hIvd, VMap.erase_eq_filter p.vertices_data hnd_vd v,
        VMap.get_filter_key p.vertices_data (fun x => decide (x ≠ v)) kvd.1,
        if_pos (by exact decide_eq_true hune)]
      exact hvdu
    have hgetF := C5 kvd.1 vdu hget0
    have hkvd2 : kvd.2 = { vdu with
        out_adjacencies := vdu.out_adjacencies.filter
          (fun adj => ¬ (remOutIds (p.adjacencies v) kvd.1).contains adj.edge_id)
        in_adjacencies := vdu.in_adjacencies.filter
          (fun adj => ¬ (remInIds (p.adjacencies v) kvd.1).contains adj.edge_id) } :=
      Option.some.inj (hget2.symm.trans hgetF)
    rw [hkvd2]
    show (vdu.in_adjacencies.filter
        (fun adj => ¬ (remInIds (p.adjacencies v) kvd.1).contains adj.edge_id)).Perm _
    rw [C2]
    have hstep1 := (hwf.adjIn (kvd.1, vdu) (VMap.get_mem _ _ _ hvdu)).filter
      (fun adj => decide (¬ (remInIds (p.adjacencies v) kvd.1).contains adj.edge_id))
    rw [filter_map_comm] at hstep1
    refine hstep1.trans (List.Perm.of_eq (congrArg (List.map _) ?_))
    rw [List.filter_filter, List.filter_filter]
    refine List.filter_congr ?_
    intro ke hke
    by_cases hsu : ke.2.end_vertex.id = kvd.1
    · have hkeid : ke.2.id = ke.1 := hwf.eIds ke hke
      have hiff : ke.1 ∈ remInIds (p.adjacencies v) kvd.1
          ↔ ke.1 ∈ (p.adjacencies v).map (fun b => b.edge_id) := by
        constructor
        · intro hc
          unfold remInIds at hc
          obtain ⟨b, hb, hbeq⟩ := List.mem_map.mp hc
          exact hbeq ▸ List.mem_map_of_mem _ (List.mem_filter.mp hb).1
        · intro hc
          obtain ⟨kv2, hkv2, hkv2id, hkv2case⟩ := hremfwd ke.1 hc
          have hkv2eq : kv2 = ke := entry_unique p.edges hnd_e hkv2 hke hkv2id
          subst hkv2eq
          have hstartv : kv2.2.start_vertex.id = v := by
            rcases hkv2case with hcv | hcv
            · exact hcv
            · exact absurd hcv (by rw [hsu]; exact hune)
          have hrecmem : outRecord kv2.2 ∈ p.adjacencies v := by
            rw [hL]
            refine List.mem_append.mpr (Or.inl (houtperm.mem_iff.mpr ?_))
            exact List.mem_map.mpr ⟨kv2, List.mem_filter.mpr ⟨hkv2,
              by simpa using hstartv⟩, rfl⟩
          unfold remInIds
          refine List.mem_map.mpr ⟨outRecord kv2.2, List.mem_filter.mpr ⟨hrecmem, ?_⟩, ?_⟩
          · refine decide_eq_true ?_
            exact ⟨rfl, hsu⟩
          · show kv2.2.id = kv2.1
            exact hkeid
      simp only [inRecord, hsu, hkeid]
      by_cases hc1 : ke.1 ∈ remInIds (p.adjacencies v) kvd.1
      · have hc2 := hiff.mp hc1
        simp [hc1, hc2, contains_iff_mem]
      · have hc2 := fun hx => hc1 (hiff.mpr hx)
        simp [hc1, hc2, contains_iff_mem]
        intro x hx heq
        exact hc2 (List.mem_map.mpr ⟨x, hx, heq⟩)
    · simp [hsu]

/-- Connectivity only depends on the vertex and edge maps, which
canonical labeling leaves untouched. -/
theorem connectedGraph_congr (p q : Pattern) (hv : q.vertices = p.vertices)
    (he : q.edges = p.edges) (h : ConnectedGraph p) : ConnectedGraph q := by
  have hadj : EdgeAdj q = EdgeAdj p := by
    funext u w
    unfold EdgeAdj
    rw [he]
  refine ⟨by rw [hv]; exact h.1, ?_⟩
  intro u hu w hw
  rw [hv] at hu hw
  have hr := h.2 u hu w hw
  unfold Reach at hr ⊢
  rw [hadj]
  exact hr

/-- C5: for every well-formed pattern `p` with at least one edge and every
vertex `v`, if `remove_vertex(v)` returns `Some(q)` then `q` is connected
and has exactly one vertex fewer than `p`. -/
theorem claim_C5 (p : Pattern) (hwf : PatternWF p) (v : Nat) (q : Pattern)
    (hE : p.edges ≠ [])
    (hq : p.removeVertex v = some q) :
    ConnectedGraph q ∧ q.vertices.length = p.vertices.length - 1 := by
  unfold Pattern.removeVertex at hq
  by_cases hv : (p.getVertex v).isSome = true
  · rw [if_pos hv] at hq
    dsimp only at hq
    by_cases hconn : ((p.adjacencies v).foldl Pattern.removeVertexAdjStep
        (p.removeVertexInternal v)).canonicalLabeling.isConnected = true
    · rw [if_pos hconn] at hq
      have hqeq : q = ((p.adjacencies v).foldl Pattern.removeVertexAdjStep
          (p.removeVertexInternal v)).canonicalLabeling := (Option.some.inj hq).symm
      obtain ⟨hWF2, hVtx⟩ := removeVertex_WF p hwf v hv
      have h1 : (((p.adjacencies v).foldl Pattern.removeVertexAdjStep
          (p.removeVertexInternal v)).canonicalLabeling).getConnectedComponentNum
          = 1 := by
        unfold Pattern.isConnected at hconn
        simpa using hconn
      have hcg := connected_of_componentNum_one _ hWF2 h1
      have hqv : q.vertices = ((p.adjacencies v).foldl Pattern.removeVertexAdjStep
          (p.removeVertexInternal v)).vertices := by
        rw [hqeq, Pattern.canonicalLabeling_vertices]
      have hqe : q.edges = ((p.adjacencies v).foldl Pattern.removeVertexAdjStep
          (p.removeVertexInternal v)).edges := by
        rw [hqeq, Pattern.canonicalLabeling_edges]
      refine ⟨connectedGraph_congr _ q hqv hqe hcg, ?_⟩
      rw [hqv, hVtx]
      exact VMap.erase_length_of_mem p.vertices v (VMap.mem_keys_of_get _ _ hv)
    · rw [if_neg hconn] at hq
      exact absurd hq (by simp)
  · rw [if_neg hv] at hq
    exact absurd hq (by simp)

theorem claim_C5_witness :
    ConnectedGraph ((path3Pat.removeVertex 2).getD Pattern.empty)
    ∧ ((path3Pat.removeVertex 2).getD Pattern.empty).vertices.length
        = path3Pat.vertices.length - 1 := by
  have hwf : PatternWF path3Pat :=
    ⟨by decide, by decide, by decide, by decide, by decide, by decide, by decide,
      by decide, by decide, by decide⟩
  have hs : (path3Pat.removeVertex 2).isSome = true := by decide
  have hq : path3Pat.removeVertex 2
      = some ((path3Pat.removeVertex 2).getD Pattern.empty) := by
    obtain ⟨q0, hq0⟩ := Option.isSome_iff_exists.mp hs
    rw [hq0]
    rfl
  exact claim_C5 path3Pat hwf 2 _ (by decide) hq

/-! ## The catalogue best-approach dynamic program (plan.rs,
`set_node_best_approach_recursively` / `collect_candidate_approaches`) -/

/-- An `Approach` from plan.rs: an edge of the catalogue store graph,
identified by its approach index and carrying its source and target
pattern node indices. -/
structure Approach where
  approach_index : Nat
  src_pattern_index : Nat
  target_pattern_index : Nat
  deriving DecidableEq, Repr

/-- The two kinds of `ApproachWeight` (extend step or binary-join step),
as tested by `is_extend` / `is_join`. -/
inductive ApproachKind where
  | extendStep
  | binaryJoin
  deriving DecidableEq, Repr

/-- `PatMatPlanSpace` from plan.rs. -/
inductive PatMatPlanSpace where
  | ExtendWithIntersection
  | BinaryJoin
  | Hybrid
  deriving DecidableEq, Repr

/-- What `set_node_best_approach_recursively` reads from a catalogue
node's `PatternWeight`: the pattern's vertex count, the pattern count
used by `CostCount::from_src_pattern`, and the node's incoming
approaches (`pattern_in_approaches_iter`). -/
structure CatNode where
  vertices_num : Nat
  count : ℚ
  in_approaches : List Approach
  deriving DecidableEq, Repr

/-- The catalogue state the DP reads: nodes by index, each approach's
weight kind, the output of `estimate_approach_cost` per approach index
(the estimator is a pure function of the catalogue's stored weights, so
its arithmetic body is tabulated here), the plan space, and the global
`ALPHA`/`BETA`/`W1` cost weights. -/
structure Catalogue where
  nodes : List (Nat × CatNode)
  approach_kinds : List (Nat × ApproachKind)
  step_costs : List (Nat × CostCount)
  plan_space : PatMatPlanSpace
  alpha : ℚ
  beta : ℚ
  w1 : ℚ
  deriving DecidableEq, Repr

namespace CostCount

/-- `f64::MAX` (the integer `2 ^ 1024 - 2 ^ 971`), the value of
`OrderedFloat::max_value()`. -/
def maxValQ : ℚ := 179769313486231570814527423731704356798070567525844996598917476803157260780028538760589558632766878171540458953514382464234321326889464182768467546703537516986049910576551282076245490090389328944075868508455133942304583236903222948165808559332123348274797826204144723168738177180919299881250404026184124858368

/-- `CostCount::max_value()`: every component at `f64::MAX`. -/
def maxValue : CostCount := ⟨maxValQ, maxValQ, maxValQ, maxValQ, maxValQ⟩

/-- `CostCount::from_src_pattern`: the source count as instance count,
all other components defaulted to zero. -/
def fromSrcPattern (src_pattern_count : ℚ) : CostCount :=
  ⟨src_pattern_count, 0, 0, 0, 0⟩

end CostCount

/-- `CostCount::get_cost`, the scalar that `Ord for CostCount` compares:
the sentinel maps to `f64::MAX`, anything else to the weighted sum (both
join components are weighted by `W1`, as in the source). -/
def getCostQ (cat : Catalogue) (c : CostCount) : ℚ :=
  if c = CostCount.maxValue then CostCount.maxValQ
  else
    c.instance_count + c.adjacency_count * cat.alpha
      + c.intersect_count * cat.beta
      + c.left_join_count * cat.w1 + c.right_join_count * cat.w1

/-- The tabulated result of `estimate_approach_cost` for an approach. -/
def stepCost (cat : Catalogue) (a : Approach) : CostCount :=
  (VMap.get cat.step_costs a.approach_index).getD ⟨0, 0, 0, 0, 0⟩

/-- `collect_candidate_approaches`: the incoming approaches whose weight
kind is permitted by the current plan space. -/
def collectCandidateApproaches (cat : Catalogue) (node : CatNode) : List Approach :=
  node.in_approaches.filter (fun a =>
    let kind := (VMap.get cat.approach_kinds a.approach_index).getD .extendStep
    match cat.plan_space with
    | .ExtendWithIntersection => kind = .extendStep
    | .BinaryJoin => kind = .binaryJoin
    | .Hybrid => true)

/-- One iteration of the candidate loop of
`set_node_best_approach_recursively`: recursively price the source
pattern in the current memo state, add the step cost with the source's
`Add` instance, and keep the scalar-cheaper of the running minimum and
this candidate. -/
def bestStep (cat : Catalogue)
    (recf : Nat → List (Nat × Approach) →
      Except IrError ((Option Approach × CostCount) × List (Nat × Approach)))
    (acc : Except IrError (CostCount × Approach × List (Nat × Approach)))
    (a : Approach) : Except IrError (CostCount × Approach × List (Nat × Approach)) :=
  match acc with
  | .error e => .error e
  | .ok (min_cost, best, memo) =>
    match recf a.src_pattern_index memo with
    | .error e => .error e
    | .ok ((_, pre_cost), memo1) =>
      let cost := pre_cost.add (stepCost cat a)
      if getCostQ cat cost < getCostQ cat min_cost then .ok (cost, a, memo1)
      else .ok (min_cost, best, memo1)

/-- `set_node_best_approach_recursively`, with the catalogue's mutable
best-approach memo made an explicit assoc list and the recursion fueled
(the store is a DAG, so any fuel past its depth suffices).  A
single-vertex pattern prices at its source count; a memoized node
re-prices its stored approach with `AddAssign`; otherwise the candidate
loop runs and the winner is memoized on the node. -/
def setNodeBestApproachRec (cat : Catalogue) :
    Nat → Nat → List (Nat × Approach) →
      Except IrError ((Option Approach × CostCount) × List (Nat × Approach))
  | 0, _, _ => .error (.unsupported "recursion fuel exhausted")
  | fuel + 1, n, memo =>
    match VMap.get cat.nodes n with
    | none => .error (.invalidPattern "Pattern not found in catalogue")
    | some node =>
      if node.vertices_num = 1 then
        .ok ((none, CostCount.fromSrcPattern node.count), memo)
      else
        match VMap.get memo n with
        | some best_approach =>
          match setNodeBestApproachRec cat fuel best_approach.src_pattern_index memo with
          | .error e => .error e
          | .ok ((_, cost), memo1) =>
            .ok ((some best_approach, cost.addAssign (stepCost cat best_approach)), memo1)
        | none =>
          match collectCandidateApproaches cat node with
          | [] => .error (.unsupported "No approach found for pattern in catalog")
          | c0 :: rest =>
            match (c0 :: rest).foldl (bestStep cat (setNodeBestApproachRec cat fuel))
                (.ok (CostCount.maxValue, c0, memo)) with
            | .error e => .error e
            | .ok (min_cost, best_approach, memo4) =>
              .ok ((some best_approach, min_cost), VMap.insert memo4 n best_approach)

/-- The per-candidate `(approach, cost)` log the loop accumulates in
`cost_counts_vec`, with the memo state threaded exactly as the loop
threads it. -/
def costListF (cat : Catalogue)
    (recf : Nat → List (Nat × Approach) →
      Except IrError ((Option Approach × CostCount) × List (Nat × Approach))) :
    List Approach → List (Nat × Approach) →
      Except IrError (List (Approach × CostCount) × List (Nat × Approach))
  | [], memo => .ok ([], memo)
  | a :: rest, memo =>
    match recf a.src_pattern_index memo with
    | .error e => .error e
    | .ok ((_, pre_cost), memo1) =>
      match costListF cat recf rest memo1 with
      | .error e => .error e
      | .ok (l, memo2) => .ok ((a, pre_cost.add (stepCost cat a)) :: l, memo2)

/-- The candidate costs enumerated by `set_node_best_approach_recursively`
at a given fuel. -/
def costList (cat : Catalogue) (fuel : Nat) :
    List Approach → List (Nat × Approach) →
      Except IrError (List (Approach × CostCount) × List (Nat × Approach)) :=
  costListF cat (setNodeBestApproachRec cat fuel)

theorem bestStep_fold_error (cat : Catalogue)
    (recf : Nat → List (Nat × Approach) →
      Except IrError ((Option Approach × CostCount) × List (Nat × Approach)))
    (cands : List Approach) (e : IrError) :
    cands.foldl (bestStep cat recf) (.error e) = .error e := by
  induction cands with
  | nil => rfl
  | cons a rest ih =>
    rw [List.foldl_cons]
    exact ih

/-- The candidate loop returns the scalar minimum of the running initial
bound and the enumerated candidate costs, together with a candidate
attaining it (unless the initial bound survives), and ends in the same
memo state as the enumeration. -/
theorem bestFold_chars (cat : Catalogue)
    (recf : Nat → List (Nat × Approach) →
      Except IrError ((Option Approach × CostCount) × List (Nat × Approach)))
    (cands : List Approach) :
    ∀ (min0 : CostCount) (b0 : Approach) (memo : List (Nat × Approach))
      (minc : CostCount) (best : Approach) (memo' : List (Nat × Approach)),
      cands.foldl (bestStep cat recf) (.ok (min0, b0, memo)) = .ok (minc, best, memo') →
      ∃ l memo2,
        costListF cat recf cands memo = .ok (l, memo2) ∧ memo2 = memo'
        ∧ l.map Prod.fst = cands
        ∧ getCostQ cat minc ≤ getCostQ cat min0
        ∧ (∀ pc ∈ l, getCostQ cat minc ≤ getCostQ cat pc.2)
        ∧ ((minc = min0 ∧ best = b0) ∨ (best, minc) ∈ l) := by
  induction cands with
  | nil =>
    intro min0 b0 memo minc best memo' h
    rw [List.foldl_nil] at h
    simp only [Except.ok.injEq, Prod.mk.injEq] at h
    obtain ⟨h1, h2, h3⟩ := h
    subst h1
    subst h2
    subst h3
    exact ⟨[], memo, rfl, rfl, rfl, le_refl _,
      fun pc hpc => absurd hpc (List.not_mem_nil _), Or.inl ⟨rfl, rfl⟩⟩
  | cons a rest ih =>
    intro min0 b0 memo minc best memo' h
    rw [List.foldl_cons] at h
    cases hrec : recf a.src_pattern_index memo with
    | error e =>
      have hstep : bestStep cat recf (.ok (min0, b0, memo)) a = .error e := by
        unfold bestStep
        dsimp only
        rw [hrec]
      rw [hstep, bestStep_fold_error] at h
      exact absurd h (by simp)
    | ok pr =>
      obtain ⟨⟨oa0, pre⟩, memo1⟩ := pr
      have hstep : bestStep cat recf (.ok (min0, b0, memo)) a
          = if getCostQ cat (pre.add (stepCost cat a)) < getCostQ cat min0
            then .ok (pre.add (stepCost cat a), a, memo1)
            else .ok (min0, b0, memo1) := by
        unfold bestStep
        dsimp only
        rw [hrec]
      have hcleq : costListF cat recf (a :: rest) memo
          = match costListF cat recf rest memo1 with
            | .error e => .error e
            | .ok (l, memo2) => .ok ((a, pre.add (stepCost cat a)) :: l, memo2) := by
        conv_lhs => unfold costListF
        rw [hrec]
      by_cases hlt : getCostQ cat (pre.add (stepCost cat a)) < getCostQ cat min0
      · rw [hstep, if_pos hlt] at h
        obtain ⟨l', memo2, hcl, hm2, hmap, hmono, hall, hatt⟩ :=
          ih (pre.add (stepCost cat a)) a memo1 minc best memo' h
        refine ⟨(a, pre.add (stepCost cat a)) :: l', memo2, ?_, hm2, ?_, ?_, ?_, ?_⟩
        · rw [hcleq, hcl]
        · simp [hmap]
        · exact le_of_lt (lt_of_le_of_lt hmono hlt)
        · intro pc hpc
          rcases List.mem_cons.mp hpc with rfl | hpc2
          · exact hmono
          · exact hall pc hpc2
        · rcases hatt with ⟨he1, he2⟩ | hin
          · right
            rw [he1, he2]
            exact List.mem_cons_self _ _
          · exact Or.inr (List.mem_cons_of_mem _ hin)
      · rw [hstep, if_neg hlt] at h
        obtain ⟨l', memo2, hcl, hm2, hmap, hmono, hall, hatt⟩ :=
          ih min0 b0 memo1 minc best memo' h
        have hge : getCostQ cat min0 ≤ getCostQ cat (pre.add (stepCost cat a)) :=
          le_of_not_lt hlt
        refine ⟨(a, pre.add (stepCost cat a)) :: l', memo2, ?_, hm2, ?_, hmono, ?_, ?_⟩
        · rw [hcleq, hcl]
        · simp [hmap]
        · intro pc hpc
          rcases List.mem_cons.mp hpc with rfl | hpc2
          · exact hmono.trans hge
          · exact hall pc hpc2
        · rcases hatt with ⟨he1, he2⟩ | hin
          · exact Or.inl ⟨he1, he2⟩
          · exact Or.inr (List.mem_cons_of_mem _ hin)

/-- C8: for a catalogue node with no memoized best approach whose
permitted candidate set is non-empty (and enumerates at least one cost
below the `CostCount::max_value()` sentinel),
`set_node_best_approach_recursively` returns a cost attained by one of
the enumerated candidates - the source pattern's recursively computed
best cost plus that approach's step cost - that is no greater (in the
scalar cost order the DP compares by) than the cost of any enumerated
candidate, and memoizes that winning approach on the node. -/
theorem claim_C8 (cat : Catalogue) (fuel n : Nat)
    (memo : List (Nat × Approach)) (node : CatNode)
    (res : Option Approach × CostCount) (memo' : List (Nat × Approach))
    (l : List (Approach × CostCount)) (memoc : List (Nat × Approach))
    (hnode : VMap.get cat.nodes n = some node)
    (hV : node.vertices_num ≠ 1)
    (hmemo : VMap.get memo n = none)
    (hres : setNodeBestApproachRec cat (fuel + 1) n memo = .ok (res, memo'))
    (hlist : costList cat fuel (collectCandidateApproaches cat node) memo
      = .ok (l, memoc))
    (hbelow : ∃ pc ∈ l, getCostQ cat pc.2 < getCostQ cat CostCount.maxValue) :
    l.map Prod.fst = collectCandidateApproaches cat node
    ∧ (∃ best, res.1 = some best ∧ (best, res.2) ∈ l
        ∧ VMap.get memo' n = some best)
    ∧ ∀ pc ∈ l, getCostQ cat res.2 ≤ getCostQ cat pc.2 := by
  unfold setNodeBestApproachRec at hres
  rw [hnode] at hres
  dsimp only at hres
  rw [if_neg hV, hmemo] at hres
  dsimp only at hres
  cases hcands : collectCandidateApproaches cat node with
  | nil =>
    rw [hcands] at hlist
    unfold costList costListF at hlist
    simp only [Except.ok.injEq, Prod.mk.injEq] at hlist
    obtain ⟨hl, _⟩ := hlist
    rw [← hl] at hbelow
    obtain ⟨pc, hpc, _⟩ := hbelow
    exact absurd hpc (List.not_mem_nil _)
  | cons c0 rest =>
    rw [hcands] at hres
    dsimp only at hres
    cases hfold : (c0 :: rest).foldl (bestStep cat (setNodeBestApproachRec cat fuel))
        (.ok (CostCount.maxValue, c0, memo)) with
    | error e =>
      rw [hfold] at hres
      exact absurd hres (by simp)
    | ok t =>
      obtain ⟨minc, best, memo4⟩ := t
      rw [hfold] at hres
      simp only [Except.ok.injEq, Prod.mk.injEq] at hres
      obtain ⟨hres1, hres3⟩ := hres
      obtain ⟨l0, memo2, hcl0, hm2, hmap, hmono, hall, hatt⟩ :=
        bestFold_chars cat (setNodeBestApproachRec cat fuel) (c0 :: rest)
          CostCount.maxValue c0 memo minc best memo4 hfold
      rw [hcands] at hlist
      unfold costList at hlist
      have hLL := hcl0.symm.trans hlist
      simp only [Except.ok.injEq, Prod.mk.injEq] at hLL
      obtain ⟨hLeq, _⟩ := hLL
      subst hLeq
      have hin : (best, minc) ∈ l0 := by
        rcases hatt with ⟨hmv, _⟩ | hin
        · obtain ⟨pc, hpc, hplt⟩ := hbelow
          have := hall pc hpc
          rw [hmv] at this
          exact absurd hplt (not_lt.mpr this)
        · exact hin
      subst hres1
      subst hres3
      refine ⟨hmap, ⟨best, rfl, hin, ?_⟩, ?_⟩
      · rw [VMap.get_insert, if_pos rfl]
      · intro pc hpc
        exact hall pc hpc

instance instDecEqExcept {ε α : Type} [DecidableEq ε] [DecidableEq α] :
    DecidableEq (Except ε α)
  | .error e1, .error e2 =>
    if h : e1 = e2 then isTrue (by rw [h])
    else isFalse (fun hc => h (Except.error.inj hc))
  | .error _, .ok _ => isFalse (fun hc => Except.noConfusion hc)
  | .ok _, .error _ => isFalse (fun hc => Except.noConfusion hc)
  | .ok a1, .ok a2 =>
    if h : a1 = a2 then isTrue (by rw [h])
    else isFalse (fun hc => h (Except.ok.inj hc))

/-- A two-node catalogue: node 1 a single-vertex base pattern of count 10,
node 2 reachable by two approaches of step costs 5 and 3. -/
def c8a1 : Approach := ⟨0, 1, 2⟩

def c8a2 : Approach := ⟨1, 1, 2⟩

def c8Base : CatNode := ⟨1, 10, []⟩

def c8Node : CatNode := ⟨2, 50, [c8a1, c8a2]⟩

def c8Cat : Catalogue :=
  ⟨[(1, c8Base), (2, c8Node)],
    [(0, .extendStep), (1, .binaryJoin)],
    [(0, ⟨5, 0, 0, 0, 0⟩), (1, ⟨3, 0, 0, 0, 0⟩)],
    .Hybrid, 1, 1, 1⟩

theorem claim_C8_witness :
    [(c8a1, (⟨15, 0, 0, 0, 0⟩ : CostCount)), (c8a2, ⟨13, 0, 0, 0, 0⟩)].map Prod.fst
        = collectCandidateApproaches c8Cat c8Node
    ∧ (∃ best, ((some c8a2, (⟨13, 0, 0, 0, 0⟩ : CostCount)) :
          Option Approach × CostCount).1 = some best
        ∧ (best, ((some c8a2, (⟨13, 0, 0, 0, 0⟩ : CostCount)) :
            Option Approach × CostCount).2)
            ∈ [(c8a1, (⟨15, 0, 0, 0, 0⟩ : CostCount)), (c8a2, ⟨13, 0, 0, 0, 0⟩)]
        ∧ VMap.get [(2, c8a2)] 2 = some best)
    ∧ ∀ pc ∈ [(c8a1, (⟨15, 0, 0, 0, 0⟩ : CostCount)), (c8a2, ⟨13, 0, 0, 0, 0⟩)],
        getCostQ c8Cat ((some c8a2, (⟨13, 0, 0, 0, 0⟩ : CostCount)) :
          Option Approach × CostCount).2 ≤ getCostQ c8Cat pc.2 := by
  have hne13 : (⟨13, 0, 0, 0, 0⟩ : CostCount) ≠ CostCount.maxValue := by
    intro hc
    have h2 := congrArg CostCount.instance_count hc
    unfold CostCount.maxValue CostCount.maxValQ at h2
    norm_num at h2
  have hne15 : (⟨15, 0, 0, 0, 0⟩ : CostCount) ≠ CostCount.maxValue := by
    intro hc
    have h2 := congrArg CostCount.instance_count hc
    unfold CostCount.maxValue CostCount.maxValQ at h2
    norm_num at h2
  have h13 : getCostQ c8Cat ⟨13, 0, 0, 0, 0⟩ = 13 := by
    unfold getCostQ
    rw [if_neg hne13]
    show (13 : ℚ) + 0 * c8Cat.alpha + 0 * c8Cat.beta + 0 * c8Cat.w1 + 0 * c8Cat.w1
      = 13
    ring
  have h15 : getCostQ c8Cat ⟨15, 0, 0, 0, 0⟩ = 15 := by
    unfold getCostQ
    rw [if_neg hne15]
    show (15 : ℚ) + 0 * c8Cat.alpha + 0 * c8Cat.beta + 0 * c8Cat.w1 + 0 * c8Cat.w1
      = 15
    ring
  have hmax : getCostQ c8Cat CostCount.maxValue = CostCount.maxValQ := by
    unfold getCostQ
    rw [if_pos rfl]
  have hbase : setNodeBestApproachRec c8Cat 1 1 []
      = .ok ((none, ⟨10, 0, 0, 0, 0⟩), []) := rfl
  have hstep1 : stepCost c8Cat c8a1 = ⟨5, 0, 0, 0, 0⟩ := rfl
  have hstep2 : stepCost c8Cat c8a2 = ⟨3, 0, 0, 0, 0⟩ := rfl
  have hadd5 : CostCount.add ⟨10, 0, 0, 0, 0⟩ (stepCost c8Cat c8a1)
      = ⟨15, 0, 0, 0, 0⟩ := by
    rw [hstep1]
    unfold CostCount.add
    dsimp only
    simp only [CostCount.mk.injEq]
    norm_num
  have hadd3 : CostCount.add ⟨10, 0, 0, 0, 0⟩ (stepCost c8Cat c8a2)
      = ⟨13, 0, 0, 0, 0⟩ := by
    rw [hstep2]
    unfold CostCount.add
    dsimp only
    simp only [CostCount.mk.injEq]
    norm_num
  have hcands : collectCandidateApproaches c8Cat c8Node = [c8a1, c8a2] := rfl
  have hb1 : bestStep c8Cat (setNodeBestApproachRec c8Cat 1)
      (.ok (CostCount.maxValue, c8a1, [])) c8a1
      = .ok (⟨15, 0, 0, 0, 0⟩, c8a1, []) := by
    unfold bestStep
    dsimp only
    rw [show setNodeBestApproachRec c8Cat 1 c8a1.src_pattern_index []
        = .ok ((none, ⟨10, 0, 0, 0, 0⟩), []) from hbase]
    dsimp only
    rw [hadd5, h15, hmax]
    rw [if_pos (by unfold CostCount.maxValQ; norm_num)]
  have hb2 : bestStep c8Cat (setNodeBestApproachRec c8Cat 1)
      (.ok (⟨15, 0, 0, 0, 0⟩, c8a1, [])) c8a2
      = .ok (⟨13, 0, 0, 0, 0⟩, c8a2, []) := by
    unfold bestStep
    dsimp only
    rw [show setNodeBestApproachRec c8Cat 1 c8a2.src_pattern_index []
        = .ok ((none, ⟨10, 0, 0, 0, 0⟩), []) from hbase]
    dsimp only
    rw [hadd3, h13, h15]
    rw [if_pos (by norm_num)]
  have hres : setNodeBestApproachRec c8Cat (1 + 1) 2 []
      = .ok ((some c8a2, ⟨13, 0, 0, 0, 0⟩), [(2, c8a2)]) := by
    conv_lhs => unfold setNodeBestApproachRec
    rw [show VMap.get c8Cat.nodes 2 = some c8Node from rfl]
    dsimp only
    rw [if_neg (by decide)]
    rw [show VMap.get ([] : List (Nat × Approach)) 2 = none from rfl]
    dsimp only
    rw [hcands]
    dsimp only
    rw [List.foldl_cons, hb1, List.foldl_cons, hb2, List.foldl_nil]
    rfl
  have hcl0 : costListF c8Cat (setNodeBestApproachRec c8Cat 1) []
      ([] : List (Nat × Approach)) = .ok ([], []) := rfl
  have hcl1 : costListF c8Cat (setNodeBestApproachRec c8Cat 1) [c8a2] []
      = .ok ([(c8a2, ⟨13, 0, 0, 0, 0⟩)], []) := by
    conv_lhs => unfold costListF
    rw [show setNodeBestApproachRec c8Cat 1 c8a2.src_pattern_index []
        = .ok ((none, ⟨10, 0, 0, 0, 0⟩), []) from hbase]
    dsimp only
    rw [hcl0]
    dsimp only
    rw [hadd3]
  have hcl2 : costListF c8Cat (setNodeBestApproachRec c8Cat 1) [c8a1, c8a2] []
      = .ok ([(c8a1, ⟨15, 0, 0, 0, 0⟩), (c8a2, ⟨13, 0, 0, 0, 0⟩)], []) := by
    conv_lhs => unfold costListF
    rw [show setNodeBestApproachRec c8Cat 1 c8a1.src_pattern_index []
        = .ok ((none, ⟨10, 0, 0, 0, 0⟩), []) from hbase]
    dsimp only
    rw [hcl1]
    dsimp only
    rw [hadd5]
  have hlist : costList c8Cat 1 (collectCandidateApproaches c8Cat c8Node) []
      = .ok ([(c8a1, ⟨15, 0, 0, 0, 0⟩), (c8a2, ⟨13, 0, 0, 0, 0⟩)], []) := by
    rw [hcands]
    unfold costList
    exact hcl2
  have hblt : getCostQ c8Cat ((c8a2, (⟨13, 0, 0, 0, 0⟩ : CostCount)) :
      Approach × CostCount).2 < getCostQ c8Cat CostCount.maxValue := by
    show getCostQ c8Cat ⟨13, 0, 0, 0, 0⟩ < getCostQ c8Cat CostCount.maxValue
    rw [h13, hmax]
    unfold CostCount.maxValQ
    norm_num
  exact claim_C8 c8Cat 1 2 [] c8Node (some c8a2, ⟨13, 0, 0, 0, 0⟩) [(2, c8a2)]
    [(c8a1, ⟨15, 0, 0, 0, 0⟩), (c8a2, ⟨13, 0, 0, 0, 0⟩)] []
    rfl (by decide) rfl hres hlist
    ⟨(c8a2, ⟨13, 0, 0, 0, 0⟩),
      List.mem_cons_of_mem _ (List.mem_cons_self _ _), hblt⟩

end Spec2Proof
